import Mathlib

/-! Oblivious hash insertion: a shallow embedding of `ObliviousHashInsertionPass`.

The development embeds `src/ObliviousHashInsertion.cpp`.  The pass walks every
function, block and instruction of a module and inserts, next to selected
instructions, calls that fold a value into one of `num_hash` global cells
(`hash1` / `hash2`) and calls that log one of the cells (`oh_log`).

Modelling conventions.

* A block is a list of instructions.  An `IRBuilder` positioned before an
  instruction `I` inserts in order right before `I`; positioned after `I` it
  inserts in order right after `I`.  The range-for loop over a block keeps
  walking the list it is mutating, so instructions inserted after `I` are the
  next ones the loop visits; instructions inserted before `I` are never visited.
* `rand()` is a stream `rand : Nat → Nat` together with the number of draws made
  so far (`PassState.drawn`).
* The analyses are arbitrary Boolean functions.  Functions and blocks are keyed
  by what they hold in the input module; an instruction is keyed by its
  identity, type and operands, and so is an instruction the pass created, on
  which the loop queries the analysis as on any other.
* `unique_id_generator` is declared in `Utils.h`, which is not among the sources;
  it is a counter that starts at 0 after `reset`.
* `assert(false)`, `vector::at` out of range and `rand() % 0` end the run with an
  error.
* `IRBuilder` returns its operand unchanged for a cast to the same type, and
  creates no instruction when all operands are constants (constant folding);
  otherwise it creates the instruction asked for.  The validity checks LLVM makes
  on the operand types of a new instruction are not modelled.
-/

namespace oh

/-! ## Types and values -/

/-- The classes of LLVM types the pass distinguishes.  `other` stands for every
type that is neither integer, floating point, pointer nor vector of pointers
(void, arrays, structs, vectors of integers, ...). -/
inductive Ty where
  | int (bits : Nat)
  | float
  | ptr
  | ptrVec
  | other
  deriving DecidableEq, Repr

def Ty.isIntegerTy : Ty → Bool
  | .int _ => true
  | _ => false

def Ty.isPointerTy : Ty → Bool
  | .ptr => true
  | _ => false

def Ty.isPtrOrPtrVectorTy : Ty → Bool
  | .ptr => true
  | .ptrVec => true
  | _ => false

def Ty.isFloatingPointTy : Ty → Bool
  | .float => true
  | _ => false

/-- Values that instructions use as operands.  `inst id ty` is the result of the
instruction `id` of the input module, `arg` a function argument, `const` a
constant of the input module.  `hashPtr i` is the global cell `hashPtrs[i]`
and `nullPtr` the null `i64*`.  The remaining constructors are the results
of the instructions the pass creates (or, on constants, the folded constant):
`zext v bits`, `fptosi v` (to `i64`), `add a b`, `mul a b`. -/
inductive Value where
  | inst (id : Nat) (ty : Ty)
  | arg (id : Nat) (ty : Ty)
  | const (ty : Ty) (n : Nat)
  | hashPtr (index : Nat)
  | nullPtr
  | zext (v : Value) (bits : Nat)
  | fptosi (v : Value)
  | add (a b : Value)
  | mul (a b : Value)
  | void
  deriving DecidableEq, Repr

/-- The type of a value (`v->getType()`). -/
def Value.ty : Value → Ty
  | .inst _ t => t
  | .arg _ t => t
  | .const t _ => t
  | .hashPtr _ => .ptr
  | .nullPtr => .ptr
  | .zext _ bits => .int bits
  | .fptosi _ => .int 64
  | .add a _ => a.ty
  | .mul a _ => a.ty
  | .void => .other

/-- Whether a value is an `llvm::Constant`. -/
def Value.isConstant : Value → Bool
  | .inst _ _ => false
  | .arg _ _ => false
  | .const _ _ => true
  | .hashPtr _ => true
  | .nullPtr => true
  | .zext v _ => v.isConstant
  | .fptosi v => v.isConstant
  | .add a b => a.isConstant && b.isConstant
  | .mul a b => a.isConstant && b.isConstant
  | .void => false

/-! ## Instructions, blocks, functions -/

/-- A function that a call instruction names directly. -/
structure Callee where
  name : String
  isIntrinsic : Bool
  deriving DecidableEq, Repr

inductive CastOp where
  | zext
  | fptosi
  | otherCast
  deriving DecidableEq, Repr

inductive BinOp where
  | add
  | mul
  | otherBin
  deriving DecidableEq, Repr

/-- Opcode and operands of an instruction.  `call none _` is an indirect call
(`getCalledFunction()` is null).  `other` covers every opcode the pass does not
look at (branches, `getelementptr`, `alloca`, ...). -/
inductive InstKind where
  | cmp (pred : Nat) (lhs rhs : Value)
  | ret (val : Option Value)
  | load (pointer : Value)
  | store (val pointer : Value)
  | binop (op : BinOp) (lhs rhs : Value)
  | phi (incoming : List Value)
  | call (callee : Option Callee) (args : List Value)
  | cast (op : CastOp) (v : Value) (dest : Ty)
  | atomicrmw (pointer val : Value)
  | other (operands : List Value)
  deriving DecidableEq, Repr

/-- An instruction of the input module: its identity, result type and kind. -/
structure Instruction where
  id : Nat
  ty : Ty
  kind : InstKind
  deriving DecidableEq, Repr

/-- An instruction of a block under instrumentation: an instruction of the input
module, or one created by the pass. -/
inductive Slot where
  | orig (i : Instruction)
  | ins (k : InstKind)
  deriving DecidableEq, Repr

def Slot.kind : Slot → InstKind
  | .orig i => i.kind
  | .ins k => k

/-- The value an instruction stands for when it is used as an operand. -/
def Slot.value : Slot → Value
  | .orig i => .inst i.id i.ty
  | .ins (.cast .zext v (.int bits)) => .zext v bits
  | .ins (.cast .fptosi v _) => .fptosi v
  | .ins (.binop .add a b) => .add a b
  | .ins (.binop .mul a b) => .mul a b
  | .ins _ => .void

def Slot.inserted : Slot → Bool
  | .orig _ => false
  | .ins _ => true

/-- The input instruction a slot holds, if it is not one the pass created. -/
def Slot.original : Slot → Option Instruction
  | .orig i => some i
  | .ins _ => none

structure BasicBlock (α : Type) where
  label : Nat
  insts : List α
  deriving DecidableEq, Repr

structure Function (α : Type) where
  name : String
  isDeclaration : Bool
  isIntrinsic : Bool
  blocks : List (BasicBlock α)
  deriving DecidableEq, Repr

/-- The input block seen as a block under instrumentation. -/
def BasicBlock.lift (b : BasicBlock Instruction) : BasicBlock Slot :=
  { label := b.label, insts := b.insts.map Slot.orig }

def Function.lift (f : Function Instruction) : Function Slot :=
  { name := f.name, isDeclaration := f.isDeclaration, isIntrinsic := f.isIntrinsic,
    blocks := f.blocks.map BasicBlock.lift }

/-- Delete the instructions the pass created. -/
def BasicBlock.erase (b : BasicBlock Slot) : BasicBlock Instruction :=
  { label := b.label, insts := b.insts.filterMap Slot.original }

def Function.erase (f : Function Slot) : Function Instruction :=
  { name := f.name, isDeclaration := f.isDeclaration, isIntrinsic := f.isIntrinsic,
    blocks := f.blocks.map BasicBlock.erase }

/-! ## Analyses, state, errors -/

/-- The analyses the pass queries.  `getLoopFor F B` is true when
`LoopInfo(F).getLoopFor(&B)` is not null.  Functions and blocks are keyed by
their contents in the input module; `isInputDependent` is asked about the
instructions of the input module and about those the pass created. -/
structure Analyses where
  isInputDependent : Slot → Bool
  is_function_input_independent : Function Instruction → Bool
  is_block_nondeterministic : BasicBlock Instruction → Bool
  getLoopFor : Function Instruction → BasicBlock Instruction → Bool

inductive Err where
  | assertFailed
  | divisionByZero
  | outOfRange
  | outOfFuel
  deriving DecidableEq, Repr

/-- The mutable state of a run: the member `usedHashIndices`, the counter of
`unique_id_generator`, the number of `rand()` draws made, and the local
`modified` of `runOnModule`. -/
structure PassState where
  usedHashIndices : List Nat
  uniqueId : Nat
  drawn : Nat
  modified : Bool
  deriving DecidableEq, Repr

def hashFunc1 : Callee := { name := "hash1", isIntrinsic := false }

def hashFunc2 : Callee := { name := "hash2", isIntrinsic := false }

def logger : Callee := { name := "oh_log", isIntrinsic := false }

/-- The function `get_random`: `rand() % range`. -/
def get_random (rand : Nat → Nat) (range : Nat) (s : PassState) : Except Err (Nat × PassState) :=
  if range = 0 then .error .divisionByZero
  else .ok (rand s.drawn % range, { s with drawn := s.drawn + 1 })

/-- The call `hashPtrs.at(index)`; `setup_hash_values` filled `hashPtrs` with
`num_hash` cells. -/
def hashPtrs_at (num_hash index : Nat) : Except Err Value :=
  if index < num_hash then .ok (.hashPtr index) else .error .outOfRange

/-- Modelled from the spec: `unique_id_generator::next` (declared in `Utils.h`,
which is not among the sources): a monotonic counter, reset at the start of a
run; `next` returns the current count and advances it. -/
def unique_id_next (s : PassState) : Nat × PassState :=
  (s.uniqueId, { s with uniqueId := s.uniqueId + 1 })

/-! ## IRBuilder -/

/-- The builder call `CreateZExtOrBitCast(v, iN)` on integer `v`: `v` itself when
it already has the type, a folded constant when `v` is a constant, else a new
`zext` instruction. -/
def createZExtOrBitCast (v : Value) (bits : Nat) : Value × List InstKind :=
  if v.ty = .int bits then (v, [])
  else if v.isConstant then (.zext v bits, [])
  else (.zext v bits, [.cast .zext v (.int bits)])

/-- The builder call `CreateFPToSI(v, i64)`. -/
def createFPToSI (v : Value) : Value × List InstKind :=
  if v.ty = .int 64 then (v, [])
  else if v.isConstant then (.fptosi v, [])
  else (.fptosi v, [.cast .fptosi v (.int 64)])

/-- The builder call `CreateAdd(a, b)`. -/
def createAdd (a b : Value) : Value × List InstKind :=
  if a.isConstant && b.isConstant then (.add a b, [])
  else (.add a b, [.binop .add a b])

/-- The builder call `CreateMul(a, b)`. -/
def createMul (a b : Value) : Value × List InstKind :=
  if a.isConstant && b.isConstant then (.mul a b, [])
  else (.mul a b, [.binop .mul a b])

/-! ## The pass -/

/-- Lines 80 to 87 of `insertHashBuilder`: draw the cell, record it in
`usedHashIndices`, draw the combining function and create the call.  `c` is the
cast value with the instructions the cast created. -/
def insertHashBuilder_call (num_hash : Nat) (rand : Nat → Nat) (c : Value × List InstKind)
    (s : PassState) : Except Err (Bool × List InstKind × PassState) :=
  match get_random rand num_hash s with
  | .error e => .error e
  | .ok (index, s1) =>
    let s2 := { s1 with usedHashIndices := s1.usedHashIndices ++ [index] }
    match hashPtrs_at num_hash index with
    | .error e => .error e
    | .ok p =>
      match get_random rand 2 s2 with
      | .error e => .error e
      | .ok (coin, s3) =>
        .ok (true, c.2 ++ [.call (some (if coin ≠ 0 then hashFunc1 else hashFunc2)) [p, c.1]], s3)

/-- The method `insertHashBuilder(builder, v)`.  The result holds the returned
Boolean, the instructions created at the insert point of the builder, in
order, and the new state. -/
def insertHashBuilder (num_hash : Nat) (rand : Nat → Nat) (v : Value) (s : PassState) :
    Except Err (Bool × List InstKind × PassState) :=
  if v.ty.isIntegerTy then insertHashBuilder_call num_hash rand (createZExtOrBitCast v 64) s
  else if v.ty.isPtrOrPtrVectorTy then .ok (false, [], s)
  else if v.ty.isFloatingPointTy then insertHashBuilder_call num_hash rand (createFPToSI v) s
  else .error .assertFailed

/-- The method `insertHash(I, v, before)`.  The result holds the instructions
created right before `I`, those created right after `I`, and the new state. -/
def insertHash (num_hash : Nat) (rand : Nat → Nat) (v : Value) (before : Bool) (s : PassState) :
    Except Err (List InstKind × List InstKind × PassState) :=
  if v.ty.isPointerTy then .ok ([], [], s)
  else
    match insertHashBuilder num_hash rand v s with
    | .error e => .error e
    | .ok (_, new, s1) => if before then .ok (new, [], s1) else .ok ([], new, s1)

/-- The method `instrumentInst(I)`: instructions created before `I`, after `I`,
and the new state.  (The C++ method returns no value; its callers ignore it.) -/
def instrumentInst (num_hash : Nat) (rand : Nat → Nat) (I : Slot) (s : PassState) :
    Except Err (List InstKind × List InstKind × PassState) :=
  match I.kind with
  | .cmp pred _ _ =>
    let cmpExt := createZExtOrBitCast I.value 8
    let inner := createAdd cmpExt.1 (.const (.int 8) 1)
    let prod := createMul (.const (.int 8) 64) inner.1
    let val := createAdd prod.1 (.const (.int 8) pred)
    match insertHashBuilder num_hash rand val.1 s with
    | .error e => .error e
    | .ok (_, new, s1) => .ok ([], cmpExt.2 ++ inner.2 ++ prod.2 ++ val.2 ++ new, s1)
  | .ret (some val) => insertHash num_hash rand val true s
  | .load _ => insertHash num_hash rand I.value false s
  | .store val _ => insertHash num_hash rand val false s
  | .binop .add _ _ => insertHash num_hash rand I.value false s
  | _ => .ok ([], [], s)

/-- The method `insertLogger(builder, instr, hashToLogIdx)`: the log call created
at the insert point and the new state. -/
def insertLogger_builder (num_hash : Nat) (hashToLogIdx : Nat) (s : PassState) :
    Except Err (List InstKind × PassState) :=
  match hashPtrs_at num_hash hashToLogIdx with
  | .error e => .error e
  | .ok p => .ok ([.call (some logger) [.const (.int 32) (unique_id_next s).1, p]], (unique_id_next s).2)

/-- The test lines 160 to 165 of `insertLogger` make on a call instruction: a
direct call of a function that is no intrinsic and neither `hash1` nor `hash2`. -/
def isLoggedCall : InstKind → Bool
  | .call (some f) _ => !f.isIntrinsic && f != hashFunc1 && f != hashFunc2
  | _ => false

def InstKind.isCmp : InstKind → Bool
  | .cmp _ _ _ => true
  | _ => false

/-- The method `insertLogger(I)`: the instructions created right before `I` and the
new state. -/
def insertLogger (num_hash : Nat) (rand : Nat → Nat) (I : Slot) (s : PassState) :
    Except Err (List InstKind × PassState) :=
  if s.usedHashIndices.isEmpty then .ok ([], s)
  else if I.kind.isCmp then
    insertLogger_builder num_hash (s.usedHashIndices.getLastD 0) s
  else
    match get_random rand s.usedHashIndices.length s with
    | .error e => .error e
    | .ok (r, s1) =>
      match s1.usedHashIndices[r]? with
      | none => .error .outOfRange
      | some random_hash_idx =>
        if random_hash_idx < num_hash then
          if isLoggedCall I.kind then insertLogger_builder num_hash random_hash_idx s1
          else
            match get_random rand 2 s1 with
            | .error e => .error e
            | .ok (coin, s2) =>
              if coin ≠ 0 then insertLogger_builder num_hash random_hash_idx s2
              else .ok ([], s2)
        else .error .assertFailed

/-- The method `end_logging(I)`: the call `oh_log(0, null)` created right before
`I`.  No method of the pass calls it. -/
def end_logging : List InstKind :=
  [.call (some logger) [.const (.int 32) 0, .nullPtr]]

/-- The test of lines 267 to 272 of `runOnModule`: a direct call of `oh_log`. -/
def isLoggerCall : InstKind → Bool
  | .call (some f) _ => f.name == "oh_log"
  | _ => false

def InstKind.isPhi : InstKind → Bool
  | .phi _ => true
  | _ => false

/-- Lines 273 to 279 of `runOnModule`: instrument `I` unless the analysis reports
it input dependent. -/
def instrumentUnlessDependent (A : Analyses) (num_hash : Nat) (rand : Nat → Nat) (I : Slot)
    (s : PassState) : Except Err (List InstKind × List InstKind × PassState) :=
  if A.isInputDependent I then .ok ([], [], s)
  else
    match instrumentInst num_hash rand I s with
    | .error e => .error e
    | .ok (b, a, s1) => .ok (b, a, { s1 with modified := true })

/-- The body of the instruction loop of `runOnModule` (lines 264 to 285) for the
instruction `I` of a block for which `getLoopFor` gave `inLoop`: the instructions
created right before `I`, those created right after `I`, and the new state. -/
def visitInstruction (A : Analyses) (num_hash : Nat) (rand : Nat → Nat) (inLoop : Bool)
    (I : Slot) (s : PassState) : Except Err (List InstKind × List InstKind × PassState) :=
  if I.kind.isPhi then .ok ([], [], s)
  else if isLoggerCall I.kind then .ok ([], [], s)
  else
    match instrumentUnlessDependent A num_hash rand I s with
    | .error e => .error e
    | .ok (b, a, s1) =>
      if inLoop then .ok (b, a, s1)
      else
        match insertLogger num_hash rand I s1 with
        | .error e => .error e
        | .ok (logs, s2) => .ok (b ++ logs, a, { s2 with modified := true })

/-- The instruction loop of `runOnModule` (line 263) from the instruction at the
head of `rest` on.  The instructions created after the visited instruction are
in front of the rest of the block, so the loop visits them next.  `fuel` bounds
the number of iterations. -/
def visitInstructions (A : Analyses) (num_hash : Nat) (rand : Nat → Nat) (inLoop : Bool) :
    Nat → List Slot → PassState → Except Err (List Slot × PassState)
  | _, [], s => .ok ([], s)
  | 0, _ :: _, _ => .error .outOfFuel
  | fuel + 1, I :: rest, s =>
    match visitInstruction A num_hash rand inLoop I s with
    | .error e => .error e
    | .ok (b, a, s1) =>
      match visitInstructions A num_hash rand inLoop fuel (a.map Slot.ins ++ rest) s1 with
      | .error e => .error e
      | .ok (out, s2) => .ok (b.map Slot.ins ++ I :: out, s2)

/-- A bound on the number of loop iterations an instruction causes: itself and
the instructions created after it (a comparison gets six instructions after it,
two of them additions, which get two instructions each). -/
def iterations : InstKind → Nat
  | .cmp _ _ _ => 11
  | .load _ => 3
  | .store _ _ => 3
  | .binop .add _ _ => 3
  | _ => 1

def iterationsOf (l : List Slot) : Nat :=
  (l.map fun I => iterations I.kind).sum

def iterationsOfKinds (l : List InstKind) : Nat :=
  (l.map iterations).sum

/-- The instruction loop over the block `B`. -/
def runOnBlock (A : Analyses) (num_hash : Nat) (rand : Nat → Nat) (inLoop : Bool)
    (B : BasicBlock Instruction) (s : PassState) : Except Err (BasicBlock Slot × PassState) :=
  match visitInstructions A num_hash rand inLoop (iterationsOf B.lift.insts) B.lift.insts s with
  | .error e => .error e
  | .ok (out, s1) => .ok ({ label := B.label, insts := out }, s1)

/-- The block loop of `runOnModule` (lines 259 to 287) over the blocks of `F` from
the head of the list on.  The head is the last block of `F` exactly when no block
follows it. -/
def runOnBlocks (A : Analyses) (num_hash : Nat) (rand : Nat → Nat) (F : Function Instruction) :
    List (BasicBlock Instruction) → PassState → Except Err (List (BasicBlock Slot) × PassState)
  | [], s => .ok ([], s)
  | B :: rest, s =>
    if A.is_block_nondeterministic B && !rest.isEmpty then
      match runOnBlocks A num_hash rand F rest s with
      | .error e => .error e
      | .ok (out, s1) => .ok (B.lift :: out, s1)
    else
      match runOnBlock A num_hash rand (A.getLoopFor F B) B s with
      | .error e => .error e
      | .ok (B1, s1) =>
        match runOnBlocks A num_hash rand F rest s1 with
        | .error e => .error e
        | .ok (out, s2) => .ok (B1 :: out, s2)

/-- The body of the function loop of `runOnModule` (lines 249 to 288). -/
def runOnFunction (A : Analyses) (num_hash : Nat) (rand : Nat → Nat) (F : Function Instruction)
    (s : PassState) : Except Err (Function Slot × PassState) :=
  if F.isDeclaration || F.isIntrinsic then .ok (F.lift, s)
  else if !A.is_function_input_independent F then .ok (F.lift, s)
  else
    match runOnBlocks A num_hash rand F F.blocks s with
    | .error e => .error e
    | .ok (out, s1) =>
      .ok ({ name := F.name, isDeclaration := F.isDeclaration, isIntrinsic := F.isIntrinsic,
             blocks := out }, s1)

def runOnFunctions (A : Analyses) (num_hash : Nat) (rand : Nat → Nat) :
    List (Function Instruction) → PassState → Except Err (List (Function Slot) × PassState)
  | [], s => .ok ([], s)
  | F :: rest, s =>
    match runOnFunction A num_hash rand F s with
    | .error e => .error e
    | .ok (F1, s1) =>
      match runOnFunctions A num_hash rand rest s1 with
      | .error e => .error e
      | .ok (out, s2) => .ok (F1 :: out, s2)

/-- The state at the start of a run: nothing hashed yet, the id generator reset,
no draw made, `modified` false. -/
def initialState : PassState :=
  { usedHashIndices := [], uniqueId := 0, drawn := 0, modified := false }

/-- The method `runOnModule(M)`: the functions of the module after the run and the
final state; the Boolean the method returns is the field `modified` of that
state.  The declarations of `hash1`, `hash2`, `oh_log` and the `num_hash` global
cells that the setup adds to the module have no body and are not listed. -/
def runOnModule (A : Analyses) (num_hash : Nat) (rand : Nat → Nat)
    (M : List (Function Instruction)) : Except Err (List (Function Slot) × PassState) :=
  runOnFunctions A num_hash rand M initialState

/-! ## Vocabulary of the statements -/

/-- The fold call `insertHashBuilder` creates from state `s` for the cast value `c`:
the first draw picks the cell, the second the combining function. -/
def foldCall (num_hash : Nat) (rand : Nat → Nat) (s : PassState) (c : Value) : InstKind :=
  .call (some (if rand (s.drawn + 1) % 2 ≠ 0 then hashFunc1 else hashFunc2))
    [.hashPtr (rand s.drawn % num_hash), c]

/-- The state after a fold from state `s`. -/
def foldState (num_hash : Nat) (rand : Nat → Nat) (s : PassState) : PassState :=
  { s with usedHashIndices := s.usedHashIndices ++ [rand s.drawn % num_hash], drawn := s.drawn + 2 }

/-- The log call `insertLogger_builder` creates from state `s` for the cell `idx`. -/
def logCall (s : PassState) (idx : Nat) : InstKind :=
  .call (some logger) [.const (.int 32) s.uniqueId, .hashPtr idx]

def InstKind.isCall : InstKind → Bool
  | .call _ _ => true
  | _ => false

/-- A fold call: a direct call of `hash1` or `hash2`. -/
def InstKind.isFoldCall : InstKind → Bool
  | .call (some f) _ => f == hashFunc1 || f == hashFunc2
  | _ => false

/-- The value a fold call hashes: its second argument. -/
def InstKind.hashedValue : InstKind → Option Value
  | .call (some f) [_, c] => if f == hashFunc1 || f == hashFunc2 then some c else none
  | _ => none

/-- The kinds of instruction the pass creates: calls of `hash1`, `hash2` and
`oh_log`, the casts `zext` and `fptosi`, and the `add` and `mul` of the
comparison encoding. -/
def InstKind.isPassKind : InstKind → Bool
  | .call (some f) _ => f == hashFunc1 || f == hashFunc2 || f == logger
  | .cast .zext _ _ => true
  | .cast .fptosi _ _ => true
  | .binop .add _ _ => true
  | .binop .mul _ _ => true
  | _ => false

/-- The value `instrumentInst` builds for a comparison with result `cmp` and
predicate code `pred`, before `insertHashBuilder` widens it to 64 bits. -/
def cmpEncoding (cmp : Value) (pred : Nat) : Value :=
  .add (.mul (.const (.int 8) 64) (.add (.zext cmp 8) (.const (.int 8) 1))) (.const (.int 8) pred)

/-- The unsigned integer a value of integer type holds at run time, given the
integers `env` assigns to the values of the input module: constants are
truncated to their width, `zext` keeps the integer, `add` and `mul` wrap
around at the width of their operands.  No integer is assigned to pointers
and to the result of `fptosi`. -/
def Value.evalInt (env : Value → Nat) : Value → Option Nat
  | .inst id (.int bits) => some (env (.inst id (.int bits)) % 2 ^ bits)
  | .arg id (.int bits) => some (env (.arg id (.int bits)) % 2 ^ bits)
  | .const (.int bits) n => some (n % 2 ^ bits)
  | .zext v _ => v.evalInt env
  | .add a b =>
    match a.ty, a.evalInt env, b.evalInt env with
    | .int bits, some x, some y => some ((x + y) % 2 ^ bits)
    | _, _, _ => none
  | .mul a b =>
    match a.ty, a.evalInt env, b.evalInt env with
    | .int bits, some x, some y => some ((x * y) % 2 ^ bits)
    | _, _, _ => none
  | _ => none

/-- The instructions of the input module. -/
def moduleInsts (M : List (Function Instruction)) : List Instruction :=
  (M.map fun F => (F.blocks.map fun B => B.insts).flatten).flatten

/-- Whether `runOnModule` walks the instructions of `F`. -/
def Analyses.traverses (A : Analyses) (F : Function Instruction) : Bool :=
  !(F.isDeclaration || F.isIntrinsic) && A.is_function_input_independent F

/-- Whether `runOnModule` skips the block `B` at position `j` of `F`: the block is
flagged and is not the last one. -/
def Analyses.skipsBlock (A : Analyses) (F : Function Instruction) (j : Nat)
    (B : BasicBlock Instruction) : Bool :=
  A.is_block_nondeterministic B && decide (j + 1 < F.blocks.length)

/-- The value `c` is `w` as `insertHashBuilder` casts it: `w` itself, its `zext`
to 64 bits or its `fptosi`. -/
def IsCastOf (c w : Value) : Prop :=
  c = w ∨ c = .zext w 64 ∨ c = .fptosi w

/-- The values `instrumentInst` hashes at the instruction `I`: the encoding of a
comparison, the result of a load or of an add, the stored operand of a store,
the returned operand of a return. -/
def HashedAt (I : Slot) (w : Value) : Prop :=
  (I.kind.isCmp = true ∧ ∃ x y, w = .add x y) ∨
  (w = I.value ∧ ((∃ p, I.kind = .load p) ∨ ∃ x y, I.kind = .binop .add x y)) ∨
  (∃ p, I.kind = .store w p) ∨
  I.kind = .ret (some w)

/-- The operand a store stores or a return returns. -/
def InstKind.storedOrReturned : InstKind → Option Value
  | .store v _ => some v
  | .ret (some v) => some v
  | _ => none

/-- The shapes of the instructions the loop body creates at `I`: an instruction
that is no call (a cast, or an `add` or `mul` of the comparison encoding); a fold
call of a cast of a value hashed at `I`, only when `I` is not flagged input
dependent; a log call of a cell, only outside loops. -/
def EmittedShape (A : Analyses) (num_hash : Nat) (rand : Nat → Nat) (inLoop : Bool) (I : Slot)
    (k : InstKind) : Prop :=
  (k.isCall = false ∧ k.isPassKind = true) ∨
  (A.isInputDependent I = false ∧
    ∃ s0 w c, k = foldCall num_hash rand s0 c ∧ IsCastOf c w ∧ HashedAt I w) ∨
  (inLoop = false ∧ ∃ s0 idx, idx < num_hash ∧ k = logCall s0 idx)

/-- The instruction `k` was created while the loop body visited some instruction
`I`, where `I` is one of `cands` or was itself created by the pass. -/
def Emitted (A : Analyses) (num_hash : Nat) (rand : Nat → Nat) (inLoop : Bool)
    (cands : List Instruction) (k : InstKind) : Prop :=
  ∃ (I : Slot) (s : PassState) (b a : List InstKind) (s1 : PassState),
    ((∃ k1, I = Slot.ins k1 ∧ k1.isPassKind = true) ∨ ∃ K, K ∈ cands ∧ I = Slot.orig K) ∧
    visitInstruction A num_hash rand inLoop I s = .ok (b, a, s1) ∧ (k ∈ b ∨ k ∈ a)

/-- What a completed run did with the block `B` at position `j` of `F`, given
the block `B1` at the same position of the output: if `F` is walked and `B` not
skipped, `B1` is the result of the instruction loop over `B` from some state;
otherwise `B1` is `B` itself. -/
def BlockOutcome (A : Analyses) (num_hash : Nat) (rand : Nat → Nat) (F : Function Instruction)
    (j : Nat) (B : BasicBlock Instruction) (B1 : BasicBlock Slot) : Prop :=
  if A.traverses F && !A.skipsBlock F j B then
    ∃ s s1, runOnBlock A num_hash rand (A.getLoopFor F B) B s = .ok (B1, s1)
  else B1 = B.lift

/-! ## Example inputs -/

/-- Analyses that flag nothing: every function is input independent, no block is
non-deterministic or in a loop, no instruction is input dependent. -/
def plainAnalyses : Analyses where
  isInputDependent := fun _ => false
  is_function_input_independent := fun _ => true
  is_block_nondeterministic := fun _ => false
  getLoopFor := fun _ _ => false

/-- The function of the scenario: `%1 = icmp slt a, b; %2 = load i32, p; ret i32 %2`
(40 is the code of `ICMP_SLT`). -/
def scenarioFunction : Function Instruction where
  name := "f"
  isDeclaration := false
  isIntrinsic := false
  blocks := [{ label := 0, insts := [
    { id := 1, ty := .int 1, kind := .cmp 40 (.arg 0 (.int 32)) (.arg 1 (.int 32)) },
    { id := 2, ty := .int 32, kind := .load (.arg 2 .ptr) },
    { id := 3, ty := .other, kind := .ret (some (.inst 2 (.int 32))) }] }]

/-- Analyses that flag exactly the instructions the pass creates. -/
def flagsInserted : Analyses where
  isInputDependent := fun I => I.inserted
  is_function_input_independent := fun _ => true
  is_block_nondeterministic := fun _ => false
  getLoopFor := fun _ _ => false

/-- Analyses that flag the instructions the pass creates and put every block in a
loop. -/
def everyBlockInLoop : Analyses where
  isInputDependent := fun I => I.inserted
  is_function_input_independent := fun _ => true
  is_block_nondeterministic := fun _ => false
  getLoopFor := fun _ _ => true

/-- Analyses that flag the loads and the instructions the pass creates. -/
def flagsLoads : Analyses where
  isInputDependent := fun I => I.inserted || match I.kind with
    | .load _ => true
    | _ => false
  is_function_input_independent := fun _ => true
  is_block_nondeterministic := fun _ => false
  getLoopFor := fun _ _ => false

/-- Analyses that flag the calls and the instructions the pass creates. -/
def flagsCalls : Analyses where
  isInputDependent := fun I => I.inserted || I.kind.isCall
  is_function_input_independent := fun _ => true
  is_block_nondeterministic := fun _ => false
  getLoopFor := fun _ _ => false

/-- Analyses that flag the block with label 0 as non-deterministic and the
instructions the pass creates as input dependent. -/
def flagsBlockZero : Analyses where
  isInputDependent := fun I => I.inserted
  is_function_input_independent := fun _ => true
  is_block_nondeterministic := fun B => B.label == 0
  getLoopFor := fun _ _ => false

/-- The function `g`: `%1 = load i32, p; ret void`. -/
def loadFunction : Function Instruction where
  name := "g"
  isDeclaration := false
  isIntrinsic := false
  blocks := [{ label := 0, insts := [
    { id := 1, ty := .int 32, kind := .load (.arg 0 .ptr) },
    { id := 2, ty := .other, kind := .ret none }] }]

/-- The function `h`: `%1 = load i32, p; store i32 %1, q; ret void`. -/
def storeFunction : Function Instruction where
  name := "h"
  isDeclaration := false
  isIntrinsic := false
  blocks := [{ label := 0, insts := [
    { id := 1, ty := .int 32, kind := .load (.arg 0 .ptr) },
    { id := 2, ty := .other, kind := .store (.inst 1 (.int 32)) (.arg 1 .ptr) },
    { id := 3, ty := .other, kind := .ret none }] }]

/-- The function `r`: `ret i64 a`. -/
def retFunction : Function Instruction where
  name := "r"
  isDeclaration := false
  isIntrinsic := false
  blocks := [{ label := 0, insts := [
    { id := 1, ty := .other, kind := .ret (some (.arg 0 (.int 64))) }] }]

/-- The function `c`: `%1 = icmp slt a, b; ret void`. -/
def cmpFunction : Function Instruction where
  name := "c"
  isDeclaration := false
  isIntrinsic := false
  blocks := [{ label := 0, insts := [
    { id := 1, ty := .int 1, kind := .cmp 40 (.arg 0 (.int 32)) (.arg 1 (.int 32)) },
    { id := 2, ty := .other, kind := .ret none }] }]

/-- The function `e`: `%1 = load i64, p; call void @ext(); ret void`. -/
def callFunction : Function Instruction where
  name := "e"
  isDeclaration := false
  isIntrinsic := false
  blocks := [{ label := 0, insts := [
    { id := 1, ty := .int 64, kind := .load (.arg 0 .ptr) },
    { id := 2, ty := .other, kind := .call (some { name := "ext", isIntrinsic := false }) [] },
    { id := 3, ty := .other, kind := .ret none }] }]

/-- The function `t` of two blocks: `%1 = load i64, p; br` and `%3 = load i64, q;
ret void`. -/
def twoBlockFunction : Function Instruction where
  name := "t"
  isDeclaration := false
  isIntrinsic := false
  blocks := [
    { label := 0, insts := [
      { id := 1, ty := .int 64, kind := .load (.arg 0 .ptr) },
      { id := 2, ty := .other, kind := .other [] }] },
    { label := 1, insts := [
      { id := 3, ty := .int 64, kind := .load (.arg 1 .ptr) },
      { id := 4, ty := .other, kind := .ret none }] }]


/-- The function `a`: `%1 = load i32, p; %2 = add i32 %1, 1; ret void`. -/
def addFunction : Function Instruction where
  name := "a"
  isDeclaration := false
  isIntrinsic := false
  blocks := [{ label := 0, insts := [
    { id := 1, ty := .int 32, kind := .load (.arg 0 .ptr) },
    { id := 2, ty := .int 32, kind := .binop .add (.inst 1 (.int 32)) (.const (.int 32) 1) },
    { id := 3, ty := .other, kind := .ret none }] }]

/-- The cast `insertHashBuilder` makes of a value of integer type (`zext` to 64
bits) or, otherwise, of floating point type (`fptosi`): the cast value and the
instructions the cast creates. -/
def hashCast (v : Value) : Value × List InstKind :=
  if v.ty.isIntegerTy then createZExtOrBitCast v 64 else createFPToSI v

/-- The entries of `usedHashIndices` are indices of cells of the pool. -/
def PassState.indicesInPool (s : PassState) (num_hash : Nat) : Prop :=
  ∀ i, i ∈ s.usedHashIndices → i < num_hash

/-- The function `v`: `ret void`. -/
def retVoidFunction : Function Instruction where
  name := "v"
  isDeclaration := false
  isIntrinsic := false
  blocks := [{ label := 0, insts := [{ id := 1, ty := .other, kind := .ret none }] }]

/-- The number of fold calls in a list of created instructions. -/
def foldCalls (l : List InstKind) : Nat :=
  l.countP InstKind.isFoldCall

/-- The number of fold calls the pass created in a block. -/
def createdFoldCalls (l : List Slot) : Nat :=
  l.countP fun x => x.inserted && x.kind.isFoldCall

/-- The number of fold calls the pass created in the functions `out`. -/
def moduleFoldCalls (out : List (Function Slot)) : Nat :=
  (out.map fun F => (F.blocks.map fun B => createdFoldCalls B.insts).sum).sum

/-- The created instruction `k`, when it is a call of `oh_log`, is a log call of a
cell whose index is an entry of `usedHashIndices` in state `s`. -/
def LogsUsedCell (s : PassState) (k : InstKind) : Prop :=
  isLoggerCall k = true →
    ∃ uid idx, k = .call (some logger) [.const (.int 32) uid, .hashPtr idx] ∧
      idx ∈ s.usedHashIndices

/-- What an instruction of the output says once the outcome of the random draws
is forgotten: an instruction kept as it is, or a fold call of which only the
hashed value is kept. -/
inductive Mark where
  | inst (x : Slot)
  | fold (c : Value)
  deriving DecidableEq, Repr

/-- The part of an output instruction that no random draw decides: nothing for a
created log call, the hashed value for a created fold call (its cell and its
combining function are dropped), and the instruction itself for an instruction
of the input module and for every other created instruction. -/
def Slot.skeleton : Slot → Option Mark
  | .orig i => some (.inst (.orig i))
  | .ins k =>
    if isLoggerCall k then none
    else
      match k.hashedValue with
      | some c => some (.fold c)
      | none => some (.inst (.ins k))

def BasicBlock.skeleton (B : BasicBlock Slot) : BasicBlock Mark :=
  { label := B.label, insts := B.insts.filterMap Slot.skeleton }

def Function.skeleton (F : Function Slot) : Function Mark :=
  { name := F.name, isDeclaration := F.isDeclaration, isIntrinsic := F.isIntrinsic,
    blocks := F.blocks.map BasicBlock.skeleton }

def Mark.isFold : Mark → Bool
  | .fold _ => true
  | .inst _ => false

/-- The number of fold calls in the skeleton of a module. -/
def skeletonFoldCalls (out : List (Function Mark)) : Nat :=
  (out.map fun F => (F.blocks.map fun B => B.insts.countP Mark.isFold).sum).sum

/-! # Theorems -/

/-! ## Insertion only -/

theorem filterMap_original_ins (l : List InstKind) :
    (l.map Slot.ins).filterMap Slot.original = [] := by
  induction l with
  | nil => rfl
  | cons k t ih => rw [List.map_cons, List.filterMap_cons]; exact ih

theorem filterMap_original_orig (l : List Instruction) :
    (l.map Slot.orig).filterMap Slot.original = l := by
  induction l with
  | nil => rfl
  | cons k t ih => rw [List.map_cons, List.filterMap_cons]; simp only [Slot.original, ih]

theorem visitInstructions_erase (A : Analyses) (num_hash : Nat) (rand : Nat → Nat) (inLoop : Bool) :
    ∀ (fuel : Nat) (l : List Slot) (s : PassState) (out : List Slot) (s1 : PassState),
      visitInstructions A num_hash rand inLoop fuel l s = .ok (out, s1) →
      out.filterMap Slot.original = l.filterMap Slot.original := by
  intro fuel
  induction fuel with
  | zero =>
    intro l s out s1 h
    cases l with
    | nil => simp [visitInstructions] at h; simp [h.1]
    | cons I rest => simp [visitInstructions] at h
  | succ fuel ih =>
    intro l s out s1 h
    cases l with
    | nil => simp [visitInstructions] at h; simp [h.1]
    | cons I rest =>
      simp only [visitInstructions] at h
      split at h
      · cases h
      · rename_i b a s2 hv
        split at h
        · cases h
        · rename_i out2 s3 hrec
          simp only [Except.ok.injEq, Prod.mk.injEq] at h
          have := ih _ _ _ _ hrec
          rw [List.filterMap_append, filterMap_original_ins, List.nil_append] at this
          rw [← h.1, List.filterMap_append, filterMap_original_ins, List.nil_append,
            List.filterMap_cons, List.filterMap_cons, this]

theorem runOnBlock_erase (A : Analyses) (num_hash : Nat) (rand : Nat → Nat) (inLoop : Bool)
    (B : BasicBlock Instruction) (s : PassState) (B1 : BasicBlock Slot) (s1 : PassState)
    (h : runOnBlock A num_hash rand inLoop B s = .ok (B1, s1)) : B1.erase = B := by
  unfold runOnBlock at h
  split at h
  · cases h
  · rename_i out s2 hv
    simp only [Except.ok.injEq, Prod.mk.injEq] at h
    have := visitInstructions_erase _ _ _ _ _ _ _ _ _ hv
    rw [← h.1]
    simp only [BasicBlock.erase, this, BasicBlock.lift, filterMap_original_orig]

theorem block_lift_erase (B : BasicBlock Instruction) : B.lift.erase = B := by
  simp only [BasicBlock.erase, BasicBlock.lift, filterMap_original_orig]

theorem runOnBlocks_erase (A : Analyses) (num_hash : Nat) (rand : Nat → Nat)
    (F : Function Instruction) :
    ∀ (l : List (BasicBlock Instruction)) (s : PassState) (out : List (BasicBlock Slot))
      (s1 : PassState),
      runOnBlocks A num_hash rand F l s = .ok (out, s1) → out.map BasicBlock.erase = l := by
  intro l
  induction l with
  | nil => intro s out s1 h; simp [runOnBlocks] at h; simp [h.1]
  | cons B rest ih =>
    intro s out s1 h
    simp only [runOnBlocks] at h
    split at h
    · split at h
      · cases h
      · rename_i out2 s2 hrec
        simp only [Except.ok.injEq, Prod.mk.injEq] at h
        rw [← h.1]
        simp [block_lift_erase, ih _ _ _ hrec]
    · split at h
      · cases h
      · rename_i B1 s2 hb
        split at h
        · cases h
        · rename_i out2 s3 hrec
          simp only [Except.ok.injEq, Prod.mk.injEq] at h
          rw [← h.1]
          simp [runOnBlock_erase _ _ _ _ _ _ _ _ hb, ih _ _ _ hrec]

theorem function_lift_erase (F : Function Instruction) : F.lift.erase = F := by
  cases F
  simp only [Function.erase, Function.lift, List.map_map]
  congr 1
  rw [List.map_congr_left (g := id)]
  · exact List.map_id _
  · intro B _; exact block_lift_erase B

theorem runOnFunction_erase (A : Analyses) (num_hash : Nat) (rand : Nat → Nat)
    (F : Function Instruction) (s : PassState) (F1 : Function Slot) (s1 : PassState)
    (h : runOnFunction A num_hash rand F s = .ok (F1, s1)) : F1.erase = F := by
  unfold runOnFunction at h
  split at h
  · simp only [Except.ok.injEq, Prod.mk.injEq] at h
    rw [← h.1]; exact function_lift_erase F
  · split at h
    · simp only [Except.ok.injEq, Prod.mk.injEq] at h
      rw [← h.1]; exact function_lift_erase F
    · split at h
      · cases h
      · rename_i out s2 hb
        simp only [Except.ok.injEq, Prod.mk.injEq] at h
        rw [← h.1]
        cases F
        simp [Function.erase, runOnBlocks_erase _ _ _ _ _ _ _ _ hb]

theorem runOnFunctions_erase (A : Analyses) (num_hash : Nat) (rand : Nat → Nat) :
    ∀ (l : List (Function Instruction)) (s : PassState) (out : List (Function Slot))
      (s1 : PassState),
      runOnFunctions A num_hash rand l s = .ok (out, s1) → out.map Function.erase = l := by
  intro l
  induction l with
  | nil => intro s out s1 h; simp [runOnFunctions] at h; simp [h.1]
  | cons F rest ih =>
    intro s out s1 h
    simp only [runOnFunctions] at h
    split at h
    · cases h
    · rename_i F1 s2 hf
      split at h
      · cases h
      · rename_i out2 s3 hrec
        simp only [Except.ok.injEq, Prod.mk.injEq] at h
        rw [← h.1]
        simp [runOnFunction_erase _ _ _ _ _ _ _ hf, ih _ _ _ hrec]

/-! ## What the loop body creates -/

theorem insertHashBuilder_call_eq (num_hash : Nat) (rand : Nat → Nat) (c : Value × List InstKind)
    (s : PassState) (hn : num_hash ≠ 0) :
    insertHashBuilder_call num_hash rand c s
      = .ok (true, c.2 ++ [foldCall num_hash rand s c.1], foldState num_hash rand s) := by
  have hlt : rand s.drawn % num_hash < num_hash := Nat.mod_lt _ (Nat.pos_of_ne_zero hn)
  simp [insertHashBuilder_call, get_random, hashPtrs_at, hn, hlt, foldCall, foldState]

theorem insertHashBuilder_call_zero (rand : Nat → Nat) (c : Value × List InstKind)
    (s : PassState) :
    insertHashBuilder_call 0 rand c s = .error .divisionByZero := by
  simp [insertHashBuilder_call, get_random]

theorem insertHashBuilder_call_ok (num_hash : Nat) (rand : Nat → Nat)
    (c : Value × List InstKind) (s : PassState) (r : Bool) (new : List InstKind)
    (s1 : PassState) (h : insertHashBuilder_call num_hash rand c s = .ok (r, new, s1)) :
    num_hash ≠ 0 ∧ r = true ∧ new = c.2 ++ [foldCall num_hash rand s c.1] ∧
      s1 = foldState num_hash rand s := by
  by_cases hn : num_hash = 0
  · subst hn
    rw [insertHashBuilder_call_zero] at h
    cases h
  · rw [insertHashBuilder_call_eq _ _ _ _ hn] at h
    simp only [Except.ok.injEq, Prod.mk.injEq] at h
    exact ⟨hn, h.1.symm, h.2.1.symm, h.2.2.symm⟩

theorem createZExtOrBitCast_shape (v : Value) (bits : Nat) :
    ((createZExtOrBitCast v bits).1 = v ∨ (createZExtOrBitCast v bits).1 = .zext v bits) ∧
    ∀ k, k ∈ (createZExtOrBitCast v bits).2 → k = .cast .zext v (.int bits) := by
  unfold createZExtOrBitCast
  split
  · simp
  · split <;> simp

theorem createFPToSI_shape (v : Value) :
    ((createFPToSI v).1 = v ∨ (createFPToSI v).1 = .fptosi v) ∧
    ∀ k, k ∈ (createFPToSI v).2 → k = .cast .fptosi v (.int 64) := by
  unfold createFPToSI
  split
  · simp
  · split <;> simp

theorem createAdd_shape (a b : Value) :
    (createAdd a b).1 = .add a b ∧ ∀ k, k ∈ (createAdd a b).2 → k = .binop .add a b := by
  unfold createAdd
  split <;> simp

theorem createMul_shape (a b : Value) :
    (createMul a b).1 = .mul a b ∧ ∀ k, k ∈ (createMul a b).2 → k = .binop .mul a b := by
  unfold createMul
  split <;> simp

/-- A completed `insertHashBuilder` either declined, or created casts of `v` and
one fold call of the cast value. -/
theorem insertHashBuilder_ok (num_hash : Nat) (rand : Nat → Nat) (v : Value) (s : PassState)
    (r : Bool) (new : List InstKind) (s1 : PassState)
    (h : insertHashBuilder num_hash rand v s = .ok (r, new, s1)) :
    (r = false ∧ new = [] ∧ s1 = s ∧ v.ty.isPtrOrPtrVectorTy = true) ∨
    (r = true ∧ num_hash ≠ 0 ∧ s1 = foldState num_hash rand s ∧
      ∃ c pre, IsCastOf c v ∧ new = pre ++ [foldCall num_hash rand s c] ∧
        ∀ k, k ∈ pre → k = .cast .zext v (.int 64) ∨ k = .cast .fptosi v (.int 64)) := by
  unfold insertHashBuilder at h
  split at h
  · obtain ⟨hn, hr, hnew, hs⟩ := insertHashBuilder_call_ok _ _ _ _ _ _ _ h
    have hsh := createZExtOrBitCast_shape v 64
    refine Or.inr ⟨hr, hn, hs, _, _, ?_, hnew, fun k hk => Or.inl (hsh.2 k hk)⟩
    rcases hsh.1 with h1 | h1
    · exact Or.inl h1
    · exact Or.inr (Or.inl h1)
  · split at h
    · rename_i hp
      simp only [Except.ok.injEq, Prod.mk.injEq] at h
      exact Or.inl ⟨h.1.symm, h.2.1.symm, h.2.2.symm, hp⟩
    · split at h
      · obtain ⟨hn, hr, hnew, hs⟩ := insertHashBuilder_call_ok _ _ _ _ _ _ _ h
        have hsh := createFPToSI_shape v
        refine Or.inr ⟨hr, hn, hs, _, _, ?_, hnew, fun k hk => Or.inr (hsh.2 k hk)⟩
        rcases hsh.1 with h1 | h1
        · exact Or.inl h1
        · exact Or.inr (Or.inr h1)
      · cases h

/-- A completed `insertHash` either created nothing and left the state alone, or
created, on the side asked for, casts of `v` and one fold call. -/
theorem insertHash_ok (num_hash : Nat) (rand : Nat → Nat) (v : Value) (before : Bool)
    (s : PassState) (b a : List InstKind) (s1 : PassState)
    (h : insertHash num_hash rand v before s = .ok (b, a, s1)) :
    (b = [] ∧ a = [] ∧ s1 = s ∧ v.ty.isPtrOrPtrVectorTy = true) ∨
    (num_hash ≠ 0 ∧ s1 = foldState num_hash rand s ∧
      ∃ c pre, IsCastOf c v ∧
        (if before then b = pre ++ [foldCall num_hash rand s c] ∧ a = []
         else b = [] ∧ a = pre ++ [foldCall num_hash rand s c]) ∧
        ∀ k, k ∈ pre → k = .cast .zext v (.int 64) ∨ k = .cast .fptosi v (.int 64)) := by
  unfold insertHash at h
  split at h
  · rename_i hp
    simp only [Except.ok.injEq, Prod.mk.injEq] at h
    refine Or.inl ⟨h.1.symm, h.2.1.symm, h.2.2.symm, ?_⟩
    cases hv : v.ty <;> simp [hv, Ty.isPointerTy] at hp
    simp [Ty.isPtrOrPtrVectorTy]
  · split at h
    · cases h
    · rename_i r new s2 hb
      rcases insertHashBuilder_ok _ _ _ _ _ _ _ hb with ⟨_, hnew, hs, hp⟩ | ⟨_, hn, hs, c, pre, hc, hnew, hpre⟩
      · left
        subst hnew
        cases before <;> simp only [Except.ok.injEq, Prod.mk.injEq, if_true, if_false, Bool.false_eq_true] at h
        · exact ⟨h.1.symm, h.2.1.symm, by rw [← h.2.2, hs], hp⟩
        · exact ⟨h.1.symm, h.2.1.symm, by rw [← h.2.2, hs], hp⟩
      · right
        refine ⟨hn, ?_, c, pre, hc, ?_, hpre⟩
        · cases before <;> simp only [Except.ok.injEq, Prod.mk.injEq, if_true, if_false, Bool.false_eq_true] at h
          · rw [← h.2.2, hs]
          · rw [← h.2.2, hs]
        · cases before <;> simp only [Except.ok.injEq, Prod.mk.injEq, if_true, if_false, Bool.false_eq_true] at h ⊢
          · exact ⟨h.1.symm, by rw [← h.2.1, hnew]⟩
          · exact ⟨by rw [← h.1, hnew], h.2.1.symm⟩

theorem cast_isPassKind (v : Value) (k : InstKind)
    (h : k = .cast .zext v (.int 64) ∨ k = .cast .fptosi v (.int 64)) :
    k.isCall = false ∧ k.isPassKind = true := by
  rcases h with h | h <;> subst h <;> exact ⟨rfl, rfl⟩

/-- A completed `instrumentInst` either created nothing and left the state alone,
or created one fold call, of a cast of a value it hashes at `I`, after
instructions that are no calls; all of it after `I`, or, for a return, before. -/
theorem instrumentInst_ok (num_hash : Nat) (rand : Nat → Nat) (I : Slot) (s : PassState)
    (b a : List InstKind) (s1 : PassState)
    (h : instrumentInst num_hash rand I s = .ok (b, a, s1)) :
    (b = [] ∧ a = [] ∧ s1 = s) ∨
    (num_hash ≠ 0 ∧ s1 = foldState num_hash rand s ∧
      ∃ w c pre, HashedAt I w ∧ IsCastOf c w ∧
        ((b = [] ∧ a = pre ++ [foldCall num_hash rand s c]) ∨
         (b = pre ++ [foldCall num_hash rand s c] ∧ a = [] ∧ I.kind = .ret (some w))) ∧
        ∀ k, k ∈ pre → k.isCall = false ∧ k.isPassKind = true) := by
  unfold instrumentInst at h
  split at h
  · -- comparison
    rename_i pred lhs rhs hk
    dsimp only at h
    obtain ⟨_, hce⟩ := createZExtOrBitCast_shape I.value 8
    generalize createZExtOrBitCast I.value 8 = ce at h hce
    obtain ⟨_, hin⟩ := createAdd_shape ce.1 (.const (.int 8) 1)
    generalize createAdd ce.1 (.const (.int 8) 1) = inner at h hin
    obtain ⟨hprv, hpr⟩ := createMul_shape (.const (.int 8) 64) inner.1
    generalize createMul (.const (.int 8) 64) inner.1 = prod at h hpr hprv
    obtain ⟨hvv, hva⟩ := createAdd_shape prod.1 (.const (.int 8) pred)
    generalize createAdd prod.1 (.const (.int 8) pred) = val at h hva hvv
    split at h
    · cases h
    · rename_i r new s2 hb
      simp only [Except.ok.injEq, Prod.mk.injEq] at h
      obtain ⟨hb1, ha1, hs1⟩ := h
      rcases insertHashBuilder_ok _ _ _ _ _ _ _ hb with ⟨_, hnew, hs, hp⟩ | ⟨_, hn, hs, c, pre, hc, hnew, hpre⟩
      · exfalso
        rw [hvv, Value.ty, hprv] at hp
        simp [Value.ty, Ty.isPtrOrPtrVectorTy] at hp
      · right
        refine ⟨hn, by rw [← hs1, hs], val.1, c, ce.2 ++ inner.2 ++ prod.2 ++ val.2 ++ pre,
          Or.inl ⟨by simp [hk, InstKind.isCmp], _, _, hvv⟩, hc, Or.inl ⟨hb1.symm, ?_⟩, ?_⟩
        · rw [← ha1, hnew, ← List.append_assoc]
        · intro k hk2
          simp only [List.mem_append] at hk2
          rcases hk2 with (((hk2 | hk2) | hk2) | hk2) | hk2
          · rw [hce k hk2]; exact ⟨rfl, rfl⟩
          · rw [hin k hk2]; exact ⟨rfl, rfl⟩
          · rw [hpr k hk2]; exact ⟨rfl, rfl⟩
          · rw [hva k hk2]; exact ⟨rfl, rfl⟩
          · exact cast_isPassKind _ k (hpre k hk2)
  · -- return of a value
    rename_i val hk
    rcases insertHash_ok _ _ _ _ _ _ _ _ h with ⟨hb, ha, hs, _⟩ | ⟨hn, hs, c, pre, hc, hpos, hpre⟩
    · exact Or.inl ⟨hb, ha, hs⟩
    · simp only [if_true] at hpos
      exact Or.inr ⟨hn, hs, val, c, pre, Or.inr (Or.inr (Or.inr hk)), hc,
        Or.inr ⟨hpos.1, hpos.2, hk⟩, fun k hk2 => cast_isPassKind _ k (hpre k hk2)⟩
  · -- load
    rename_i p hk
    rcases insertHash_ok _ _ _ _ _ _ _ _ h with ⟨hb, ha, hs, _⟩ | ⟨hn, hs, c, pre, hc, hpos, hpre⟩
    · exact Or.inl ⟨hb, ha, hs⟩
    · simp only [if_false, Bool.false_eq_true] at hpos
      exact Or.inr ⟨hn, hs, I.value, c, pre, Or.inr (Or.inl ⟨rfl, Or.inl ⟨p, hk⟩⟩), hc,
        Or.inl hpos, fun k hk2 => cast_isPassKind _ k (hpre k hk2)⟩
  · -- store
    rename_i val p hk
    rcases insertHash_ok _ _ _ _ _ _ _ _ h with ⟨hb, ha, hs, _⟩ | ⟨hn, hs, c, pre, hc, hpos, hpre⟩
    · exact Or.inl ⟨hb, ha, hs⟩
    · simp only [if_false, Bool.false_eq_true] at hpos
      exact Or.inr ⟨hn, hs, val, c, pre, Or.inr (Or.inr (Or.inl ⟨p, hk⟩)), hc,
        Or.inl hpos, fun k hk2 => cast_isPassKind _ k (hpre k hk2)⟩
  · -- add
    rename_i x y hk
    rcases insertHash_ok _ _ _ _ _ _ _ _ h with ⟨hb, ha, hs, _⟩ | ⟨hn, hs, c, pre, hc, hpos, hpre⟩
    · exact Or.inl ⟨hb, ha, hs⟩
    · simp only [if_false, Bool.false_eq_true] at hpos
      exact Or.inr ⟨hn, hs, I.value, c, pre, Or.inr (Or.inl ⟨rfl, Or.inr ⟨x, y, hk⟩⟩), hc,
        Or.inl hpos, fun k hk2 => cast_isPassKind _ k (hpre k hk2)⟩
  · simp only [Except.ok.injEq, Prod.mk.injEq] at h
    exact Or.inl ⟨h.1.symm, h.2.1.symm, h.2.2.symm⟩

theorem insertLogger_builder_ok (num_hash idx : Nat) (s : PassState) (logs : List InstKind)
    (s1 : PassState) (h : insertLogger_builder num_hash idx s = .ok (logs, s1)) :
    idx < num_hash ∧ logs = [logCall s idx] ∧ s1 = { s with uniqueId := s.uniqueId + 1 } := by
  unfold insertLogger_builder hashPtrs_at at h
  split at h
  · cases h
  · rename_i p hp
    split at hp
    · rename_i hlt
      simp only [Except.ok.injEq] at hp
      simp only [Except.ok.injEq, Prod.mk.injEq, unique_id_next] at h
      refine ⟨hlt, ?_, h.2.symm⟩
      rw [← h.1, ← hp]; rfl
    · cases hp

theorem insertLogger_builder_eq (num_hash idx : Nat) (s : PassState) (h : idx < num_hash) :
    insertLogger_builder num_hash idx s
      = .ok ([logCall s idx], { s with uniqueId := s.uniqueId + 1 }) := by
  simp [insertLogger_builder, hashPtrs_at, h, logCall, unique_id_next]

/-- A completed `insertLogger` created nothing, or one log call of a cell whose
index is in `usedHashIndices`; it leaves `usedHashIndices` alone. -/
theorem insertLogger_ok (num_hash : Nat) (rand : Nat → Nat) (I : Slot) (s : PassState)
    (logs : List InstKind) (s1 : PassState)
    (h : insertLogger num_hash rand I s = .ok (logs, s1)) :
    s1.usedHashIndices = s.usedHashIndices ∧
    (logs = [] ∨ ∃ s0 idx, idx ∈ s.usedHashIndices ∧ idx < num_hash ∧ logs = [logCall s0 idx]) := by
  unfold insertLogger at h
  split at h
  · simp only [Except.ok.injEq, Prod.mk.injEq] at h
    exact ⟨by rw [← h.2], Or.inl h.1.symm⟩
  · rename_i hne
    split at h
    · obtain ⟨hlt, hlogs, hs⟩ := insertLogger_builder_ok _ _ _ _ _ h
      refine ⟨by rw [hs], Or.inr ⟨s, _, ?_, hlt, hlogs⟩⟩
      cases hl : s.usedHashIndices with
      | nil => simp [hl] at hne
      | cons x t =>
        rw [List.getLastD_eq_getLast?, List.getLast?_eq_getLast _ (List.cons_ne_nil _ _)]
        exact List.getLast_mem _
    · unfold get_random at h
      split at h
      · cases h
      · rename_i r s2 hr
        split at hr
        · cases hr
        · simp only [Except.ok.injEq, Prod.mk.injEq] at hr
          obtain ⟨_, hs2⟩ := hr
          subst hs2
          split at h
          · cases h
          · rename_i idx hidx
            have hmem : idx ∈ s.usedHashIndices := List.getElem?_mem hidx
            split at h
            · rename_i hlt
              split at h
              · obtain ⟨_, hlogs, hs⟩ := insertLogger_builder_ok _ _ _ _ _ h
                exact ⟨by rw [hs], Or.inr ⟨_, idx, hmem, hlt, hlogs⟩⟩
              · split at h
                · cases h
                · rename_i coin s3 hc
                  split at hc
                  · cases hc
                  · simp only [Except.ok.injEq, Prod.mk.injEq] at hc
                    obtain ⟨_, hs3⟩ := hc
                    subst hs3
                    split at h
                    · obtain ⟨_, hlogs, hs⟩ := insertLogger_builder_ok _ _ _ _ _ h
                      exact ⟨by rw [hs], Or.inr ⟨_, idx, hmem, hlt, hlogs⟩⟩
                    · simp only [Except.ok.injEq, Prod.mk.injEq] at h
                      exact ⟨by rw [← h.2], Or.inl h.1.symm⟩
            · cases h

theorem instrumentUnlessDependent_ok (A : Analyses) (num_hash : Nat) (rand : Nat → Nat)
    (I : Slot) (s : PassState) (b a : List InstKind) (s1 : PassState)
    (h : instrumentUnlessDependent A num_hash rand I s = .ok (b, a, s1)) :
    (A.isInputDependent I = true ∧ b = [] ∧ a = [] ∧ s1 = s) ∨
    (A.isInputDependent I = false ∧ ∃ s2, instrumentInst num_hash rand I s = .ok (b, a, s2) ∧
      s1 = { s2 with modified := true }) := by
  unfold instrumentUnlessDependent at h
  split at h
  · rename_i hd
    simp only [Except.ok.injEq, Prod.mk.injEq] at h
    exact Or.inl ⟨hd, h.1.symm, h.2.1.symm, h.2.2.symm⟩
  · rename_i hd
    split at h
    · cases h
    · rename_i b2 a2 s2 hi
      simp only [Except.ok.injEq, Prod.mk.injEq] at h
      simp only [Bool.not_eq_true] at hd
      refine Or.inr ⟨hd, s2, ?_, h.2.2.symm⟩
      rw [hi, h.1, h.2.1]

theorem visitInstruction_shape (A : Analyses) (num_hash : Nat) (rand : Nat → Nat)
    (inLoop : Bool) (I : Slot) (s : PassState) (b a : List InstKind) (s1 : PassState)
    (h : visitInstruction A num_hash rand inLoop I s = .ok (b, a, s1)) (k : InstKind)
    (hk : k ∈ b ∨ k ∈ a) : EmittedShape A num_hash rand inLoop I k := by
  unfold visitInstruction at h
  split at h
  · simp only [Except.ok.injEq, Prod.mk.injEq] at h
    rw [← h.1, ← h.2.1] at hk
    simp at hk
  · split at h
    · simp only [Except.ok.injEq, Prod.mk.injEq] at h
      rw [← h.1, ← h.2.1] at hk
      simp at hk
    · split at h
      · cases h
      · rename_i b0 a0 s0 hi
        -- the instructions of the instrumentation step
        have hstep : ∀ k, k ∈ b0 ∨ k ∈ a0 → EmittedShape A num_hash rand inLoop I k := by
          intro k hk
          rcases instrumentUnlessDependent_ok _ _ _ _ _ _ _ _ hi with
            ⟨_, hb, ha, _⟩ | ⟨hd, s2, hinst, _⟩
          · rw [hb, ha] at hk; simp at hk
          · rcases instrumentInst_ok _ _ _ _ _ _ _ hinst with
              ⟨hb, ha, _⟩ | ⟨_, _, w, c, pre, hw, hc, hpos, hpre⟩
            · rw [hb, ha] at hk; simp at hk
            · have hmem : k ∈ pre ++ [foldCall num_hash rand s c] := by
                rcases hpos with ⟨hb, ha⟩ | ⟨hb, ha, _⟩
                · rw [hb, ha] at hk; simpa using hk
                · rw [hb, ha] at hk; simpa using hk
              rcases List.mem_append.1 hmem with hm | hm
              · exact Or.inl (hpre k hm)
              · simp only [List.mem_singleton] at hm
                exact Or.inr (Or.inl ⟨hd, s, w, c, hm, hc, hw⟩)
        split at h
        · simp only [Except.ok.injEq, Prod.mk.injEq] at h
          rw [← h.1, ← h.2.1] at hk
          exact hstep k hk
        · rename_i hl
          split at h
          · cases h
          · rename_i logs s2 hlog
            simp only [Except.ok.injEq, Prod.mk.injEq] at h
            rw [← h.1, ← h.2.1] at hk
            rcases hk with hk | hk
            · rcases List.mem_append.1 hk with hk | hk
              · exact hstep k (Or.inl hk)
              · rcases (insertLogger_ok _ _ _ _ _ _ hlog).2 with hl2 | ⟨s3, idx, _, hlt, hl2⟩
                · rw [hl2] at hk; cases hk
                · rw [hl2] at hk
                  simp only [List.mem_singleton] at hk
                  simp only [Bool.not_eq_true] at hl
                  exact Or.inr (Or.inr ⟨hl, s3, idx, hlt, hk⟩)
            · exact hstep k (Or.inr hk)

/-! ## Where created instructions come from -/

theorem foldCall_isPassKind (num_hash : Nat) (rand : Nat → Nat) (s : PassState) (c : Value) :
    (foldCall num_hash rand s c).isPassKind = true := by
  unfold foldCall
  split <;> rfl

theorem foldCall_isFoldCall (num_hash : Nat) (rand : Nat → Nat) (s : PassState) (c : Value) :
    (foldCall num_hash rand s c).isFoldCall = true := by
  unfold foldCall
  split <;> rfl

theorem foldCall_hashedValue (num_hash : Nat) (rand : Nat → Nat) (s : PassState) (c : Value) :
    (foldCall num_hash rand s c).hashedValue = some c := by
  unfold foldCall
  split <;> simp [InstKind.hashedValue, hashFunc1, hashFunc2]

theorem foldCall_not_logger (num_hash : Nat) (rand : Nat → Nat) (s : PassState) (c : Value) :
    isLoggerCall (foldCall num_hash rand s c) = false := by
  unfold foldCall
  split <;> rfl

theorem emittedShape_isPassKind {A : Analyses} {num_hash : Nat} {rand : Nat → Nat}
    {inLoop : Bool} {I : Slot} {k : InstKind} (h : EmittedShape A num_hash rand inLoop I k) :
    k.isPassKind = true := by
  rcases h with ⟨_, h⟩ | ⟨_, s0, w, c, hk, _, _⟩ | ⟨_, s0, idx, _, hk⟩
  · exact h
  · rw [hk]; exact foldCall_isPassKind _ _ _ _
  · rw [hk]; rfl

theorem emitted_mono {A : Analyses} {num_hash : Nat} {rand : Nat → Nat} {inLoop : Bool}
    {c1 c2 : List Instruction} {k : InstKind} (hsub : ∀ K, K ∈ c1 → K ∈ c2)
    (h : Emitted A num_hash rand inLoop c1 k) : Emitted A num_hash rand inLoop c2 k := by
  obtain ⟨I, s, b, a, s1, hI, hv, hk⟩ := h
  refine ⟨I, s, b, a, s1, ?_, hv, hk⟩
  rcases hI with hI | ⟨K, hK, rfl⟩
  · exact Or.inl hI
  · exact Or.inr ⟨K, hsub K hK, rfl⟩

theorem visitInstructions_emitted (A : Analyses) (num_hash : Nat) (rand : Nat → Nat)
    (inLoop : Bool) (cands : List Instruction) :
    ∀ (fuel : Nat) (l : List Slot) (s : PassState) (out : List Slot) (s1 : PassState),
      visitInstructions A num_hash rand inLoop fuel l s = .ok (out, s1) →
      (∀ I, I ∈ l →
        (∃ k1, I = Slot.ins k1 ∧ k1.isPassKind = true) ∨ ∃ K, K ∈ cands ∧ I = Slot.orig K) →
      (∀ k, Slot.ins k ∈ l → Emitted A num_hash rand inLoop cands k) →
      ∀ k, Slot.ins k ∈ out → Emitted A num_hash rand inLoop cands k := by
  intro fuel
  induction fuel with
  | zero =>
    intro l s out s1 h _ _ k hk
    cases l with
    | nil => simp [visitInstructions] at h; rw [h.1] at hk; cases hk
    | cons I rest => simp [visitInstructions] at h
  | succ fuel ih =>
    intro l s out s1 h hl hem k hk
    cases l with
    | nil => simp [visitInstructions] at h; rw [h.1] at hk; cases hk
    | cons I rest =>
      simp only [visitInstructions] at h
      split at h
      · cases h
      · rename_i b a s2 hv
        split at h
        · cases h
        · rename_i out2 s3 hrec
          simp only [Except.ok.injEq, Prod.mk.injEq] at h
          have hI := hl I (List.mem_cons_self _ _)
          have hnew : ∀ k, k ∈ b ∨ k ∈ a → Emitted A num_hash rand inLoop cands k :=
            fun k hk => ⟨I, s, b, a, s2, hI, hv, hk⟩
          rw [← h.1] at hk
          rcases List.mem_append.1 hk with hk | hk
          · obtain ⟨k2, hk2, hEq⟩ := List.mem_map.1 hk
            cases hEq
            exact hnew k (Or.inl hk2)
          · rcases List.mem_cons.1 hk with hk | hk
            · exact hem k (hk ▸ List.mem_cons_self _ _)
            · refine ih _ _ _ _ hrec ?_ ?_ k hk
              · intro J hJ
                rcases List.mem_append.1 hJ with hJ | hJ
                · obtain ⟨k2, hk2, hEq⟩ := List.mem_map.1 hJ
                  exact Or.inl ⟨k2, hEq.symm,
                    emittedShape_isPassKind (visitInstruction_shape _ _ _ _ _ _ _ _ _ hv k2 (Or.inr hk2))⟩
                · exact hl J (List.mem_cons_of_mem _ hJ)
              · intro k2 hk2
                rcases List.mem_append.1 hk2 with hk2 | hk2
                · obtain ⟨k3, hk3, hEq⟩ := List.mem_map.1 hk2
                  cases hEq
                  exact hnew k2 (Or.inr hk3)
                · exact hem k2 (List.mem_cons_of_mem _ hk2)

theorem runOnBlock_emitted (A : Analyses) (num_hash : Nat) (rand : Nat → Nat) (inLoop : Bool)
    (B : BasicBlock Instruction) (s : PassState) (B1 : BasicBlock Slot) (s1 : PassState)
    (h : runOnBlock A num_hash rand inLoop B s = .ok (B1, s1)) (k : InstKind)
    (hk : Slot.ins k ∈ B1.insts) : Emitted A num_hash rand inLoop B.insts k := by
  unfold runOnBlock at h
  split at h
  · cases h
  · rename_i out s2 hv
    simp only [Except.ok.injEq, Prod.mk.injEq] at h
    rw [← h.1] at hk
    refine visitInstructions_emitted A num_hash rand inLoop B.insts _ _ _ _ _ hv ?_ ?_ k hk
    · intro I hI
      obtain ⟨K, hK, hEq⟩ := List.mem_map.1 hI
      exact Or.inr ⟨K, hK, hEq.symm⟩
    · intro k2 hk2
      obtain ⟨K, _, hEq⟩ := List.mem_map.1 hk2
      cases hEq

theorem lift_no_ins (B : BasicBlock Instruction) (k : InstKind) : Slot.ins k ∉ B.lift.insts := by
  intro hk
  obtain ⟨K, _, hEq⟩ := List.mem_map.1 hk
  cases hEq

/-! ## The output block of every input block -/

theorem runOnBlocks_get (A : Analyses) (num_hash : Nat) (rand : Nat → Nat)
    (F : Function Instruction) :
    ∀ (l : List (BasicBlock Instruction)) (s : PassState) (out : List (BasicBlock Slot))
      (s1 : PassState), runOnBlocks A num_hash rand F l s = .ok (out, s1) →
      ∀ (j : Nat) (B : BasicBlock Instruction), l[j]? = some B →
        ∃ B1, out[j]? = some B1 ∧
          if A.is_block_nondeterministic B && decide (j + 1 < l.length) then B1 = B.lift
          else ∃ s2 s3, runOnBlock A num_hash rand (A.getLoopFor F B) B s2 = .ok (B1, s3) := by
  intro l
  induction l with
  | nil => intro s out s1 _ j B hB; simp at hB
  | cons B0 rest ih =>
    intro s out s1 h j B hB
    simp only [runOnBlocks] at h
    split at h
    · rename_i hskip
      split at h
      · cases h
      · rename_i out2 s2 hrec
        simp only [Except.ok.injEq, Prod.mk.injEq] at h
        rw [← h.1]
        cases j with
        | zero =>
          simp only [List.getElem?_cons_zero, Option.some.injEq] at hB
          subst hB
          refine ⟨B0.lift, by simp, ?_⟩
          have : (A.is_block_nondeterministic B0 && decide (0 + 1 < (B0 :: rest).length)) = true := by
            simp only [Bool.and_eq_true, Bool.not_eq_true', List.isEmpty_eq_false] at hskip
            cases rest with
            | nil => exact absurd rfl hskip.2
            | cons _ _ => simp [hskip.1]
          rw [if_pos this]
        | succ j =>
          simp only [List.getElem?_cons_succ] at hB
          obtain ⟨B1, hB1, hout⟩ := ih _ _ _ hrec j B hB
          refine ⟨B1, by simpa using hB1, ?_⟩
          simpa [Nat.succ_lt_succ_iff] using hout
    · rename_i hskip
      split at h
      · cases h
      · rename_i B2 s2 hb
        split at h
        · cases h
        · rename_i out2 s3 hrec
          simp only [Except.ok.injEq, Prod.mk.injEq] at h
          rw [← h.1]
          cases j with
          | zero =>
            simp only [List.getElem?_cons_zero, Option.some.injEq] at hB
            subst hB
            refine ⟨B2, by simp, ?_⟩
            have : ¬ (A.is_block_nondeterministic B0 && decide (0 + 1 < (B0 :: rest).length)) = true := by
              intro hc
              apply hskip
              simp only [Bool.and_eq_true, decide_eq_true_eq] at hc
              cases rest with
              | nil => simp at hc
              | cons _ _ => simp [hc.1]
            rw [if_neg this]
            exact ⟨s, s2, hb⟩
          | succ j =>
            simp only [List.getElem?_cons_succ] at hB
            obtain ⟨B1, hB1, hout⟩ := ih _ _ _ hrec j B hB
            refine ⟨B1, by simpa using hB1, ?_⟩
            simpa [Nat.succ_lt_succ_iff] using hout

theorem runOnFunction_get (A : Analyses) (num_hash : Nat) (rand : Nat → Nat)
    (F : Function Instruction) (s : PassState) (F1 : Function Slot) (s1 : PassState)
    (h : runOnFunction A num_hash rand F s = .ok (F1, s1)) (j : Nat)
    (B : BasicBlock Instruction) (hB : F.blocks[j]? = some B) :
    ∃ B1, F1.blocks[j]? = some B1 ∧ BlockOutcome A num_hash rand F j B B1 := by
  unfold runOnFunction at h
  have hlift : (F.lift).blocks[j]? = some B.lift := by
    simp [Function.lift, hB]
  split at h
  · rename_i hd
    simp only [Except.ok.injEq, Prod.mk.injEq] at h
    rw [← h.1]
    refine ⟨B.lift, hlift, ?_⟩
    simp [BlockOutcome, Analyses.traverses, hd]
  · rename_i hd
    split at h
    · rename_i hi
      simp only [Except.ok.injEq, Prod.mk.injEq] at h
      rw [← h.1]
      refine ⟨B.lift, hlift, ?_⟩
      simp only [Bool.not_eq_true'] at hi
      simp [BlockOutcome, Analyses.traverses, hi]
    · rename_i hi
      split at h
      · cases h
      · rename_i out s2 hb
        simp only [Except.ok.injEq, Prod.mk.injEq] at h
        rw [← h.1]
        obtain ⟨B1, hB1, hout⟩ := runOnBlocks_get A num_hash rand F _ _ _ _ hb j B hB
        refine ⟨B1, hB1, ?_⟩
        have ht : A.traverses F = true := by
          simp only [Bool.not_eq_true', Bool.not_eq_false] at hi hd
          simpa [Analyses.traverses, hi] using hd
        unfold BlockOutcome Analyses.skipsBlock
        rw [ht]
        by_cases hs : (A.is_block_nondeterministic B && decide (j + 1 < F.blocks.length)) = true
        · rw [if_pos hs] at hout
          simp [hs, hout]
        · rw [if_neg hs] at hout
          simp only [Bool.not_eq_true] at hs
          simpa [hs] using hout

theorem runOnFunctions_get (A : Analyses) (num_hash : Nat) (rand : Nat → Nat) :
    ∀ (l : List (Function Instruction)) (s : PassState) (out : List (Function Slot))
      (s1 : PassState), runOnFunctions A num_hash rand l s = .ok (out, s1) →
      ∀ (i : Nat) (F : Function Instruction), l[i]? = some F →
        ∃ F1 s2 s3, out[i]? = some F1 ∧ runOnFunction A num_hash rand F s2 = .ok (F1, s3) := by
  intro l
  induction l with
  | nil => intro s out s1 _ i F hF; simp at hF
  | cons F0 rest ih =>
    intro s out s1 h i F hF
    simp only [runOnFunctions] at h
    split at h
    · cases h
    · rename_i F2 s2 hf
      split at h
      · cases h
      · rename_i out2 s3 hrec
        simp only [Except.ok.injEq, Prod.mk.injEq] at h
        rw [← h.1]
        cases i with
        | zero =>
          simp only [List.getElem?_cons_zero, Option.some.injEq] at hF
          subst hF
          exact ⟨F2, s, s2, by simp, hf⟩
        | succ i =>
          simp only [List.getElem?_cons_succ] at hF
          obtain ⟨F1, s4, s5, hF1, hrun⟩ := ih _ _ _ hrec i F hF
          exact ⟨F1, s4, s5, by simpa using hF1, hrun⟩

/-- The output of a completed run holds, at the position of every input block, the
outcome of that block. -/
theorem runOnModule_get (A : Analyses) (num_hash : Nat) (rand : Nat → Nat)
    (M : List (Function Instruction)) (out : List (Function Slot)) (s : PassState)
    (h : runOnModule A num_hash rand M = .ok (out, s)) (i j : Nat)
    (F : Function Instruction) (B : BasicBlock Instruction)
    (hF : M[i]? = some F) (hB : F.blocks[j]? = some B) :
    ∃ F1 B1, out[i]? = some F1 ∧ F1.blocks[j]? = some B1 ∧
      BlockOutcome A num_hash rand F j B B1 := by
  obtain ⟨F1, s2, s3, hF1, hrun⟩ := runOnFunctions_get A num_hash rand M _ _ _ h i F hF
  obtain ⟨B1, hB1, hout⟩ := runOnFunction_get A num_hash rand F s2 F1 s3 hrun j B hB
  exact ⟨F1, B1, hF1, hB1, hout⟩

/-- Every block of the output of a completed run is the outcome of the input
block at the same position. -/
theorem runOnModule_block_origin (A : Analyses) (num_hash : Nat) (rand : Nat → Nat)
    (M : List (Function Instruction)) (out : List (Function Slot)) (s : PassState)
    (h : runOnModule A num_hash rand M = .ok (out, s))
    (F1 : Function Slot) (B1 : BasicBlock Slot) (hF1 : F1 ∈ out) (hB1 : B1 ∈ F1.blocks) :
    ∃ (i j : Nat) (F : Function Instruction) (B : BasicBlock Instruction),
      M[i]? = some F ∧ F.blocks[j]? = some B ∧ out[i]? = some F1 ∧
      F1.blocks[j]? = some B1 ∧ BlockOutcome A num_hash rand F j B B1 := by
  have herase := runOnFunctions_erase A num_hash rand M initialState out s h
  obtain ⟨i, hi⟩ := List.getElem?_of_mem hF1
  obtain ⟨j, hj⟩ := List.getElem?_of_mem hB1
  have hMi : M[i]? = some F1.erase := by
    rw [← herase, List.getElem?_map, hi]; rfl
  have hBj : F1.erase.blocks[j]? = some B1.erase := by
    simp only [Function.erase, List.getElem?_map, hj]; rfl
  obtain ⟨F2, B2, hF2, hB2, hout⟩ := runOnModule_get A num_hash rand M out s h i j _ _ hMi hBj
  rw [hi] at hF2
  cases hF2
  rw [hj] at hB2
  cases hB2
  exact ⟨i, j, _, _, hMi, hBj, hi, hj, hout⟩

/-- Every instruction a completed run created was emitted by the loop body at
some instruction of the block it is in. -/
theorem runOnModule_emitted (A : Analyses) (num_hash : Nat) (rand : Nat → Nat)
    (M : List (Function Instruction)) (out : List (Function Slot)) (s : PassState)
    (h : runOnModule A num_hash rand M = .ok (out, s))
    (F1 : Function Slot) (B1 : BasicBlock Slot) (k : InstKind)
    (hF1 : F1 ∈ out) (hB1 : B1 ∈ F1.blocks) (hk : Slot.ins k ∈ B1.insts) :
    ∃ F B, F ∈ M ∧ B ∈ F.blocks ∧ Emitted A num_hash rand (A.getLoopFor F B) B.insts k := by
  obtain ⟨i, j, F, B, hF, hB, _, _, hout⟩ :=
    runOnModule_block_origin A num_hash rand M out s h F1 B1 hF1 hB1
  refine ⟨F, B, List.getElem?_mem hF, List.getElem?_mem hB, ?_⟩
  unfold BlockOutcome at hout
  split at hout
  · obtain ⟨s2, s3, hrun⟩ := hout
    exact runOnBlock_emitted A num_hash rand _ B s2 B1 s3 hrun k hk
  · rw [hout] at hk
    exact absurd hk (lift_no_ins B k)

/-! ## The place of every visited instruction in the output -/

/-- The instruction loop keeps every instruction of its work list, in order. -/
theorem visitInstructions_sublist (A : Analyses) (num_hash : Nat) (rand : Nat → Nat)
    (inLoop : Bool) :
    ∀ (fuel : Nat) (l : List Slot) (s : PassState) (out : List Slot) (s1 : PassState),
      visitInstructions A num_hash rand inLoop fuel l s = .ok (out, s1) → l.Sublist out := by
  intro fuel
  induction fuel with
  | zero =>
    intro l s out s1 h
    cases l with
    | nil => exact List.nil_sublist _
    | cons I rest => simp [visitInstructions] at h
  | succ fuel ih =>
    intro l s out s1 h
    cases l with
    | nil => exact List.nil_sublist _
    | cons I rest =>
      simp only [visitInstructions] at h
      split at h
      · cases h
      · rename_i b a s2 hv
        split at h
        · cases h
        · rename_i out2 s3 hrec
          simp only [Except.ok.injEq, Prod.mk.injEq] at h
          rw [← h.1]
          have h2 : rest.Sublist out2 :=
            (List.sublist_append_right _ _).trans (ih _ _ _ _ hrec)
          exact (h2.cons₂ I).trans (List.sublist_append_right _ _)

/-- Every instruction of the work list is visited: the output holds the
instructions its visit created before it right before it, and those created
after it, in order, somewhere after it. -/
theorem visitInstructions_site (A : Analyses) (num_hash : Nat) (rand : Nat → Nat)
    (inLoop : Bool) :
    ∀ (fuel : Nat) (l : List Slot) (s : PassState) (out : List Slot) (s1 : PassState),
      visitInstructions A num_hash rand inLoop fuel l s = .ok (out, s1) →
      ∀ (pre : List Slot) (I : Slot) (post : List Slot), l = pre ++ I :: post →
        ∃ (s2 : PassState) (b a : List InstKind) (s3 : PassState) (o1 o2 : List Slot),
          visitInstruction A num_hash rand inLoop I s2 = .ok (b, a, s3) ∧
          out = o1 ++ b.map Slot.ins ++ I :: o2 ∧ (a.map Slot.ins).Sublist o2 := by
  intro fuel
  induction fuel with
  | zero =>
    intro l s out s1 h pre I post hl
    subst hl
    cases pre <;> simp [visitInstructions] at h
  | succ fuel ih =>
    intro l s out s1 h pre I post hl
    cases l with
    | nil => cases pre <;> simp at hl
    | cons x rest =>
      simp only [visitInstructions] at h
      split at h
      · cases h
      · rename_i b a s2 hv
        split at h
        · cases h
        · rename_i out2 s3 hrec
          simp only [Except.ok.injEq, Prod.mk.injEq] at h
          cases pre with
          | nil =>
            simp only [List.nil_append, List.cons.injEq] at hl
            obtain ⟨hx, _⟩ := hl
            subst hx
            refine ⟨s, b, a, s2, [], out2, hv, by rw [← h.1]; simp, ?_⟩
            exact (List.sublist_append_left _ _).trans
              (visitInstructions_sublist _ _ _ _ _ _ _ _ _ hrec)
          | cons y pre2 =>
            simp only [List.cons_append, List.cons.injEq] at hl
            obtain ⟨_, hrest⟩ := hl
            have hl2 : a.map Slot.ins ++ rest = (a.map Slot.ins ++ pre2) ++ I :: post := by
              rw [hrest, List.append_assoc]
            obtain ⟨s4, b2, a2, s5, o1, o2, hv2, hout, hsub⟩ := ih _ _ _ _ hrec _ _ _ hl2
            refine ⟨s4, b2, a2, s5, b.map Slot.ins ++ x :: o1, o2, hv2, ?_, hsub⟩
            rw [← h.1, hout]
            simp

theorem runOnBlock_site (A : Analyses) (num_hash : Nat) (rand : Nat → Nat) (inLoop : Bool)
    (B : BasicBlock Instruction) (s : PassState) (B1 : BasicBlock Slot) (s1 : PassState)
    (h : runOnBlock A num_hash rand inLoop B s = .ok (B1, s1)) (K : Instruction)
    (hK : K ∈ B.insts) :
    ∃ (s2 : PassState) (b a : List InstKind) (s3 : PassState) (o1 o2 : List Slot),
      visitInstruction A num_hash rand inLoop (Slot.orig K) s2 = .ok (b, a, s3) ∧
      B1.insts = o1 ++ b.map Slot.ins ++ Slot.orig K :: o2 ∧ (a.map Slot.ins).Sublist o2 := by
  unfold runOnBlock at h
  split at h
  · cases h
  · rename_i out s2 hv
    simp only [Except.ok.injEq, Prod.mk.injEq] at h
    rw [← h.1]
    obtain ⟨pre, post, hsplit⟩ := List.append_of_mem hK
    refine visitInstructions_site _ _ _ _ _ _ _ _ _ hv (pre.map Slot.orig) (Slot.orig K)
      (post.map Slot.orig) ?_
    simp [BasicBlock.lift, hsplit]

/-- In the output of a completed run, every instruction `K` of a block that the
run walks was visited by the loop body from some state: the instructions that
visit created before `K` stand right before `K`, and those it created after
`K` follow `K` in order (with what their own visits created in between). -/
theorem runOnModule_site (A : Analyses) (num_hash : Nat) (rand : Nat → Nat)
    (M : List (Function Instruction)) (out : List (Function Slot)) (s : PassState)
    (h : runOnModule A num_hash rand M = .ok (out, s)) (i j : Nat)
    (F : Function Instruction) (B : BasicBlock Instruction) (K : Instruction)
    (hF : M[i]? = some F) (hB : F.blocks[j]? = some B) (hK : K ∈ B.insts)
    (ht : A.traverses F = true) (hs : A.skipsBlock F j B = false) :
    ∃ (F1 : Function Slot) (B1 : BasicBlock Slot) (s2 : PassState) (b a : List InstKind)
      (s3 : PassState) (o1 o2 : List Slot),
      out[i]? = some F1 ∧ F1.blocks[j]? = some B1 ∧
      visitInstruction A num_hash rand (A.getLoopFor F B) (Slot.orig K) s2 = .ok (b, a, s3) ∧
      B1.insts = o1 ++ b.map Slot.ins ++ Slot.orig K :: o2 ∧ (a.map Slot.ins).Sublist o2 := by
  obtain ⟨F1, B1, hF1, hB1, hout⟩ := runOnModule_get A num_hash rand M out s h i j F B hF hB
  unfold BlockOutcome at hout
  rw [ht, hs] at hout
  simp only [Bool.not_false, Bool.and_self, if_true] at hout
  obtain ⟨s2, s3, hrun⟩ := hout
  obtain ⟨s4, b, a, s5, o1, o2, hv, hins, hsub⟩ :=
    runOnBlock_site A num_hash rand _ B s2 B1 s3 hrun K hK
  exact ⟨F1, B1, s4, b, a, s5, o1, o2, hF1, hB1, hv, hins, hsub⟩

/-! ## Comparisons -/

theorem cmp_not_phi_logger (k : InstKind) (h : k.isCmp = true) :
    k.isPhi = false ∧ isLoggerCall k = false ∧ isLoggedCall k = false := by
  cases k <;> simp [InstKind.isCmp] at h
  exact ⟨rfl, rfl, rfl⟩

/-- With a pool that is not empty, `instrumentInst` on a comparison completes: it
creates nothing before the comparison and, after it, instructions ending in the
fold call, and the state is the one after a fold. -/
theorem instrumentInst_cmp (num_hash : Nat) (rand : Nat → Nat) (I : Slot) (s : PassState)
    (hcmp : I.kind.isCmp = true) (hn : num_hash ≠ 0) :
    ∃ pre c, instrumentInst num_hash rand I s
      = .ok ([], pre ++ [foldCall num_hash rand s c], foldState num_hash rand s) := by
  obtain ⟨pred, lhs, rhs, hk⟩ : ∃ p l r, I.kind = InstKind.cmp p l r := by
    cases hI : I.kind <;> simp [hI, InstKind.isCmp] at hcmp
    exact ⟨_, _, _, rfl⟩
  unfold instrumentInst
  rw [hk]
  dsimp only
  have hty : (createAdd (createMul (Value.const (Ty.int 8) 64)
      (createAdd (createZExtOrBitCast I.value 8).1 (Value.const (Ty.int 8) 1)).1).1
      (Value.const (Ty.int 8) pred)).1.ty = .int 8 := by
    rw [(createAdd_shape _ _).1, Value.ty, (createMul_shape _ _).1]
    rfl
  unfold insertHashBuilder
  rw [hty]
  simp only [Ty.isIntegerTy, if_true]
  rw [insertHashBuilder_call_eq _ _ _ _ hn]
  simp only [← List.append_assoc]
  exact ⟨_, _, rfl⟩

theorem getLastD_append_singleton (l : List Nat) (x d : Nat) : (l ++ [x]).getLastD d = x := by
  rw [List.getLastD_eq_getLast?, List.getLast?_append]
  simp

/-- The loop body on a comparison that is not flagged, outside loops, with a pool
that is not empty: it completes, creates before the comparison exactly one log
call and after it instructions ending in the fold call; the fold appends the
index `idx` of its cell to `usedHashIndices`, and the log call names that cell. -/
theorem visitInstruction_cmp (A : Analyses) (num_hash : Nat) (rand : Nat → Nat) (I : Slot)
    (s : PassState) (hcmp : I.kind.isCmp = true) (hflag : A.isInputDependent I = false)
    (hn : num_hash ≠ 0) :
    ∃ (pre : List InstKind) (c : Value) (f : Callee),
      visitInstruction A num_hash rand false I s
        = .ok ([.call (some logger) [.const (.int 32) s.uniqueId, .hashPtr (rand s.drawn % num_hash)]],
               pre ++ [.call (some f) [.hashPtr (rand s.drawn % num_hash), c]],
               { usedHashIndices := s.usedHashIndices ++ [rand s.drawn % num_hash],
                 uniqueId := s.uniqueId + 1, drawn := s.drawn + 2, modified := true }) ∧
      (f = hashFunc1 ∨ f = hashFunc2) := by
  obtain ⟨hphi, hlog, _⟩ := cmp_not_phi_logger I.kind hcmp
  obtain ⟨pre, c, hinst⟩ := instrumentInst_cmp num_hash rand I s hcmp hn
  have hlt : rand s.drawn % num_hash < num_hash := Nat.mod_lt _ (Nat.pos_of_ne_zero hn)
  refine ⟨pre, c, if rand (s.drawn + 1) % 2 ≠ 0 then hashFunc1 else hashFunc2, ?_, ?_⟩
  · unfold visitInstruction instrumentUnlessDependent insertLogger
    simp only [hphi, hlog, hflag, hinst, hcmp, foldState, if_true, if_false, Bool.false_eq_true,
      List.isEmpty_eq_true, List.append_eq_nil, List.cons_ne_self, and_false, getLastD_append_singleton,
      insertLogger_builder_eq _ _ _ hlt, foldCall, logCall, List.nil_append]
  · split
    · exact Or.inl rfl
    · exact Or.inr rfl

/-! ## Instructions flagged input dependent -/

theorem insertLogger_empty (num_hash : Nat) (rand : Nat → Nat) (I : Slot) (s : PassState)
    (h : s.usedHashIndices = []) : insertLogger num_hash rand I s = .ok ([], s) := by
  simp [insertLogger, h]

/-- The loop body at an instruction flagged input dependent creates nothing after
the instruction and at most one log call, of a cell in `usedHashIndices`,
before it; it leaves `usedHashIndices` alone; inside a loop, or when
`usedHashIndices` is empty, it creates nothing. -/
theorem visitInstruction_flagged (A : Analyses) (num_hash : Nat) (rand : Nat → Nat)
    (inLoop : Bool) (I : Slot) (s : PassState) (b a : List InstKind) (s1 : PassState)
    (hflag : A.isInputDependent I = true)
    (h : visitInstruction A num_hash rand inLoop I s = .ok (b, a, s1)) :
    a = [] ∧ s1.usedHashIndices = s.usedHashIndices ∧
    (b = [] ∨ ∃ s0 idx, idx ∈ s.usedHashIndices ∧ b = [logCall s0 idx]) ∧
    ((inLoop = true ∨ s.usedHashIndices = []) → b = []) := by
  unfold visitInstruction at h
  split at h
  · simp only [Except.ok.injEq, Prod.mk.injEq] at h
    exact ⟨h.2.1.symm, by rw [← h.2.2], Or.inl h.1.symm, fun _ => h.1.symm⟩
  · split at h
    · simp only [Except.ok.injEq, Prod.mk.injEq] at h
      exact ⟨h.2.1.symm, by rw [← h.2.2], Or.inl h.1.symm, fun _ => h.1.symm⟩
    · have hstep : instrumentUnlessDependent A num_hash rand I s = .ok ([], [], s) := by
        simp [instrumentUnlessDependent, hflag]
      rw [hstep] at h
      simp only at h
      split at h
      · simp only [Except.ok.injEq, Prod.mk.injEq] at h
        exact ⟨h.2.1.symm, by rw [← h.2.2], Or.inl h.1.symm, fun _ => h.1.symm⟩
      · rename_i hl
        split at h
        · cases h
        · rename_i logs s2 hlog
          simp only [Except.ok.injEq, Prod.mk.injEq, List.nil_append] at h
          obtain ⟨hused, hshape⟩ := insertLogger_ok _ _ _ _ _ _ hlog
          refine ⟨h.2.1.symm, by rw [← h.2.2]; exact hused, ?_, ?_⟩
          · rw [← h.1]
            rcases hshape with hs | ⟨s0, idx, hmem, _, hs⟩
            · exact Or.inl hs
            · exact Or.inr ⟨s0, idx, hmem, hs⟩
          · intro hc
            rcases hc with hc | hc
            · exact absurd hc hl
            · rw [insertLogger_empty _ _ _ _ hc] at hlog
              simp only [Except.ok.injEq, Prod.mk.injEq] at hlog
              rw [← h.1, ← hlog.1]

theorem logCall_not_fold (s : PassState) (idx : Nat) : (logCall s idx).isFoldCall = false := rfl

/-! ## The bound on the iterations is never reached -/

theorem iterationsOfKinds_append (l1 l2 : List InstKind) :
    iterationsOfKinds (l1 ++ l2) = iterationsOfKinds l1 + iterationsOfKinds l2 := by
  simp [iterationsOfKinds]

theorem iterationsOf_append (l1 l2 : List Slot) :
    iterationsOf (l1 ++ l2) = iterationsOf l1 + iterationsOf l2 := by
  simp [iterationsOf]

theorem iterationsOf_ins (l : List InstKind) :
    iterationsOf (l.map Slot.ins) = iterationsOfKinds l := by
  simp [iterationsOf, iterationsOfKinds, Function.comp_def, Slot.kind]

theorem iterationsOf_cons (I : Slot) (l : List Slot) :
    iterationsOf (I :: l) = iterations I.kind + iterationsOf l := by
  simp [iterationsOf]

theorem iterations_pos (k : InstKind) : 1 ≤ iterations k := by
  unfold iterations
  split <;> decide

theorem createZExtOrBitCast_iterations (v : Value) (bits : Nat) :
    iterationsOfKinds (createZExtOrBitCast v bits).2 ≤ 1 := by
  unfold createZExtOrBitCast
  split
  · simp [iterationsOfKinds]
  · split <;> simp [iterationsOfKinds, iterations]

theorem createFPToSI_iterations (v : Value) : iterationsOfKinds (createFPToSI v).2 ≤ 1 := by
  unfold createFPToSI
  split
  · simp [iterationsOfKinds]
  · split <;> simp [iterationsOfKinds, iterations]

theorem createAdd_iterations (a b : Value) : iterationsOfKinds (createAdd a b).2 ≤ 3 := by
  unfold createAdd
  split <;> simp [iterationsOfKinds, iterations]

theorem createMul_iterations (a b : Value) : iterationsOfKinds (createMul a b).2 ≤ 1 := by
  unfold createMul
  split <;> simp [iterationsOfKinds, iterations]

theorem foldCall_iterations (num_hash : Nat) (rand : Nat → Nat) (s : PassState) (c : Value) :
    iterations (foldCall num_hash rand s c) = 1 := rfl

theorem insertHashBuilder_iterations (num_hash : Nat) (rand : Nat → Nat) (v : Value)
    (s : PassState) (r : Bool) (new : List InstKind) (s1 : PassState)
    (h : insertHashBuilder num_hash rand v s = .ok (r, new, s1)) :
    iterationsOfKinds new ≤ 2 := by
  unfold insertHashBuilder at h
  split at h
  · obtain ⟨_, _, hnew, _⟩ := insertHashBuilder_call_ok _ _ _ _ _ _ _ h
    rw [hnew, iterationsOfKinds_append]
    have := createZExtOrBitCast_iterations v 64
    simp only [iterationsOfKinds, List.map_cons, List.map_nil, List.sum_cons, List.sum_nil,
      foldCall_iterations] at this ⊢
    omega
  · split at h
    · simp only [Except.ok.injEq, Prod.mk.injEq] at h
      rw [← h.2.1]
      decide
    · split at h
      · obtain ⟨_, _, hnew, _⟩ := insertHashBuilder_call_ok _ _ _ _ _ _ _ h
        rw [hnew, iterationsOfKinds_append]
        have := createFPToSI_iterations v
        simp only [iterationsOfKinds, List.map_cons, List.map_nil, List.sum_cons, List.sum_nil,
          foldCall_iterations] at this ⊢
        omega
      · cases h

theorem insertHash_iterations (num_hash : Nat) (rand : Nat → Nat) (v : Value) (before : Bool)
    (s : PassState) (b a : List InstKind) (s1 : PassState)
    (h : insertHash num_hash rand v before s = .ok (b, a, s1)) :
    iterationsOfKinds a ≤ 2 := by
  unfold insertHash at h
  split at h
  · simp only [Except.ok.injEq, Prod.mk.injEq] at h
    rw [← h.2.1]
    decide
  · split at h
    · cases h
    · rename_i r new s2 hb
      have hnew := insertHashBuilder_iterations _ _ _ _ _ _ _ hb
      split at h
      · simp only [Except.ok.injEq, Prod.mk.injEq] at h
        rw [← h.2.1]
        decide
      · simp only [Except.ok.injEq, Prod.mk.injEq] at h
        rw [← h.2.1]
        exact hnew

theorem instrumentInst_iterations (num_hash : Nat) (rand : Nat → Nat) (I : Slot)
    (s : PassState) (b a : List InstKind) (s1 : PassState)
    (h : instrumentInst num_hash rand I s = .ok (b, a, s1)) :
    iterationsOfKinds a + 1 ≤ iterations I.kind := by
  unfold instrumentInst at h
  split at h
  · rename_i pred lhs rhs hk
    dsimp only at h
    split at h
    · cases h
    · rename_i r new s2 hb
      simp only [Except.ok.injEq, Prod.mk.injEq] at h
      have h1 := createZExtOrBitCast_iterations I.value 8
      have h2 := createAdd_iterations (createZExtOrBitCast I.value 8).1 (Value.const (Ty.int 8) 1)
      have h3 := createMul_iterations (Value.const (Ty.int 8) 64)
        (createAdd (createZExtOrBitCast I.value 8).1 (Value.const (Ty.int 8) 1)).1
      have h4 := createAdd_iterations (createMul (Value.const (Ty.int 8) 64)
        (createAdd (createZExtOrBitCast I.value 8).1 (Value.const (Ty.int 8) 1)).1).1
        (Value.const (Ty.int 8) pred)
      have h5 := insertHashBuilder_iterations _ _ _ _ _ _ _ hb
      rw [← h.2.1, hk]
      simp only [iterationsOfKinds_append, iterations]
      omega
  · rename_i val hk
    have := insertHash_iterations _ _ _ _ _ _ _ _ h
    rcases insertHash_ok _ _ _ _ _ _ _ _ h with ⟨_, ha, _, _⟩ | ⟨_, _, c, pre, _, hpos, _⟩
    · rw [ha, hk]; simp [iterationsOfKinds, iterations]
    · simp only [if_true] at hpos
      rw [hpos.2, hk]; simp [iterationsOfKinds, iterations]
  · rename_i p hk
    have := insertHash_iterations _ _ _ _ _ _ _ _ h
    rw [hk]
    simp only [iterations]
    omega
  · rename_i val p hk
    have := insertHash_iterations _ _ _ _ _ _ _ _ h
    rw [hk]
    simp only [iterations]
    omega
  · rename_i x y hk
    have := insertHash_iterations _ _ _ _ _ _ _ _ h
    rw [hk]
    simp only [iterations]
    omega
  · simp only [Except.ok.injEq, Prod.mk.injEq] at h
    rw [← h.2.1]
    exact iterations_pos _

theorem visitInstruction_iterations (A : Analyses) (num_hash : Nat) (rand : Nat → Nat)
    (inLoop : Bool) (I : Slot) (s : PassState) (b a : List InstKind) (s1 : PassState)
    (h : visitInstruction A num_hash rand inLoop I s = .ok (b, a, s1)) :
    iterationsOfKinds a + 1 ≤ iterations I.kind := by
  have hnil : iterationsOfKinds [] + 1 ≤ iterations I.kind := iterations_pos _
  unfold visitInstruction at h
  split at h
  · simp only [Except.ok.injEq, Prod.mk.injEq] at h
    rw [← h.2.1]; exact hnil
  · split at h
    · simp only [Except.ok.injEq, Prod.mk.injEq] at h
      rw [← h.2.1]; exact hnil
    · split at h
      · cases h
      · rename_i b0 a0 s0 hi
        have ha0 : iterationsOfKinds a0 + 1 ≤ iterations I.kind := by
          rcases instrumentUnlessDependent_ok _ _ _ _ _ _ _ _ hi with
            ⟨_, _, ha, _⟩ | ⟨_, s2, hinst, _⟩
          · rw [ha]; exact hnil
          · exact instrumentInst_iterations _ _ _ _ _ _ _ hinst
        split at h
        · simp only [Except.ok.injEq, Prod.mk.injEq] at h
          rw [← h.2.1]; exact ha0
        · split at h
          · cases h
          · simp only [Except.ok.injEq, Prod.mk.injEq] at h
            rw [← h.2.1]; exact ha0

theorem get_random_fuel (rand : Nat → Nat) (range : Nat) (s : PassState) :
    get_random rand range s ≠ .error .outOfFuel := by
  unfold get_random
  split <;> simp

theorem insertHashBuilder_call_fuel (num_hash : Nat) (rand : Nat → Nat)
    (c : Value × List InstKind) (s : PassState) :
    insertHashBuilder_call num_hash rand c s ≠ .error .outOfFuel := by
  by_cases hn : num_hash = 0
  · subst hn
    rw [insertHashBuilder_call_zero]
    simp
  · rw [insertHashBuilder_call_eq _ _ _ _ hn]
    simp

theorem insertHashBuilder_fuel (num_hash : Nat) (rand : Nat → Nat) (v : Value) (s : PassState) :
    insertHashBuilder num_hash rand v s ≠ .error .outOfFuel := by
  unfold insertHashBuilder
  split
  · exact insertHashBuilder_call_fuel _ _ _ _
  · split
    · simp
    · split
      · exact insertHashBuilder_call_fuel _ _ _ _
      · simp

theorem insertHash_fuel (num_hash : Nat) (rand : Nat → Nat) (v : Value) (before : Bool)
    (s : PassState) : insertHash num_hash rand v before s ≠ .error .outOfFuel := by
  unfold insertHash
  split
  · simp
  · split
    · rename_i e he
      intro h
      simp only [Except.error.injEq] at h
      rw [h] at he
      exact insertHashBuilder_fuel _ _ _ _ he
    · split <;> simp

theorem instrumentInst_fuel (num_hash : Nat) (rand : Nat → Nat) (I : Slot) (s : PassState) :
    instrumentInst num_hash rand I s ≠ .error .outOfFuel := by
  unfold instrumentInst
  split
  · dsimp only
    split
    · rename_i e he
      intro h
      simp only [Except.error.injEq] at h
      rw [h] at he
      exact insertHashBuilder_fuel _ _ _ _ he
    · simp
  · exact insertHash_fuel _ _ _ _ _
  · exact insertHash_fuel _ _ _ _ _
  · exact insertHash_fuel _ _ _ _ _
  · exact insertHash_fuel _ _ _ _ _
  · simp

theorem insertLogger_builder_fuel (num_hash idx : Nat) (s : PassState) :
    insertLogger_builder num_hash idx s ≠ .error .outOfFuel := by
  unfold insertLogger_builder hashPtrs_at
  split
  · rename_i e he
    split at he
    · cases he
    · simp only [Except.error.injEq] at he
      rw [← he]
      simp
  · simp

theorem insertLogger_fuel (num_hash : Nat) (rand : Nat → Nat) (I : Slot) (s : PassState) :
    insertLogger num_hash rand I s ≠ .error .outOfFuel := by
  unfold insertLogger
  split
  · simp
  · split
    · exact insertLogger_builder_fuel _ _ _
    · split
      · rename_i e he
        intro h
        simp only [Except.error.injEq] at h
        rw [h] at he
        exact get_random_fuel _ _ _ he
      · split
        · simp
        · split
          · split
            · exact insertLogger_builder_fuel _ _ _
            · split
              · rename_i e he
                intro h
                simp only [Except.error.injEq] at h
                rw [h] at he
                exact get_random_fuel _ _ _ he
              · split
                · exact insertLogger_builder_fuel _ _ _
                · simp
          · simp

theorem visitInstruction_fuel (A : Analyses) (num_hash : Nat) (rand : Nat → Nat)
    (inLoop : Bool) (I : Slot) (s : PassState) :
    visitInstruction A num_hash rand inLoop I s ≠ .error .outOfFuel := by
  unfold visitInstruction
  split
  · simp
  · split
    · simp
    · split
      · rename_i e he
        intro h
        simp only [Except.error.injEq] at h
        rw [h] at he
        unfold instrumentUnlessDependent at he
        split at he
        · cases he
        · split at he
          · rename_i e2 he2
            simp only [Except.error.injEq] at he
            rw [he] at he2
            exact instrumentInst_fuel _ _ _ _ he2
          · cases he
      · split
        · simp
        · split
          · rename_i e he
            intro h
            simp only [Except.error.injEq] at h
            rw [h] at he
            exact insertLogger_fuel _ _ _ _ he
          · simp

/-- The instruction loop never reaches the bound on its iterations when it starts
with at least `iterationsOf l`. -/
theorem visitInstructions_fuel (A : Analyses) (num_hash : Nat) (rand : Nat → Nat)
    (inLoop : Bool) :
    ∀ (fuel : Nat) (l : List Slot) (s : PassState), iterationsOf l ≤ fuel →
      visitInstructions A num_hash rand inLoop fuel l s ≠ .error .outOfFuel := by
  intro fuel
  induction fuel with
  | zero =>
    intro l s hle
    cases l with
    | nil => simp [visitInstructions]
    | cons I rest =>
      rw [iterationsOf_cons] at hle
      have := iterations_pos I.kind
      omega
  | succ fuel ih =>
    intro l s hle
    cases l with
    | nil => simp [visitInstructions]
    | cons I rest =>
      simp only [visitInstructions]
      split
      · rename_i e he
        intro h
        simp only [Except.error.injEq] at h
        rw [h] at he
        exact visitInstruction_fuel _ _ _ _ _ _ he
      · rename_i b a s1 hv
        have hbound := visitInstruction_iterations _ _ _ _ _ _ _ _ _ hv
        rw [iterationsOf_cons] at hle
        have hrest : iterationsOf (a.map Slot.ins ++ rest) ≤ fuel := by
          rw [iterationsOf_append, iterationsOf_ins]
          omega
        split
        · rename_i e he
          intro h
          simp only [Except.error.injEq] at h
          rw [h] at he
          exact ih _ _ hrest he
        · simp

theorem runOnBlock_fuel (A : Analyses) (num_hash : Nat) (rand : Nat → Nat) (inLoop : Bool)
    (B : BasicBlock Instruction) (s : PassState) :
    runOnBlock A num_hash rand inLoop B s ≠ .error .outOfFuel := by
  unfold runOnBlock
  split
  · rename_i e he
    intro h
    simp only [Except.error.injEq] at h
    rw [h] at he
    exact visitInstructions_fuel _ _ _ _ _ _ _ (Nat.le_refl _) he
  · simp

theorem runOnBlocks_fuel (A : Analyses) (num_hash : Nat) (rand : Nat → Nat)
    (F : Function Instruction) :
    ∀ (l : List (BasicBlock Instruction)) (s : PassState),
      runOnBlocks A num_hash rand F l s ≠ .error .outOfFuel := by
  intro l
  induction l with
  | nil => intro s; simp [runOnBlocks]
  | cons B rest ih =>
    intro s
    simp only [runOnBlocks]
    split
    · split
      · rename_i e he
        intro h
        simp only [Except.error.injEq] at h
        rw [h] at he
        exact ih _ he
      · simp
    · split
      · rename_i e he
        intro h
        simp only [Except.error.injEq] at h
        rw [h] at he
        exact runOnBlock_fuel _ _ _ _ _ _ he
      · split
        · rename_i e he
          intro h
          simp only [Except.error.injEq] at h
          rw [h] at he
          exact ih _ he
        · simp

theorem runOnFunction_fuel (A : Analyses) (num_hash : Nat) (rand : Nat → Nat)
    (F : Function Instruction) (s : PassState) :
    runOnFunction A num_hash rand F s ≠ .error .outOfFuel := by
  unfold runOnFunction
  split
  · simp
  · split
    · simp
    · split
      · rename_i e he
        intro h
        simp only [Except.error.injEq] at h
        rw [h] at he
        exact runOnBlocks_fuel _ _ _ _ _ _ he
      · simp

theorem runOnFunctions_fuel (A : Analyses) (num_hash : Nat) (rand : Nat → Nat) :
    ∀ (l : List (Function Instruction)) (s : PassState),
      runOnFunctions A num_hash rand l s ≠ .error .outOfFuel := by
  intro l
  induction l with
  | nil => intro s; simp [runOnFunctions]
  | cons F rest ih =>
    intro s
    simp only [runOnFunctions]
    split
    · rename_i e he
      intro h
      simp only [Except.error.injEq] at h
      rw [h] at he
      exact runOnFunction_fuel _ _ _ _ _ he
    · split
      · rename_i e he
        intro h
        simp only [Except.error.injEq] at h
        rw [h] at he
        exact ih _ he
      · simp

/-- The bound on the iterations of the instruction loop is adequate: a run never
ends because it was reached. -/
theorem runOnModule_fuel (A : Analyses) (num_hash : Nat) (rand : Nat → Nat)
    (M : List (Function Instruction)) :
    runOnModule A num_hash rand M ≠ .error .outOfFuel :=
  runOnFunctions_fuel A num_hash rand M initialState

/-! ## Claims -/

/-- C1: whenever `runOnModule` completes, deleting from the output the instructions
the run created gives back the input module: every function and block is there
with the same name and label, and every block holds exactly its original
instructions, in the original order, each with its kind, type and operands
unchanged. -/
theorem runOnModule_only_inserts (A : Analyses) (num_hash : Nat) (rand : Nat → Nat)
    (M : List (Function Instruction)) (out : List (Function Slot)) (s : PassState)
    (h : runOnModule A num_hash rand M = .ok (out, s)) :
    out.map Function.erase = M :=
  runOnFunctions_erase A num_hash rand M initialState out s h

/-- Witness for C1: the run over the scenario function with two cells completes,
and erasing the created instructions gives the scenario function back. -/
theorem runOnModule_only_inserts_witness :
    ∃ out s, runOnModule plainAnalyses 2 (fun n => n) [scenarioFunction] = .ok (out, s) ∧
      out.map Function.erase = [scenarioFunction] := by
  cases h : runOnModule plainAnalyses 2 (fun n => n) [scenarioFunction] with
  | error e =>
    have h2 : (runOnModule plainAnalyses 2 (fun n => n) [scenarioFunction]).toOption.isSome
        = true := by decide
    rw [h] at h2
    cases h2
  | ok r =>
    exact ⟨r.1, r.2, rfl, runOnModule_only_inserts _ _ _ _ _ _ h⟩

theorem mem_moduleInsts (M : List (Function Instruction)) (F : Function Instruction)
    (B : BasicBlock Instruction) (K : Instruction) (hF : F ∈ M) (hB : B ∈ F.blocks)
    (hK : K ∈ B.insts) : K ∈ moduleInsts M := by
  unfold moduleInsts
  simp only [List.mem_flatten, List.mem_map]
  exact ⟨_, ⟨F, hF, rfl⟩, List.mem_flatten.2 ⟨_, List.mem_map.2 ⟨B, hB, rfl⟩, hK⟩⟩

/-- C2, counterexample: on `%1 = load i32, p; ret void`, with one cell and nothing
flagged, the run puts a `zext` instruction, which is no call, after the load. -/
theorem runOnModule_inserts_cast :
    runOnModule plainAnalyses 1 (fun _ => 0) [loadFunction]
      = .ok ([⟨"g", false, false, [⟨0, [
          .orig ⟨1, .int 32, .load (.arg 0 .ptr)⟩,
          .ins (.cast .zext (.inst 1 (.int 32)) (.int 64)),
          .ins (.call (some hashFunc2) [.hashPtr 0, .zext (.inst 1 (.int 32)) 64]),
          .orig ⟨2, .other, .ret none⟩]⟩]⟩],
        ⟨[0], 0, 10, true⟩) ∧
    (InstKind.cast .zext (.inst 1 (.int 32)) (.int 64)).isCall = false :=
  ⟨rfl, rfl⟩

/-- C2, amended: every instruction a completed run created in a function body is a
call of `hash1`, `hash2` or `oh_log`, a `zext` or `fptosi` cast, or an `add` or
`mul`; nothing else is added. -/
theorem runOnModule_inserted_kinds (A : Analyses) (num_hash : Nat) (rand : Nat → Nat)
    (M : List (Function Instruction)) (out : List (Function Slot)) (s : PassState)
    (h : runOnModule A num_hash rand M = .ok (out, s))
    (F1 : Function Slot) (B1 : BasicBlock Slot) (k : InstKind)
    (hF1 : F1 ∈ out) (hB1 : B1 ∈ F1.blocks) (hk : Slot.ins k ∈ B1.insts) :
    k.isPassKind = true := by
  obtain ⟨F, B, _, _, I, s2, b, a, s3, _, hv, hmem⟩ :=
    runOnModule_emitted A num_hash rand M out s h F1 B1 k hF1 hB1 hk
  exact emittedShape_isPassKind (visitInstruction_shape _ _ _ _ _ _ _ _ _ hv k hmem)

/-- Witness for C2: the run over the scenario function completes and every
instruction it created is of one of the kinds listed. -/
theorem runOnModule_inserted_kinds_witness :
    ∃ out s, runOnModule plainAnalyses 2 (fun n => n) [scenarioFunction] = .ok (out, s) ∧
      ∀ F1 ∈ out, ∀ B1 ∈ F1.blocks, ∀ k, Slot.ins k ∈ B1.insts → k.isPassKind = true := by
  cases h : runOnModule plainAnalyses 2 (fun n => n) [scenarioFunction] with
  | error e =>
    have h2 : (runOnModule plainAnalyses 2 (fun n => n) [scenarioFunction]).toOption.isSome
        = true := by decide
    rw [h] at h2
    cases h2
  | ok r =>
    exact ⟨r.1, r.2, rfl, fun F1 hF1 B1 hB1 k hk =>
      runOnModule_inserted_kinds _ _ _ _ _ _ h F1 B1 k hF1 hB1 hk⟩

/-- C3, counterexample: in `%1 = load i32, p; store i32 %1, q; ret void` the load
is flagged input dependent and the store is not; the run hashes the stored
operand, so the output has a fold call whose hashed argument is the `zext` of
the value of the flagged load. -/
theorem runOnModule_folds_flagged_stored_value :
    flagsLoads.isInputDependent (.orig ⟨1, .int 32, .load (.arg 0 .ptr)⟩) = true ∧
    flagsLoads.isInputDependent
      (.orig ⟨2, .other, .store (.inst 1 (.int 32)) (.arg 1 .ptr)⟩) = false ∧
    runOnModule flagsLoads 1 (fun _ => 0) [storeFunction]
      = .ok ([⟨"h", false, false, [⟨0, [
          .orig ⟨1, .int 32, .load (.arg 0 .ptr)⟩,
          .orig ⟨2, .other, .store (.inst 1 (.int 32)) (.arg 1 .ptr)⟩,
          .ins (.cast .zext (.inst 1 (.int 32)) (.int 64)),
          .ins (.call (some hashFunc2) [.hashPtr 0, .zext (.inst 1 (.int 32)) 64]),
          .orig ⟨3, .other, .ret none⟩]⟩]⟩],
        ⟨[0], 0, 10, true⟩) ∧
    (InstKind.call (some hashFunc2) [.hashPtr 0, .zext (.inst 1 (.int 32)) 64]).hashedValue
      = some (.zext (Slot.orig ⟨1, .int 32, .load (.arg 0 .ptr)⟩).value 64) :=
  ⟨rfl, rfl, rfl, rfl⟩

theorem isCastOf_inst_of_isCastOf {c w : Value} {id : Nat} {t : Ty}
    (h1 : IsCastOf c w) (h2 : IsCastOf c (.inst id t)) : IsCastOf w (.inst id t) := by
  rcases h1 with h1 | h1 | h1
  · rw [← h1]; exact h2
  · rcases h2 with h2 | h2 | h2
    · rw [h1] at h2; cases h2
    · rw [h1] at h2
      injection h2 with h2 _
      exact Or.inl h2
    · rw [h1] at h2; cases h2
  · rcases h2 with h2 | h2 | h2
    · rw [h1] at h2; cases h2
    · rw [h1] at h2; cases h2
    · rw [h1] at h2
      injection h2 with h2
      exact Or.inl h2

theorem hashedValue_of_not_call (k : InstKind) (h : k.isCall = false) : k.hashedValue = none := by
  cases k <;> simp [InstKind.isCall] at h <;> rfl

/-- C3, amended: let `J` be flagged input dependent and be the only instruction of
the module with its id.  If no instruction that is not flagged stores or returns
the value of `J` or a cast of it, then no fold call a completed run created
hashes the value of `J` or a cast of it. -/
theorem runOnModule_excludes_flagged_value (A : Analyses) (num_hash : Nat) (rand : Nat → Nat)
    (M : List (Function Instruction)) (out : List (Function Slot)) (s : PassState)
    (J : Instruction)
    (h : runOnModule A num_hash rand M = .ok (out, s))
    (hflag : A.isInputDependent (.orig J) = true)
    (huniq : ∀ K ∈ moduleInsts M, K.id = J.id → K = J)
    (hop : ∀ K ∈ moduleInsts M, A.isInputDependent (.orig K) = false →
      ∀ w, K.kind.storedOrReturned = some w → ¬ IsCastOf w (Slot.orig J).value)
    (F1 : Function Slot) (B1 : BasicBlock Slot) (k : InstKind) (c : Value)
    (hF1 : F1 ∈ out) (hB1 : B1 ∈ F1.blocks) (hk : Slot.ins k ∈ B1.insts)
    (hc : k.hashedValue = some c) :
    ¬ IsCastOf c (Slot.orig J).value := by
  intro hcast
  obtain ⟨F, B, hF, hB, I, s2, b, a, s3, hI, hv, hmem⟩ :=
    runOnModule_emitted A num_hash rand M out s h F1 B1 k hF1 hB1 hk
  rcases visitInstruction_shape _ _ _ _ _ _ _ _ _ hv k hmem with
    ⟨hnc, _⟩ | ⟨hunflag, s0, w, c2, hk2, hcw, hw⟩ | ⟨_, s0, idx, _, hk2⟩
  · rw [hashedValue_of_not_call k hnc] at hc
    cases hc
  · rw [hk2, foldCall_hashedValue] at hc
    injection hc with hc
    subst hc
    have hwJ : IsCastOf w (Slot.orig J).value := isCastOf_inst_of_isCastOf hcw hcast
    rcases hw with ⟨_, x, y, hadd⟩ | ⟨hval, hkind⟩ | ⟨p, hst⟩ | hret
    · subst hadd
      rcases hwJ with h1 | h1 | h1 <;> cases h1
    · rcases hI with ⟨k1, hI, _⟩ | ⟨K, hK, hI⟩
      · subst hI
        rcases hkind with ⟨p, hp⟩ | ⟨x, y, hp⟩
        · simp only [Slot.kind] at hp
          subst hp
          rw [hval] at hwJ
          rcases hwJ with h1 | h1 | h1 <;> cases h1
        · simp only [Slot.kind] at hp
          subst hp
          rw [hval] at hwJ
          rcases hwJ with h1 | h1 | h1 <;> cases h1
      · subst hI
        rw [hval] at hwJ
        rcases hwJ with h1 | h1 | h1
        · simp only [Slot.value, Value.inst.injEq] at h1
          have hKJ : K = J := huniq K (mem_moduleInsts M F B K hF hB hK) h1.1
          rw [hKJ, hflag] at hunflag
          cases hunflag
        · cases h1
        · cases h1
    · rcases hI with ⟨k1, hI, hpass⟩ | ⟨K, hK, hI⟩
      · subst hI
        simp only [Slot.kind] at hst
        subst hst
        cases hpass
      · subst hI
        refine hop K (mem_moduleInsts M F B K hF hB hK) hunflag w ?_ hwJ
        simp only [Slot.kind] at hst
        rw [hst]; rfl
    · rcases hI with ⟨k1, hI, hpass⟩ | ⟨K, hK, hI⟩
      · subst hI
        simp only [Slot.kind] at hret
        subst hret
        cases hpass
      · subst hI
        refine hop K (mem_moduleInsts M F B K hF hB hK) hunflag w ?_ hwJ
        simp only [Slot.kind] at hret
        rw [hret]; rfl
  · rw [hk2] at hc
    cases hc

/-- Witness for C3: in `%1 = load i32, p; %2 = add i32 %1, 1; ret void` the load is
flagged and its value is neither stored nor returned; the run completes, folds
the result of the add, and no fold call hashes the value of the load. -/
theorem runOnModule_excludes_flagged_value_witness :
    ∃ out s, runOnModule flagsLoads 1 (fun _ => 0) [addFunction] = .ok (out, s) ∧
      Slot.ins (.call (some hashFunc2) [.hashPtr 0, .zext (.inst 2 (.int 32)) 64])
        ∈ (out.map fun F => (F.blocks.map fun B => B.insts).flatten).flatten ∧
      ∀ F1 ∈ out, ∀ B1 ∈ F1.blocks, ∀ k c, Slot.ins k ∈ B1.insts → k.hashedValue = some c →
        ¬ IsCastOf c (.inst 1 (.int 32)) := by
  refine ⟨_, _, rfl, by decide, fun F1 hF1 B1 hB1 k c hk hc => ?_⟩
  refine runOnModule_excludes_flagged_value flagsLoads 1 (fun _ => 0) [addFunction] _ _
    ⟨1, .int 32, .load (.arg 0 .ptr)⟩ rfl rfl (by decide) ?_ F1 B1 k c hF1 hB1 hk hc
  intro K hK _ w hw
  simp only [moduleInsts, addFunction, List.map_cons, List.map_nil, List.flatten_cons,
    List.flatten_nil, List.append_nil, List.mem_cons, List.mem_nil_iff, or_false] at hK
  rcases hK with rfl | rfl | rfl
  · cases hw
  · cases hw
  · cases hw

/-- C4, the code at every input: no instruction a completed run created is the
call `oh_log(0, null)` of `end_logging`. -/
theorem runOnModule_creates_no_end_logging (A : Analyses) (num_hash : Nat) (rand : Nat → Nat)
    (M : List (Function Instruction)) (out : List (Function Slot)) (s : PassState)
    (h : runOnModule A num_hash rand M = .ok (out, s))
    (F1 : Function Slot) (B1 : BasicBlock Slot) (k : InstKind)
    (hF1 : F1 ∈ out) (hB1 : B1 ∈ F1.blocks) (hk : k ∈ end_logging) :
    Slot.ins k ∉ B1.insts := by
  intro hmem
  obtain ⟨F, B, _, _, I, s2, b, a, s3, _, hv, hin⟩ :=
    runOnModule_emitted A num_hash rand M out s h F1 B1 k hF1 hB1 hmem
  simp only [end_logging, List.mem_singleton] at hk
  subst hk
  rcases visitInstruction_shape _ _ _ _ _ _ _ _ _ hv _ hin with
    ⟨hnc, _⟩ | ⟨_, s0, w, c2, hk2, _, _⟩ | ⟨_, s0, idx, _, hk2⟩
  · cases hnc
  · have := foldCall_not_logger num_hash rand s0 c2
    rw [← hk2] at this
    cases this
  · simp only [logCall, InstKind.call.injEq, List.cons.injEq] at hk2
    cases hk2.2.2.1

/-- C4, the code at the failing input `ret i64 a` (function walked, block visited,
nothing flagged, one cell): the run completes, the output block holds the fold
of the returned value and the return, and no `oh_log(0, null)`. -/
theorem runOnModule_creates_no_end_logging_witness :
    runOnModule plainAnalyses 1 (fun _ => 0) [retFunction]
      = .ok ([⟨"r", false, false, [⟨0, [
          .ins (.call (some hashFunc2) [.hashPtr 0, .arg 0 (.int 64)]),
          .orig ⟨1, .other, .ret (some (.arg 0 (.int 64)))⟩]⟩]⟩],
        ⟨[0], 0, 4, true⟩) ∧
    Slot.ins (.call (some logger) [.const (.int 32) 0, .nullPtr])
      ∉ [Slot.ins (.call (some hashFunc2) [.hashPtr 0, .arg 0 (.int 64)]),
          Slot.orig ⟨1, .other, .ret (some (.arg 0 (.int 64)))⟩] :=
  ⟨rfl, runOnModule_creates_no_end_logging plainAnalyses 1 (fun _ => 0) [retFunction] _ _
    (show runOnModule plainAnalyses 1 (fun _ => 0) [retFunction]
      = .ok ([⟨"r", false, false, [⟨0, [
          .ins (.call (some hashFunc2) [.hashPtr 0, .arg 0 (.int 64)]),
          .orig ⟨1, .other, .ret (some (.arg 0 (.int 64)))⟩]⟩]⟩],
        ⟨[0], 0, 4, true⟩) from rfl)
    _ _ _ (List.mem_singleton.2 rfl) (List.mem_singleton.2 rfl) (List.mem_singleton.2 rfl)⟩

/-! ### The comparison encoding -/

theorem cmpEncoding_evalInt (v : Value) (env : Value → Nat) (r p : Nat)
    (hv : v.evalInt env = some r) (hr : r ≤ 1) (hp : p ≤ 63) :
    (Value.zext (cmpEncoding v p) 64).evalInt env = some (64 * (r + 1) + p) := by
  simp only [Value.evalInt, cmpEncoding, Value.ty, hv, Option.some.injEq]
  norm_num
  omega

theorem instrumentInst_cmp_i1 (num_hash : Nat) (rand : Nat → Nat) (s : PassState)
    (K : Instruction) (p : Nat) (lhs rhs : Value)
    (hk : K.kind = .cmp p lhs rhs) (hty : K.ty = .int 1) (hn : num_hash ≠ 0) :
    instrumentInst num_hash rand (.orig K) s
      = .ok ([], [
          .cast .zext (.inst K.id (.int 1)) (.int 8),
          .binop .add (.zext (.inst K.id (.int 1)) 8) (.const (.int 8) 1),
          .binop .mul (.const (.int 8) 64) (.add (.zext (.inst K.id (.int 1)) 8) (.const (.int 8) 1)),
          .binop .add
            (.mul (.const (.int 8) 64) (.add (.zext (.inst K.id (.int 1)) 8) (.const (.int 8) 1)))
            (.const (.int 8) p),
          .cast .zext (cmpEncoding (.inst K.id (.int 1)) p) (.int 64),
          foldCall num_hash rand s (.zext (cmpEncoding (.inst K.id (.int 1)) p) 64)],
        foldState num_hash rand s) := by
  unfold instrumentInst
  simp only [Slot.kind, hk, Slot.value, hty]
  simp [createZExtOrBitCast, createAdd, createMul, Value.ty, Value.isConstant, insertHashBuilder,
    Ty.isIntegerTy, insertHashBuilder_call_eq _ _ _ _ hn, cmpEncoding]

/-- C5: for a comparison `K` of result type `i1` with predicate code `p ≤ 63`, and a
pool that is not empty, `instrumentInst` creates after `K` the `zext` of the
result to 8 bits, the `add` of 1, the `mul` by 64, the `add` of `p`, the `zext`
to 64 bits and the fold call of that value.  With `r` the result of the
comparison (0 or 1), the folded value is `64 * (r + 1) + p`: the 8-bit
arithmetic does not wrap.  Two comparisons that fold the same value have the
same result and the same predicate code. -/
theorem cmp_fold_value (num_hash : Nat) (rand : Nat → Nat) (s : PassState)
    (K : Instruction) (p : Nat) (lhs rhs : Value) (env : Value → Nat)
    (hk : K.kind = .cmp p lhs rhs) (hty : K.ty = .int 1) (hn : num_hash ≠ 0) (hp : p ≤ 63) :
    instrumentInst num_hash rand (.orig K) s
      = .ok ([], [
          .cast .zext (.inst K.id (.int 1)) (.int 8),
          .binop .add (.zext (.inst K.id (.int 1)) 8) (.const (.int 8) 1),
          .binop .mul (.const (.int 8) 64) (.add (.zext (.inst K.id (.int 1)) 8) (.const (.int 8) 1)),
          .binop .add
            (.mul (.const (.int 8) 64) (.add (.zext (.inst K.id (.int 1)) 8) (.const (.int 8) 1)))
            (.const (.int 8) p),
          .cast .zext (cmpEncoding (.inst K.id (.int 1)) p) (.int 64),
          foldCall num_hash rand s (.zext (cmpEncoding (.inst K.id (.int 1)) p) 64)],
        foldState num_hash rand s) ∧
    (Value.zext (cmpEncoding (.inst K.id (.int 1)) p) 64).evalInt env
      = some (64 * (env (.inst K.id (.int 1)) % 2 + 1) + p) ∧
    ∀ (K2 : Instruction) (p2 : Nat) (env2 : Value → Nat), p2 ≤ 63 →
      (Value.zext (cmpEncoding (.inst K2.id (.int 1)) p2) 64).evalInt env2
        = (Value.zext (cmpEncoding (.inst K.id (.int 1)) p) 64).evalInt env →
      env2 (.inst K2.id (.int 1)) % 2 = env (.inst K.id (.int 1)) % 2 ∧ p2 = p := by
  have heval : ∀ (id : Nat) (e : Value → Nat) (q : Nat), q ≤ 63 →
      (Value.zext (cmpEncoding (.inst id (.int 1)) q) 64).evalInt e
        = some (64 * (e (.inst id (.int 1)) % 2 + 1) + q) := by
    intro id e q hq
    refine cmpEncoding_evalInt _ e _ q ?_ ?_ hq
    · simp [Value.evalInt]
    · have := Nat.mod_lt (e (.inst id (.int 1))) (by decide : 0 < 2)
      omega
  refine ⟨instrumentInst_cmp_i1 num_hash rand s K p lhs rhs hk hty hn, heval K.id env p hp, ?_⟩
  · intro K2 p2 env2 hp2 heq
    rw [heval K2.id env2 p2 hp2, heval K.id env p hp] at heq
    injection heq with heq
    have h1 := Nat.mod_lt (env2 (.inst K2.id (.int 1))) (by decide : 0 < 2)
    have h2 := Nat.mod_lt (env (.inst K.id (.int 1))) (by decide : 0 < 2)
    omega

/-- Witness for C5: the comparison `%1 = icmp slt a, b` (predicate code 40) with
result 1 folds the value 168. -/
theorem cmp_fold_value_witness :
    (instrumentInst 1 (fun _ => 0)
        (.orig ⟨1, .int 1, .cmp 40 (.arg 0 (.int 32)) (.arg 1 (.int 32))⟩) initialState).toOption.isSome
      = true ∧
    (Value.zext (cmpEncoding (.inst 1 (.int 1)) 40) 64).evalInt (fun _ => 1) = some 168 :=
  ⟨by decide,
   (cmp_fold_value 1 (fun _ => 0) initialState
      ⟨1, .int 1, .cmp 40 (.arg 0 (.int 32)) (.arg 1 (.int 32))⟩ 40 _ _ (fun _ => 1)
      rfl rfl (by decide) (by decide)).2.1⟩

/-- C6, counterexample: `%1 = icmp slt a, b; ret void` in a block inside a loop,
with one cell and the comparison not flagged: the run folds the comparison (the
last created instruction is the fold call) and creates no log call. -/
theorem runOnModule_folds_cmp_in_loop_without_log :
    everyBlockInLoop.isInputDependent
      (.orig ⟨1, .int 1, .cmp 40 (.arg 0 (.int 32)) (.arg 1 (.int 32))⟩) = false ∧
    runOnModule everyBlockInLoop 1 (fun _ => 0) [cmpFunction]
      = .ok ([⟨"c", false, false, [⟨0, [
          .orig ⟨1, .int 1, .cmp 40 (.arg 0 (.int 32)) (.arg 1 (.int 32))⟩,
          .ins (.cast .zext (.inst 1 (.int 1)) (.int 8)),
          .ins (.binop .add (.zext (.inst 1 (.int 1)) 8) (.const (.int 8) 1)),
          .ins (.binop .mul (.const (.int 8) 64)
            (.add (.zext (.inst 1 (.int 1)) 8) (.const (.int 8) 1))),
          .ins (.binop .add
            (.mul (.const (.int 8) 64) (.add (.zext (.inst 1 (.int 1)) 8) (.const (.int 8) 1)))
            (.const (.int 8) 40)),
          .ins (.cast .zext (cmpEncoding (.inst 1 (.int 1)) 40) (.int 64)),
          .ins (.call (some hashFunc2)
            [.hashPtr 0, .zext (cmpEncoding (.inst 1 (.int 1)) 40) 64]),
          .orig ⟨2, .other, .ret none⟩]⟩]⟩],
        ⟨[0], 0, 2, true⟩) :=
  ⟨rfl, rfl⟩

/-- C6, amended: let `K` be a comparison that is not flagged, in a block that the
run walks and that is outside every loop, and let the pool not be empty.  In a
completed run the loop body visits `K` from some state `s2`; it folds the
comparison into the cell `idx`, appending `idx` to `usedHashIndices`, and
creates one log call, of that very cell; in the output block the log call
stands right before `K` and the fold call follows `K`. -/
theorem runOnModule_logs_folded_cmp (A : Analyses) (num_hash : Nat) (rand : Nat → Nat)
    (M : List (Function Instruction)) (out : List (Function Slot)) (s : PassState)
    (h : runOnModule A num_hash rand M = .ok (out, s)) (i j : Nat)
    (F : Function Instruction) (B : BasicBlock Instruction) (K : Instruction)
    (hF : M[i]? = some F) (hB : F.blocks[j]? = some B) (hK : K ∈ B.insts)
    (ht : A.traverses F = true) (hs : A.skipsBlock F j B = false)
    (hloop : A.getLoopFor F B = false) (hcmp : K.kind.isCmp = true)
    (hflag : A.isInputDependent (.orig K) = false) (hn : num_hash ≠ 0) :
    ∃ (F1 : Function Slot) (B1 : BasicBlock Slot) (s2 s3 : PassState) (idx : Nat)
      (pre : List InstKind) (c : Value) (f : Callee) (o1 o2 : List Slot),
      out[i]? = some F1 ∧ F1.blocks[j]? = some B1 ∧
      visitInstruction A num_hash rand false (.orig K) s2
        = .ok ([.call (some logger) [.const (.int 32) s2.uniqueId, .hashPtr idx]],
               pre ++ [.call (some f) [.hashPtr idx, c]], s3) ∧
      (f = hashFunc1 ∨ f = hashFunc2) ∧
      s3.usedHashIndices = s2.usedHashIndices ++ [idx] ∧
      B1.insts = o1 ++ [.ins (.call (some logger) [.const (.int 32) s2.uniqueId, .hashPtr idx]),
        .orig K] ++ o2 ∧
      Slot.ins (.call (some f) [.hashPtr idx, c]) ∈ o2 := by
  obtain ⟨F1, B1, s2, b, a, s3, o1, o2, hF1, hB1, hv, hins, hsub⟩ :=
    runOnModule_site A num_hash rand M out s h i j F B K hF hB hK ht hs
  rw [hloop] at hv
  obtain ⟨pre, c, f, hv2, hf⟩ := visitInstruction_cmp A num_hash rand (.orig K) s2 hcmp hflag hn
  rw [hv2] at hv
  simp only [Except.ok.injEq, Prod.mk.injEq] at hv
  obtain ⟨hb, ha, hs3⟩ := hv
  refine ⟨F1, B1, s2, s3, rand s2.drawn % num_hash, pre, c, f, o1, o2, hF1, hB1, ?_, hf, ?_, ?_, ?_⟩
  · rw [hv2, hs3]
  · rw [← hs3]
  · rw [hins, ← hb]
    simp
  · apply hsub.subset
    rw [← ha]
    simp

/-- Witness for C6: `%1 = icmp slt a, b; ret void` outside loops, with one cell:
the run completes; the comparison is folded into cell 0 and logged, the log
call of cell 0 stands right before it, the fold call after it. -/
theorem runOnModule_logs_folded_cmp_witness :
    ∃ out s, runOnModule flagsInserted 1 (fun _ => 0) [cmpFunction] = .ok (out, s) ∧
      ∃ (F1 : Function Slot) (B1 : BasicBlock Slot) (s2 s3 : PassState) (idx : Nat)
        (pre : List InstKind) (c : Value) (f : Callee) (o1 o2 : List Slot),
        out[0]? = some F1 ∧ F1.blocks[0]? = some B1 ∧
        visitInstruction flagsInserted 1 (fun _ => 0) false
            (.orig ⟨1, .int 1, .cmp 40 (.arg 0 (.int 32)) (.arg 1 (.int 32))⟩) s2
          = .ok ([.call (some logger) [.const (.int 32) s2.uniqueId, .hashPtr idx]],
                 pre ++ [.call (some f) [.hashPtr idx, c]], s3) ∧
        (f = hashFunc1 ∨ f = hashFunc2) ∧
        s3.usedHashIndices = s2.usedHashIndices ++ [idx] ∧
        B1.insts = o1 ++ [.ins (.call (some logger) [.const (.int 32) s2.uniqueId, .hashPtr idx]),
          .orig ⟨1, .int 1, .cmp 40 (.arg 0 (.int 32)) (.arg 1 (.int 32))⟩] ++ o2 ∧
        Slot.ins (.call (some f) [.hashPtr idx, c]) ∈ o2 := by
  cases h : runOnModule flagsInserted 1 (fun _ => 0) [cmpFunction] with
  | error e =>
    have h2 : (runOnModule flagsInserted 1 (fun _ => 0) [cmpFunction]).toOption.isSome
        = true := by decide
    rw [h] at h2
    cases h2
  | ok r =>
    exact ⟨r.1, r.2, rfl, runOnModule_logs_folded_cmp flagsInserted 1 (fun _ => 0) [cmpFunction]
      r.1 r.2 h 0 0 cmpFunction ⟨0, _⟩ ⟨1, .int 1, .cmp 40 (.arg 0 (.int 32)) (.arg 1 (.int 32))⟩
      rfl rfl (by decide) rfl rfl rfl rfl rfl (by decide)⟩

theorem isLoggerCall_of_not_call (k : InstKind) (h : k.isCall = false) :
    isLoggerCall k = false := by
  cases k <;> simp [InstKind.isCall] at h <;> rfl

/-- C7: in a completed run, the output block of a block that lies inside a loop
holds no created call of `oh_log`: the run emits no log call at any instruction
of the block, folded or not, whatever its kind. -/
theorem runOnModule_no_log_in_loop (A : Analyses) (num_hash : Nat) (rand : Nat → Nat)
    (M : List (Function Instruction)) (out : List (Function Slot)) (s : PassState)
    (h : runOnModule A num_hash rand M = .ok (out, s)) (i j : Nat)
    (F : Function Instruction) (B : BasicBlock Instruction)
    (hF : M[i]? = some F) (hB : F.blocks[j]? = some B) (hloop : A.getLoopFor F B = true) :
    ∃ (F1 : Function Slot) (B1 : BasicBlock Slot), out[i]? = some F1 ∧ F1.blocks[j]? = some B1 ∧
      ∀ k, Slot.ins k ∈ B1.insts → isLoggerCall k = false := by
  obtain ⟨F1, B1, hF1, hB1, hout⟩ := runOnModule_get A num_hash rand M out s h i j F B hF hB
  refine ⟨F1, B1, hF1, hB1, fun k hk => ?_⟩
  unfold BlockOutcome at hout
  split at hout
  · obtain ⟨s2, s3, hrun⟩ := hout
    obtain ⟨I, s4, b, a, s5, _, hv, hmem⟩ :=
      runOnBlock_emitted A num_hash rand _ B s2 B1 s3 hrun k hk
    rcases visitInstruction_shape _ _ _ _ _ _ _ _ _ hv k hmem with
      ⟨hnc, _⟩ | ⟨_, s0, w, c2, hk2, _, _⟩ | ⟨hl, _⟩
    · exact isLoggerCall_of_not_call k hnc
    · rw [hk2]; exact foldCall_not_logger _ _ _ _
    · rw [hloop] at hl
      cases hl
  · rw [hout] at hk
    exact absurd hk (lift_no_ins B k)

/-- Witness for C7: `%1 = icmp slt a, b; ret void` in a block inside a loop: the
run completes and the output block holds no created call of `oh_log`. -/
theorem runOnModule_no_log_in_loop_witness :
    ∃ out s, runOnModule everyBlockInLoop 1 (fun _ => 0) [cmpFunction] = .ok (out, s) ∧
      ∃ (F1 : Function Slot) (B1 : BasicBlock Slot), out[0]? = some F1 ∧
        F1.blocks[0]? = some B1 ∧ ∀ k, Slot.ins k ∈ B1.insts → isLoggerCall k = false := by
  cases h : runOnModule everyBlockInLoop 1 (fun _ => 0) [cmpFunction] with
  | error e =>
    have h2 : (runOnModule everyBlockInLoop 1 (fun _ => 0) [cmpFunction]).toOption.isSome
        = true := by decide
    rw [h] at h2
    cases h2
  | ok r =>
    exact ⟨r.1, r.2, rfl, runOnModule_no_log_in_loop everyBlockInLoop 1 (fun _ => 0)
      [cmpFunction] r.1 r.2 h 0 0 cmpFunction ⟨0, _⟩ rfl rfl rfl⟩

/-- C8: for a value of pointer type or of pointer-vector type, `insertHash` (on
either side of any instruction) and `insertHashBuilder` decline: they complete,
create no instruction, and leave the state as it is, so `usedHashIndices` is
unchanged and no random number is drawn. -/
theorem insertHash_declines_pointer (num_hash : Nat) (rand : Nat → Nat) (v : Value)
    (before : Bool) (s : PassState) (hv : v.ty = .ptr ∨ v.ty = .ptrVec) :
    insertHash num_hash rand v before s = .ok ([], [], s) ∧
    insertHashBuilder num_hash rand v s = .ok (false, [], s) := by
  have hb : insertHashBuilder num_hash rand v s = .ok (false, [], s) := by
    rcases hv with hv | hv <;>
      simp [insertHashBuilder, hv, Ty.isIntegerTy, Ty.isPtrOrPtrVectorTy]
  refine ⟨?_, hb⟩
  unfold insertHash
  rw [hb]
  rcases hv with hv | hv <;> cases before <;> simp [hv, Ty.isPointerTy]

/-- Witness for C8: the pointer argument `p` is declined, before or after. -/
theorem insertHash_declines_pointer_witness :
    insertHash 2 (fun n => n) (.arg 0 .ptr) true initialState = .ok ([], [], initialState) ∧
    insertHashBuilder 2 (fun n => n) (.arg 0 .ptr) initialState
      = .ok (false, [], initialState) :=
  insertHash_declines_pointer 2 (fun n => n) (.arg 0 .ptr) true initialState (Or.inl rfl)

/-- C9, counterexample: in `%1 = load i64, p; call void @ext(); ret void`, outside
loops, the call of `ext` is flagged input dependent and the load is not.  The run
folds the load and then creates a log call right before the flagged call. -/
theorem runOnModule_logs_flagged_call :
    flagsCalls.isInputDependent (.orig ⟨2, .other, .call (some ⟨"ext", false⟩) []⟩) = true ∧
    runOnModule flagsCalls 1 (fun _ => 0) [callFunction]
      = .ok ([⟨"e", false, false, [⟨0, [
          .orig ⟨1, .int 64, .load (.arg 0 .ptr)⟩,
          .ins (.call (some hashFunc2) [.hashPtr 0, .inst 1 (.int 64)]),
          .ins (.call (some logger) [.const (.int 32) 0, .hashPtr 0]),
          .orig ⟨2, .other, .call (some ⟨"ext", false⟩) []⟩,
          .orig ⟨3, .other, .ret none⟩]⟩]⟩],
        ⟨[0], 1, 9, true⟩) :=
  ⟨rfl, rfl⟩

/-- C9, amended: let `K` be flagged input dependent, in a block that the run walks.
In a completed run the loop body visits `K` from some state `s2`: it creates no
fold call and nothing after `K`, and leaves `usedHashIndices` as it is; it
creates no log call either when the block lies inside a loop or
`usedHashIndices` is empty at that point.  Otherwise what it creates before `K`
is what `insertLogger` decides, at most one log call. -/
theorem runOnModule_flagged_instruction (A : Analyses) (num_hash : Nat) (rand : Nat → Nat)
    (M : List (Function Instruction)) (out : List (Function Slot)) (s : PassState)
    (h : runOnModule A num_hash rand M = .ok (out, s)) (i j : Nat)
    (F : Function Instruction) (B : BasicBlock Instruction) (K : Instruction)
    (hF : M[i]? = some F) (hB : F.blocks[j]? = some B) (hK : K ∈ B.insts)
    (ht : A.traverses F = true) (hs : A.skipsBlock F j B = false)
    (hflag : A.isInputDependent (.orig K) = true) :
    ∃ (F1 : Function Slot) (B1 : BasicBlock Slot) (s2 s3 : PassState) (b : List InstKind)
      (o1 o2 : List Slot),
      out[i]? = some F1 ∧ F1.blocks[j]? = some B1 ∧
      visitInstruction A num_hash rand (A.getLoopFor F B) (.orig K) s2 = .ok (b, [], s3) ∧
      B1.insts = o1 ++ b.map Slot.ins ++ .orig K :: o2 ∧
      s3.usedHashIndices = s2.usedHashIndices ∧
      (∀ k ∈ b, k.isFoldCall = false) ∧
      (b = [] ∨ ∃ s0 idx, idx ∈ s2.usedHashIndices ∧ b = [logCall s0 idx]) ∧
      ((A.getLoopFor F B = true ∨ s2.usedHashIndices = []) → b = []) := by
  obtain ⟨F1, B1, s2, b, a, s3, o1, o2, hF1, hB1, hv, hins, _⟩ :=
    runOnModule_site A num_hash rand M out s h i j F B K hF hB hK ht hs
  obtain ⟨ha, hused, hb, hnone⟩ := visitInstruction_flagged _ _ _ _ _ _ _ _ _ hflag hv
  subst ha
  refine ⟨F1, B1, s2, s3, b, o1, o2, hF1, hB1, hv, hins, hused, ?_, hb, hnone⟩
  intro k hk
  rcases hb with hb | ⟨s0, idx, _, hb⟩
  · rw [hb] at hk; cases hk
  · rw [hb] at hk
    simp only [List.mem_singleton] at hk
    rw [hk]; rfl

/-- Witness for C9: in `%1 = load i32, p; ret void` with the load flagged, the run
completes and creates nothing at the load. -/
theorem runOnModule_flagged_instruction_witness :
    ∃ out s, runOnModule flagsLoads 1 (fun _ => 0) [loadFunction] = .ok (out, s) ∧
      ∃ (F1 : Function Slot) (B1 : BasicBlock Slot) (s2 s3 : PassState) (b : List InstKind)
        (o1 o2 : List Slot),
        out[0]? = some F1 ∧ F1.blocks[0]? = some B1 ∧
        visitInstruction flagsLoads 1 (fun _ => 0) false
          (.orig ⟨1, .int 32, .load (.arg 0 .ptr)⟩) s2 = .ok (b, [], s3) ∧
        B1.insts = o1 ++ b.map Slot.ins ++ .orig ⟨1, .int 32, .load (.arg 0 .ptr)⟩ :: o2 ∧
        s3.usedHashIndices = s2.usedHashIndices ∧
        (∀ k ∈ b, k.isFoldCall = false) ∧
        (b = [] ∨ ∃ s0 idx, idx ∈ s2.usedHashIndices ∧ b = [logCall s0 idx]) ∧
        ((false = true ∨ s2.usedHashIndices = []) → b = []) := by
  cases h : runOnModule flagsLoads 1 (fun _ => 0) [loadFunction] with
  | error e =>
    have h2 : (runOnModule flagsLoads 1 (fun _ => 0) [loadFunction]).toOption.isSome
        = true := by decide
    rw [h] at h2
    cases h2
  | ok r =>
    exact ⟨r.1, r.2, rfl, runOnModule_flagged_instruction flagsLoads 1 (fun _ => 0)
      [loadFunction] r.1 r.2 h 0 0 loadFunction ⟨0, _⟩ ⟨1, .int 32, .load (.arg 0 .ptr)⟩
      rfl rfl (by decide) rfl rfl rfl⟩

/-- C10: a block that is flagged non-deterministic and is not the last block of its
function comes out of a completed run as it went in, with no instruction
created in it; and the block loop passes over it without touching the state:
the blocks after it are processed from the state it was reached with. -/
theorem runOnModule_skips_nondeterministic_block (A : Analyses) (num_hash : Nat)
    (rand : Nat → Nat) (M : List (Function Instruction)) (out : List (Function Slot))
    (s : PassState) (h : runOnModule A num_hash rand M = .ok (out, s)) (i j : Nat)
    (F : Function Instruction) (B : BasicBlock Instruction)
    (hF : M[i]? = some F) (hB : F.blocks[j]? = some B)
    (hnd : A.is_block_nondeterministic B = true) (hlast : j + 1 < F.blocks.length) :
    (∃ F1 : Function Slot, out[i]? = some F1 ∧ F1.blocks[j]? = some B.lift) ∧
    ∀ (B2 : BasicBlock Instruction) (rest : List (BasicBlock Instruction)) (s0 : PassState),
      runOnBlocks A num_hash rand F (B :: B2 :: rest) s0
        = match runOnBlocks A num_hash rand F (B2 :: rest) s0 with
          | .error e => .error e
          | .ok (out2, s1) => .ok (B.lift :: out2, s1) := by
  constructor
  · obtain ⟨F1, B1, hF1, hB1, hout⟩ := runOnModule_get A num_hash rand M out s h i j F B hF hB
    refine ⟨F1, hF1, ?_⟩
    unfold BlockOutcome Analyses.skipsBlock at hout
    simp only [hnd, hlast, decide_True, Bool.and_self, Bool.not_true, Bool.and_false,
      Bool.false_eq_true, if_false] at hout
    rw [hB1, hout]
  · intro B2 rest s0
    simp [runOnBlocks, hnd]

/-- Witness for C10: the first of the two blocks of `t` is flagged; the run
completes and leaves it as it was, while the last block gets a fold call. -/
theorem runOnModule_skips_nondeterministic_block_witness :
    runOnModule flagsBlockZero 1 (fun _ => 0) [twoBlockFunction]
      = .ok ([⟨"t", false, false, [
          ⟨0, [.orig ⟨1, .int 64, .load (.arg 0 .ptr)⟩, .orig ⟨2, .other, .other []⟩]⟩,
          ⟨1, [.orig ⟨3, .int 64, .load (.arg 1 .ptr)⟩,
               .ins (.call (some hashFunc2) [.hashPtr 0, .inst 3 (.int 64)]),
               .orig ⟨4, .other, .ret none⟩]⟩]⟩],
        ⟨[0], 0, 8, true⟩) ∧
    ∃ F1 : Function Slot,
      ([⟨"t", false, false, [
          ⟨0, [.orig ⟨1, .int 64, .load (.arg 0 .ptr)⟩, .orig ⟨2, .other, .other []⟩]⟩,
          ⟨1, [.orig ⟨3, .int 64, .load (.arg 1 .ptr)⟩,
               .ins (.call (some hashFunc2) [.hashPtr 0, .inst 3 (.int 64)]),
               .orig ⟨4, .other, .ret none⟩]⟩]⟩] : List (Function Slot))[0]? = some F1 ∧
      F1.blocks[0]? = some (BasicBlock.lift
        ⟨0, [⟨1, .int 64, .load (.arg 0 .ptr)⟩, ⟨2, .other, .other []⟩]⟩) :=
  ⟨rfl, (runOnModule_skips_nondeterministic_block flagsBlockZero 1 (fun _ => 0)
    [twoBlockFunction] _ _ (show runOnModule flagsBlockZero 1 (fun _ => 0) [twoBlockFunction]
      = .ok ([⟨"t", false, false, [
          ⟨0, [.orig ⟨1, .int 64, .load (.arg 0 .ptr)⟩, .orig ⟨2, .other, .other []⟩]⟩,
          ⟨1, [.orig ⟨3, .int 64, .load (.arg 1 .ptr)⟩,
               .ins (.call (some hashFunc2) [.hashPtr 0, .inst 3 (.int 64)]),
               .orig ⟨4, .other, .ret none⟩]⟩]⟩],
        ⟨[0], 0, 8, true⟩) from rfl)
    0 0 twoBlockFunction ⟨0, _⟩ rfl rfl rfl (by decide)).1⟩

/-! ### The logging policy -/

theorem getElem?_mod_length (l : List Nat) (r : Nat) (h : l ≠ []) :
    ∃ idx, l[r % l.length]? = some idx ∧ idx ∈ l := by
  have hlen : 0 < l.length := List.length_pos.2 h
  have hlt : r % l.length < l.length := Nat.mod_lt _ hlen
  exact ⟨l[r % l.length], List.getElem?_eq_getElem hlt, List.getElem_mem _⟩

/-- C11: let `usedHashIndices` be non-empty and hold indices of cells of the pool.
`insertLogger` on a direct call of a function that is no intrinsic and neither
`hash1` nor `hash2` completes and creates, right before the call, exactly one
log call, of a cell whose index is an entry of `usedHashIndices`.  It draws one
random number, the position in `usedHashIndices`, and no coin. -/
theorem insertLogger_external_call (num_hash : Nat) (rand : Nat → Nat) (I : Slot)
    (s : PassState) (f : Callee) (args : List Value)
    (hk : I.kind = .call (some f) args) (hi : f.isIntrinsic = false)
    (h1 : f ≠ hashFunc1) (h2 : f ≠ hashFunc2)
    (hne : s.usedHashIndices ≠ []) (hinv : s.indicesInPool num_hash) :
    ∃ idx, idx ∈ s.usedHashIndices ∧
      s.usedHashIndices[rand s.drawn % s.usedHashIndices.length]? = some idx ∧
      insertLogger num_hash rand I s
        = .ok ([.call (some logger) [.const (.int 32) s.uniqueId, .hashPtr idx]],
            { s with uniqueId := s.uniqueId + 1, drawn := s.drawn + 1 }) := by
  obtain ⟨idx, hget, hmem⟩ := getElem?_mod_length s.usedHashIndices (rand s.drawn) hne
  refine ⟨idx, hmem, hget, ?_⟩
  have hlt : idx < num_hash := hinv idx hmem
  have hlen : s.usedHashIndices.length ≠ 0 := by
    intro h0
    exact hne (List.length_eq_zero.1 h0)
  have hcall : isLoggedCall I.kind = true := by
    rw [hk]
    simp [isLoggedCall, hi, h1, h2]
  have hcmp : I.kind.isCmp = false := by
    rw [hk]; rfl
  unfold insertLogger
  simp only [List.isEmpty_eq_true, hne, if_false, hcmp, Bool.false_eq_true, get_random, hlen,
    hget, hlt, if_true, hcall, insertLogger_builder, hashPtrs_at, unique_id_next]

/-- Witness for C11: with `usedHashIndices = [1, 0]` and two cells, the call of
`ext` gets the log call of cell 0 when the draw is 1. -/
theorem insertLogger_external_call_witness :
    ∃ idx, idx ∈ [1, 0] ∧ ([1, 0] : List Nat)[1 % 2]? = some idx ∧
      insertLogger 2 (fun _ => 1) (.orig ⟨2, .other, .call (some ⟨"ext", false⟩) []⟩)
          ⟨[1, 0], 5, 0, true⟩
        = .ok ([.call (some logger) [.const (.int 32) 5, .hashPtr idx]], ⟨[1, 0], 6, 1, true⟩) :=
  insertLogger_external_call 2 (fun _ => 1) (.orig ⟨2, .other, .call (some ⟨"ext", false⟩) []⟩)
    ⟨[1, 0], 5, 0, true⟩ ⟨"ext", false⟩ [] rfl rfl (by decide) (by decide) (by decide)
    (by intro i hi; simp at hi; omega)

/-- C12: when `usedHashIndices` is empty, `insertLogger` on any instruction
completes, creates nothing and leaves the state as it is: no id is taken from
the generator, no random number is drawn, `usedHashIndices` stays empty. -/
theorem insertLogger_noop_on_empty_record (num_hash : Nat) (rand : Nat → Nat) (I : Slot)
    (s : PassState) (h : s.usedHashIndices = []) :
    insertLogger num_hash rand I s = .ok ([], s) := by
  unfold insertLogger
  rw [h]
  rfl

/-- Witness for C12: at the start of a run a comparison gets no log call. -/
theorem insertLogger_noop_on_empty_record_witness :
    insertLogger 2 (fun n => n)
        (.orig ⟨1, .int 1, .cmp 40 (.arg 0 (.int 32)) (.arg 1 (.int 32))⟩) initialState
      = .ok ([], initialState) :=
  insertLogger_noop_on_empty_record 2 (fun n => n) _ initialState rfl

/-! ### The instrumentation policy -/

theorem insertHashBuilder_eq (num_hash : Nat) (rand : Nat → Nat) (v : Value) (s : PassState)
    (hn : num_hash ≠ 0) (hty : v.ty.isIntegerTy = true ∨ v.ty.isFloatingPointTy = true) :
    insertHashBuilder num_hash rand v s
      = .ok (true, (hashCast v).2 ++ [foldCall num_hash rand s (hashCast v).1],
          foldState num_hash rand s) := by
  unfold insertHashBuilder hashCast
  rcases hty with hty | hty
  · rw [hty]
    simp only [if_true]
    exact insertHashBuilder_call_eq _ _ _ _ hn
  · have h1 : v.ty.isIntegerTy = false := by
      cases hv : v.ty
      all_goals first | rfl | (rw [hv] at hty; simp [Ty.isFloatingPointTy] at hty)
    have h2 : v.ty.isPtrOrPtrVectorTy = false := by
      cases hv : v.ty
      all_goals first | rfl | (rw [hv] at hty; simp [Ty.isFloatingPointTy] at hty)
    rw [h1, h2, hty]
    simp only [if_true, if_false, Bool.false_eq_true]
    exact insertHashBuilder_call_eq _ _ _ _ hn

theorem insertHash_eq (num_hash : Nat) (rand : Nat → Nat) (v : Value) (before : Bool)
    (s : PassState) (hn : num_hash ≠ 0)
    (hty : v.ty.isIntegerTy = true ∨ v.ty.isFloatingPointTy = true) :
    insertHash num_hash rand v before s
      = if before then
          .ok ((hashCast v).2 ++ [foldCall num_hash rand s (hashCast v).1], [],
            foldState num_hash rand s)
        else
          .ok ([], (hashCast v).2 ++ [foldCall num_hash rand s (hashCast v).1],
            foldState num_hash rand s) := by
  have hp : v.ty.isPointerTy = false := by
    cases hv : v.ty
    all_goals first | rfl | (rw [hv] at hty; simp [Ty.isFloatingPointTy, Ty.isIntegerTy] at hty)
  unfold insertHash
  rw [hp, insertHashBuilder_eq _ _ _ _ hn hty]
  simp

/-- C13: with a pool that is not empty, `instrumentInst` follows the policy table.
For a load whose result is of integer or floating point type it creates, right
after the load, the cast of the result (when one is needed) and the fold call
of it, and nothing before; likewise for a store with the stored operand and for
an add with its result.  For a return of a value of integer or floating point
type it creates the cast and the fold call of the returned value right before
the return and nothing after it.  For every kind that is none of comparison,
load, store, add, return of a value, it creates nothing and leaves the state,
so `usedHashIndices`, as it is. -/
theorem instrumentInst_policy (num_hash : Nat) (rand : Nat → Nat) (I : Slot) (s : PassState)
    (hn : num_hash ≠ 0) :
    (∀ p, I.kind = .load p →
      (I.value.ty.isIntegerTy = true ∨ I.value.ty.isFloatingPointTy = true) →
      instrumentInst num_hash rand I s
        = .ok ([], (hashCast I.value).2 ++ [foldCall num_hash rand s (hashCast I.value).1],
            foldState num_hash rand s)) ∧
    (∀ v p, I.kind = .store v p →
      (v.ty.isIntegerTy = true ∨ v.ty.isFloatingPointTy = true) →
      instrumentInst num_hash rand I s
        = .ok ([], (hashCast v).2 ++ [foldCall num_hash rand s (hashCast v).1],
            foldState num_hash rand s)) ∧
    (∀ x y, I.kind = .binop .add x y →
      (I.value.ty.isIntegerTy = true ∨ I.value.ty.isFloatingPointTy = true) →
      instrumentInst num_hash rand I s
        = .ok ([], (hashCast I.value).2 ++ [foldCall num_hash rand s (hashCast I.value).1],
            foldState num_hash rand s)) ∧
    (∀ v, I.kind = .ret (some v) →
      (v.ty.isIntegerTy = true ∨ v.ty.isFloatingPointTy = true) →
      instrumentInst num_hash rand I s
        = .ok ((hashCast v).2 ++ [foldCall num_hash rand s (hashCast v).1], [],
            foldState num_hash rand s)) ∧
    (I.kind.isCmp = false → (∀ p, I.kind ≠ .load p) → (∀ v p, I.kind ≠ .store v p) →
      (∀ x y, I.kind ≠ .binop .add x y) → (∀ v, I.kind ≠ .ret (some v)) →
      instrumentInst num_hash rand I s = .ok ([], [], s)) := by
  refine ⟨?_, ?_, ?_, ?_, ?_⟩
  · intro p hk hty
    unfold instrumentInst
    rw [hk]
    simp only
    rw [insertHash_eq _ _ _ _ _ hn hty]
    simp
  · intro v p hk hty
    unfold instrumentInst
    rw [hk]
    simp only
    rw [insertHash_eq _ _ _ _ _ hn hty]
    simp
  · intro x y hk hty
    unfold instrumentInst
    rw [hk]
    simp only
    rw [insertHash_eq _ _ _ _ _ hn hty]
    simp
  · intro v hk hty
    unfold instrumentInst
    rw [hk]
    simp only
    rw [insertHash_eq _ _ _ _ _ hn hty]
    simp
  · intro hcmp hload hstore hadd hret
    unfold instrumentInst
    split
    · rename_i hk; rw [hk] at hcmp; cases hcmp
    · rename_i hk; exact absurd hk (hret _)
    · rename_i hk; exact absurd hk (hload _)
    · rename_i hk; exact absurd hk (hstore _ _)
    · rename_i hk; exact absurd hk (hadd _ _)
    · rfl

/-- Witness for C13: the load `%1 = load i32, p` gets, right after it, the `zext`
of `%1` to 64 bits and the fold call of it. -/
theorem instrumentInst_policy_witness :
    instrumentInst 2 (fun n => n) (.orig ⟨1, .int 32, .load (.arg 0 .ptr)⟩) initialState
      = .ok ([], [.cast .zext (.inst 1 (.int 32)) (.int 64),
            .call (some hashFunc1) [.hashPtr 0, .zext (.inst 1 (.int 32)) 64]],
          ⟨[0], 0, 2, false⟩) :=
  (instrumentInst_policy 2 (fun n => n) (.orig ⟨1, .int 32, .load (.arg 0 .ptr)⟩) initialState
    (by decide)).1 (.arg 0 .ptr) rfl (Or.inl rfl)

/-- C15: for a value whose type is neither integer nor floating point nor pointer
nor vector of pointers, `insertHashBuilder` ends in the failure of its
`assert(false)`, whatever the pool, the draws and the state; so does
`insertHash`.  No instruction is created, no fold call among them, and nothing
is appended to `usedHashIndices`: the run ends there. -/
theorem insertHashBuilder_rejects_other_type (num_hash : Nat) (rand : Nat → Nat) (v : Value)
    (before : Bool) (s : PassState) (h1 : v.ty.isIntegerTy = false)
    (h2 : v.ty.isFloatingPointTy = false) (h3 : v.ty.isPtrOrPtrVectorTy = false) :
    insertHashBuilder num_hash rand v s = .error .assertFailed ∧
    insertHash num_hash rand v before s = .error .assertFailed := by
  have hb : insertHashBuilder num_hash rand v s = .error .assertFailed := by
    simp [insertHashBuilder, h1, h2, h3]
  have hp : v.ty.isPointerTy = false := by
    cases hv : v.ty
    all_goals first | rfl | (rw [hv] at h3; simp [Ty.isPtrOrPtrVectorTy] at h3)
  refine ⟨hb, ?_⟩
  unfold insertHash
  rw [hp, hb]
  rfl

/-- Witness for C15: the result of a load of a struct (type class `other`) is
rejected. -/
theorem insertHashBuilder_rejects_other_type_witness :
    insertHashBuilder 2 (fun n => n) (.inst 1 .other) initialState = .error .assertFailed ∧
    insertHash 2 (fun n => n) (.inst 1 .other) false initialState = .error .assertFailed :=
  insertHashBuilder_rejects_other_type 2 (fun n => n) (.inst 1 .other) false initialState
    rfl rfl rfl

/-! ### The empty pool -/

theorem visitInstruction_empty_pool (A : Analyses) (rand : Nat → Nat) (inLoop : Bool)
    (I : Slot) (s : PassState) (b a : List InstKind) (s1 : PassState)
    (hs : s.usedHashIndices = [])
    (h : visitInstruction A 0 rand inLoop I s = .ok (b, a, s1)) :
    b = [] ∧ a = [] ∧ s1.usedHashIndices = [] := by
  unfold visitInstruction at h
  split at h
  · simp only [Except.ok.injEq, Prod.mk.injEq] at h
    exact ⟨h.1.symm, h.2.1.symm, by rw [← h.2.2]; exact hs⟩
  · split at h
    · simp only [Except.ok.injEq, Prod.mk.injEq] at h
      exact ⟨h.1.symm, h.2.1.symm, by rw [← h.2.2]; exact hs⟩
    · split at h
      · cases h
      · rename_i b0 a0 s0 hi
        have h0 : b0 = [] ∧ a0 = [] ∧ s0.usedHashIndices = [] := by
          rcases instrumentUnlessDependent_ok _ _ _ _ _ _ _ _ hi with
            ⟨_, hb, ha, hs0⟩ | ⟨_, s2, hinst, hs0⟩
          · exact ⟨hb, ha, by rw [hs0]; exact hs⟩
          · rcases instrumentInst_ok _ _ _ _ _ _ _ hinst with ⟨hb, ha, hs2⟩ | ⟨hn, _⟩
            · exact ⟨hb, ha, by rw [hs0, hs2]; exact hs⟩
            · exact absurd rfl hn
        obtain ⟨hb0, ha0, hs0⟩ := h0
        split at h
        · simp only [Except.ok.injEq, Prod.mk.injEq] at h
          exact ⟨by rw [← h.1]; exact hb0, by rw [← h.2.1]; exact ha0, by rw [← h.2.2]; exact hs0⟩
        · rw [insertLogger_empty _ _ _ _ hs0] at h
          simp only [Except.ok.injEq, Prod.mk.injEq] at h
          exact ⟨by rw [← h.1, hb0]; rfl, by rw [← h.2.1]; exact ha0,
            by rw [← h.2.2]; exact hs0⟩

theorem visitInstructions_empty_pool (A : Analyses) (rand : Nat → Nat) (inLoop : Bool) :
    ∀ (fuel : Nat) (l : List Slot) (s : PassState) (out : List Slot) (s1 : PassState),
      s.usedHashIndices = [] →
      visitInstructions A 0 rand inLoop fuel l s = .ok (out, s1) →
      out = l ∧ s1.usedHashIndices = [] := by
  intro fuel
  induction fuel with
  | zero =>
    intro l s out s1 hs h
    cases l with
    | nil => simp [visitInstructions] at h; exact ⟨h.1, by rw [← h.2]; exact hs⟩
    | cons I rest => simp [visitInstructions] at h
  | succ fuel ih =>
    intro l s out s1 hs h
    cases l with
    | nil => simp [visitInstructions] at h; exact ⟨h.1, by rw [← h.2]; exact hs⟩
    | cons I rest =>
      simp only [visitInstructions] at h
      split at h
      · cases h
      · rename_i b a s2 hv
        obtain ⟨hb, ha, hs2⟩ := visitInstruction_empty_pool _ _ _ _ _ _ _ _ hs hv
        subst hb ha
        split at h
        · cases h
        · rename_i out2 s3 hrec
          simp only [Except.ok.injEq, Prod.mk.injEq, List.map_nil, List.nil_append] at h
          obtain ⟨hout, hs3⟩ := ih _ _ _ _ hs2 hrec
          simp only [List.map_nil, List.nil_append] at hout
          exact ⟨by rw [← h.1, hout], by rw [← h.2]; exact hs3⟩

theorem runOnBlocks_empty_pool (A : Analyses) (rand : Nat → Nat) (F : Function Instruction) :
    ∀ (l : List (BasicBlock Instruction)) (s : PassState) (out : List (BasicBlock Slot))
      (s1 : PassState), s.usedHashIndices = [] →
      runOnBlocks A 0 rand F l s = .ok (out, s1) →
      out = l.map BasicBlock.lift ∧ s1.usedHashIndices = [] := by
  intro l
  induction l with
  | nil =>
    intro s out s1 hs h
    simp [runOnBlocks] at h
    exact ⟨by rw [h.1]; rfl, by rw [← h.2]; exact hs⟩
  | cons B rest ih =>
    intro s out s1 hs h
    simp only [runOnBlocks] at h
    split at h
    · split at h
      · cases h
      · rename_i out2 s2 hrec
        simp only [Except.ok.injEq, Prod.mk.injEq] at h
        obtain ⟨hout, hs2⟩ := ih _ _ _ hs hrec
        exact ⟨by rw [← h.1, hout]; rfl, by rw [← h.2]; exact hs2⟩
    · split at h
      · cases h
      · rename_i B1 s2 hb
        have hB1 : B1 = B.lift ∧ s2.usedHashIndices = [] := by
          unfold runOnBlock at hb
          split at hb
          · cases hb
          · rename_i o s3 hv
            simp only [Except.ok.injEq, Prod.mk.injEq] at hb
            obtain ⟨ho, hs3⟩ := visitInstructions_empty_pool _ _ _ _ _ _ _ _ hs hv
            exact ⟨by rw [← hb.1, ho]; rfl, by rw [← hb.2]; exact hs3⟩
        split at h
        · cases h
        · rename_i out2 s3 hrec
          simp only [Except.ok.injEq, Prod.mk.injEq] at h
          obtain ⟨hout, hs3⟩ := ih _ _ _ hB1.2 hrec
          exact ⟨by rw [← h.1, hout, hB1.1]; rfl, by rw [← h.2]; exact hs3⟩

theorem runOnFunctions_empty_pool (A : Analyses) (rand : Nat → Nat) :
    ∀ (l : List (Function Instruction)) (s : PassState) (out : List (Function Slot))
      (s1 : PassState), s.usedHashIndices = [] →
      runOnFunctions A 0 rand l s = .ok (out, s1) →
      out = l.map Function.lift ∧ s1.usedHashIndices = [] := by
  intro l
  induction l with
  | nil =>
    intro s out s1 hs h
    simp [runOnFunctions] at h
    exact ⟨by rw [h.1]; rfl, by rw [← h.2]; exact hs⟩
  | cons F rest ih =>
    intro s out s1 hs h
    simp only [runOnFunctions] at h
    split at h
    · cases h
    · rename_i F1 s2 hf
      have hF1 : F1 = F.lift ∧ s2.usedHashIndices = [] := by
        unfold runOnFunction at hf
        split at hf
        · simp only [Except.ok.injEq, Prod.mk.injEq] at hf
          exact ⟨hf.1.symm, by rw [← hf.2]; exact hs⟩
        · split at hf
          · simp only [Except.ok.injEq, Prod.mk.injEq] at hf
            exact ⟨hf.1.symm, by rw [← hf.2]; exact hs⟩
          · split at hf
            · cases hf
            · rename_i o s3 hb
              simp only [Except.ok.injEq, Prod.mk.injEq] at hf
              obtain ⟨ho, hs3⟩ := runOnBlocks_empty_pool _ _ _ _ _ _ _ hs hb
              exact ⟨by rw [← hf.1, ho]; rfl, by rw [← hf.2]; exact hs3⟩
      split at h
      · cases h
      · rename_i out2 s3 hrec
        simp only [Except.ok.injEq, Prod.mk.injEq] at h
        obtain ⟨hout, hs3⟩ := ih _ _ _ hF1.2 hrec
        exact ⟨by rw [← h.1, hout, hF1.1]; rfl, by rw [← h.2]; exact hs3⟩

/-- C16, counterexample: with `num_hash = 0` nothing is validated before the
traversal.  On `%1 = load i32, p; ret void` the run walks the block, reaches the
fold of the load and ends in `rand() % 0`; on `ret void`, where nothing is
folded, the run completes and reports no failure. -/
theorem runOnModule_empty_pool_not_validated :
    runOnModule plainAnalyses 0 (fun _ => 0) [loadFunction] = .error .divisionByZero ∧
    runOnModule plainAnalyses 0 (fun _ => 0) [retVoidFunction]
      = .ok ([⟨"v", false, false, [⟨0, [.orig ⟨1, .other, .ret none⟩]⟩]⟩], ⟨[], 0, 0, true⟩) :=
  ⟨rfl, rfl⟩

/-- C16, amended: with `num_hash = 0` the run is not stopped before the traversal.
Every fold attempt, on a value of integer or floating point type, ends in
`rand() % 0`; a run completes only when no fold is attempted, and then it has
created no instruction and `usedHashIndices` is empty. -/
theorem runOnModule_empty_pool (A : Analyses) (rand : Nat → Nat)
    (M : List (Function Instruction)) (out : List (Function Slot)) (s : PassState)
    (h : runOnModule A 0 rand M = .ok (out, s)) :
    out = M.map Function.lift ∧ s.usedHashIndices = [] ∧
    ∀ (v : Value) (s0 : PassState),
      (v.ty.isIntegerTy = true ∨ v.ty.isFloatingPointTy = true) →
      insertHashBuilder 0 rand v s0 = .error .divisionByZero := by
  obtain ⟨hout, hs⟩ := runOnFunctions_empty_pool A rand M initialState out s rfl h
  refine ⟨hout, hs, ?_⟩
  intro v s0 hty
  unfold insertHashBuilder
  rcases hty with hty | hty
  · rw [hty]
    simp only [if_true]
    exact insertHashBuilder_call_zero _ _ _
  · have h1 : v.ty.isIntegerTy = false := by
      cases hv : v.ty
      all_goals first | rfl | (rw [hv] at hty; simp [Ty.isFloatingPointTy] at hty)
    have h2 : v.ty.isPtrOrPtrVectorTy = false := by
      cases hv : v.ty
      all_goals first | rfl | (rw [hv] at hty; simp [Ty.isFloatingPointTy] at hty)
    rw [h1, h2, hty]
    simp only [if_true, if_false, Bool.false_eq_true]
    exact insertHashBuilder_call_zero _ _ _

/-- Witness for C16: the run over `ret void` with `num_hash = 0` completes and
creates nothing. -/
theorem runOnModule_empty_pool_witness :
    runOnModule plainAnalyses 0 (fun _ => 0) [retVoidFunction]
      = .ok ([⟨"v", false, false, [⟨0, [.orig ⟨1, .other, .ret none⟩]⟩]⟩], ⟨[], 0, 0, true⟩) ∧
    (([⟨"v", false, false, [⟨0, [.orig ⟨1, .other, .ret none⟩]⟩]⟩] : List (Function Slot))
      = [retVoidFunction].map Function.lift ∧
    (⟨[], 0, 0, true⟩ : PassState).usedHashIndices = [] ∧
    ∀ (v : Value) (s0 : PassState),
      (v.ty.isIntegerTy = true ∨ v.ty.isFloatingPointTy = true) →
      insertHashBuilder 0 (fun _ => 0) v s0 = .error .divisionByZero) :=
  ⟨rfl, runOnModule_empty_pool plainAnalyses (fun _ => 0) [retVoidFunction] _ _ rfl⟩

/-! ### The returned flag -/

theorem visitInstruction_modified (A : Analyses) (num_hash : Nat) (rand : Nat → Nat)
    (inLoop : Bool) (I : Slot) (s : PassState) (b a : List InstKind) (s1 : PassState)
    (h : visitInstruction A num_hash rand inLoop I s = .ok (b, a, s1)) :
    (s.modified = true → s1.modified = true) ∧
    ((b ≠ [] ∨ a ≠ []) → s1.modified = true) := by
  unfold visitInstruction at h
  split at h
  · simp only [Except.ok.injEq, Prod.mk.injEq] at h
    refine ⟨fun hm => by rw [← h.2.2]; exact hm, fun hne => ?_⟩
    rcases hne with hne | hne
    · exact absurd h.1.symm hne
    · exact absurd h.2.1.symm hne
  · split at h
    · simp only [Except.ok.injEq, Prod.mk.injEq] at h
      refine ⟨fun hm => by rw [← h.2.2]; exact hm, fun hne => ?_⟩
      rcases hne with hne | hne
      · exact absurd h.1.symm hne
      · exact absurd h.2.1.symm hne
    · split at h
      · cases h
      · rename_i b0 a0 s0 hi
        have h0 : (s.modified = true → s0.modified = true) ∧
            ((b0 ≠ [] ∨ a0 ≠ []) → s0.modified = true) := by
          rcases instrumentUnlessDependent_ok _ _ _ _ _ _ _ _ hi with
            ⟨_, hb, ha, hs0⟩ | ⟨_, s2, _, hs0⟩
          · refine ⟨fun hm => by rw [hs0]; exact hm, fun hne => ?_⟩
            rcases hne with hne | hne
            · exact absurd hb hne
            · exact absurd ha hne
          · exact ⟨fun _ => by rw [hs0], fun _ => by rw [hs0]⟩
        split at h
        · simp only [Except.ok.injEq, Prod.mk.injEq] at h
          rw [← h.1, ← h.2.1, ← h.2.2]
          exact h0
        · split at h
          · cases h
          · simp only [Except.ok.injEq, Prod.mk.injEq] at h
            rw [← h.2.2]
            exact ⟨fun _ => rfl, fun _ => rfl⟩

theorem visitInstructions_modified (A : Analyses) (num_hash : Nat) (rand : Nat → Nat)
    (inLoop : Bool) :
    ∀ (fuel : Nat) (l : List Slot) (s : PassState) (out : List Slot) (s1 : PassState),
      visitInstructions A num_hash rand inLoop fuel l s = .ok (out, s1) →
      ((∃ k, Slot.ins k ∈ l) → s.modified = true) →
      (s.modified = true → s1.modified = true) ∧
      ((∃ k, Slot.ins k ∈ out) → s1.modified = true) := by
  intro fuel
  induction fuel with
  | zero =>
    intro l s out s1 h hl
    cases l with
    | nil =>
      simp [visitInstructions] at h
      rw [h.1, ← h.2]
      exact ⟨id, fun ⟨k, hk⟩ => by cases hk⟩
    | cons I rest => simp [visitInstructions] at h
  | succ fuel ih =>
    intro l s out s1 h hl
    cases l with
    | nil =>
      simp [visitInstructions] at h
      rw [h.1, ← h.2]
      exact ⟨id, fun ⟨k, hk⟩ => by cases hk⟩
    | cons I rest =>
      simp only [visitInstructions] at h
      split at h
      · cases h
      · rename_i b a s2 hv
        obtain ⟨hmono, hnew⟩ := visitInstruction_modified _ _ _ _ _ _ _ _ _ hv
        split at h
        · cases h
        · rename_i out2 s3 hrec
          simp only [Except.ok.injEq, Prod.mk.injEq] at h
          have hl2 : (∃ k, Slot.ins k ∈ a.map Slot.ins ++ rest) → s2.modified = true := by
            rintro ⟨k, hk⟩
            rcases List.mem_append.1 hk with hk | hk
            · apply hnew
              right
              intro ha
              rw [ha] at hk
              cases hk
            · exact hmono (hl ⟨k, List.mem_cons_of_mem _ hk⟩)
          obtain ⟨hmono2, hout2⟩ := ih _ _ _ _ hrec hl2
          rw [← h.1, ← h.2]
          refine ⟨fun hm => hmono2 (hmono hm), ?_⟩
          rintro ⟨k, hk⟩
          rcases List.mem_append.1 hk with hk | hk
          · apply hmono2
            apply hnew
            left
            intro hb
            rw [hb] at hk
            cases hk
          · rcases List.mem_cons.1 hk with hk | hk
            · exact hmono2 (hmono (hl ⟨k, by rw [hk]; exact List.mem_cons_self _ _⟩))
            · exact hout2 ⟨k, hk⟩

theorem runOnBlock_modified (A : Analyses) (num_hash : Nat) (rand : Nat → Nat) (inLoop : Bool)
    (B : BasicBlock Instruction) (s : PassState) (B1 : BasicBlock Slot) (s1 : PassState)
    (h : runOnBlock A num_hash rand inLoop B s = .ok (B1, s1)) :
    (s.modified = true → s1.modified = true) ∧
    ((∃ k, Slot.ins k ∈ B1.insts) → s1.modified = true) := by
  unfold runOnBlock at h
  split at h
  · cases h
  · rename_i out s2 hv
    simp only [Except.ok.injEq, Prod.mk.injEq] at h
    rw [← h.1, ← h.2]
    refine visitInstructions_modified _ _ _ _ _ _ _ _ _ hv ?_
    rintro ⟨k, hk⟩
    exact absurd hk (lift_no_ins B k)

theorem runOnBlocks_modified (A : Analyses) (num_hash : Nat) (rand : Nat → Nat)
    (F : Function Instruction) :
    ∀ (l : List (BasicBlock Instruction)) (s : PassState) (out : List (BasicBlock Slot))
      (s1 : PassState), runOnBlocks A num_hash rand F l s = .ok (out, s1) →
      (s.modified = true → s1.modified = true) ∧
      (∀ B1 ∈ out, (∃ k, Slot.ins k ∈ B1.insts) → s1.modified = true) := by
  intro l
  induction l with
  | nil =>
    intro s out s1 h
    simp [runOnBlocks] at h
    rw [h.1, ← h.2]
    exact ⟨id, fun B1 hB1 => by cases hB1⟩
  | cons B rest ih =>
    intro s out s1 h
    simp only [runOnBlocks] at h
    split at h
    · split at h
      · cases h
      · rename_i out2 s2 hrec
        simp only [Except.ok.injEq, Prod.mk.injEq] at h
        obtain ⟨hmono, hout⟩ := ih _ _ _ hrec
        rw [← h.1, ← h.2]
        refine ⟨hmono, fun B1 hB1 hex => ?_⟩
        rcases List.mem_cons.1 hB1 with hB1 | hB1
        · obtain ⟨k, hk⟩ := hex
          rw [hB1] at hk
          exact absurd hk (lift_no_ins B k)
        · exact hout B1 hB1 hex
    · split at h
      · cases h
      · rename_i B2 s2 hb
        obtain ⟨hmono1, hnew1⟩ := runOnBlock_modified _ _ _ _ _ _ _ _ hb
        split at h
        · cases h
        · rename_i out2 s3 hrec
          simp only [Except.ok.injEq, Prod.mk.injEq] at h
          obtain ⟨hmono, hout⟩ := ih _ _ _ hrec
          rw [← h.1, ← h.2]
          refine ⟨fun hm => hmono (hmono1 hm), fun B1 hB1 hex => ?_⟩
          rcases List.mem_cons.1 hB1 with hB1 | hB1
          · rw [hB1] at hex
            exact hmono (hnew1 hex)
          · exact hout B1 hB1 hex

theorem runOnFunction_modified (A : Analyses) (num_hash : Nat) (rand : Nat → Nat)
    (F : Function Instruction) (s : PassState) (F1 : Function Slot) (s1 : PassState)
    (h : runOnFunction A num_hash rand F s = .ok (F1, s1)) :
    (s.modified = true → s1.modified = true) ∧
    (∀ B1 ∈ F1.blocks, (∃ k, Slot.ins k ∈ B1.insts) → s1.modified = true) := by
  have hlift : ∀ B1 ∈ F.lift.blocks, (∃ k, Slot.ins k ∈ B1.insts) → s.modified = true := by
    intro B1 hB1 hex
    simp only [Function.lift, List.mem_map] at hB1
    obtain ⟨B, _, hB⟩ := hB1
    obtain ⟨k, hk⟩ := hex
    rw [← hB] at hk
    exact absurd hk (lift_no_ins B k)
  unfold runOnFunction at h
  split at h
  · simp only [Except.ok.injEq, Prod.mk.injEq] at h
    rw [← h.1, ← h.2]
    exact ⟨id, hlift⟩
  · split at h
    · simp only [Except.ok.injEq, Prod.mk.injEq] at h
      rw [← h.1, ← h.2]
      exact ⟨id, hlift⟩
    · split at h
      · cases h
      · rename_i out s2 hb
        simp only [Except.ok.injEq, Prod.mk.injEq] at h
        rw [← h.1, ← h.2]
        exact runOnBlocks_modified _ _ _ _ _ _ _ _ hb

theorem runOnFunctions_modified (A : Analyses) (num_hash : Nat) (rand : Nat → Nat) :
    ∀ (l : List (Function Instruction)) (s : PassState) (out : List (Function Slot))
      (s1 : PassState), runOnFunctions A num_hash rand l s = .ok (out, s1) →
      (s.modified = true → s1.modified = true) ∧
      (∀ F1 ∈ out, ∀ B1 ∈ F1.blocks, (∃ k, Slot.ins k ∈ B1.insts) → s1.modified = true) := by
  intro l
  induction l with
  | nil =>
    intro s out s1 h
    simp [runOnFunctions] at h
    rw [h.1, ← h.2]
    exact ⟨id, fun F1 hF1 => by cases hF1⟩
  | cons F rest ih =>
    intro s out s1 h
    simp only [runOnFunctions] at h
    split at h
    · cases h
    · rename_i F2 s2 hf
      obtain ⟨hmono1, hnew1⟩ := runOnFunction_modified _ _ _ _ _ _ _ hf
      split at h
      · cases h
      · rename_i out2 s3 hrec
        simp only [Except.ok.injEq, Prod.mk.injEq] at h
        obtain ⟨hmono, hout⟩ := ih _ _ _ hrec
        rw [← h.1, ← h.2]
        refine ⟨fun hm => hmono (hmono1 hm), fun F1 hF1 B1 hB1 hex => ?_⟩
        rcases List.mem_cons.1 hF1 with hF1 | hF1
        · rw [hF1] at hB1
          exact hmono (hnew1 B1 hB1 hex)
        · exact hout F1 hF1 B1 hB1 hex

/-- C17, counterexample: on the function whose only instruction is `ret void`, with
one cell and nothing flagged, the run creates no instruction and still returns
true (`modified` is set after the visit of the return). -/
theorem runOnModule_returns_true_without_insertion :
    runOnModule plainAnalyses 1 (fun _ => 0) [retVoidFunction]
      = .ok ([⟨"v", false, false, [⟨0, [.orig ⟨1, .other, .ret none⟩]⟩]⟩], ⟨[], 0, 0, true⟩) ∧
    (⟨[], 0, 0, true⟩ : PassState).modified = true ∧
    [retVoidFunction].map Function.lift
      = ([⟨"v", false, false, [⟨0, [.orig ⟨1, .other, .ret none⟩]⟩]⟩] : List (Function Slot)) :=
  ⟨rfl, rfl, rfl⟩

/-- C17, amended: a completed run that created at least one instruction in some
function returns true. -/
theorem runOnModule_modified_of_insertion (A : Analyses) (num_hash : Nat) (rand : Nat → Nat)
    (M : List (Function Instruction)) (out : List (Function Slot)) (s : PassState)
    (h : runOnModule A num_hash rand M = .ok (out, s))
    (F1 : Function Slot) (B1 : BasicBlock Slot) (k : InstKind)
    (hF1 : F1 ∈ out) (hB1 : B1 ∈ F1.blocks) (hk : Slot.ins k ∈ B1.insts) :
    s.modified = true :=
  (runOnFunctions_modified A num_hash rand M initialState out s h).2 F1 hF1 B1 hB1 ⟨k, hk⟩

/-- Witness for C17: the run over `ret i64 a` creates a fold call and returns
true. -/
theorem runOnModule_modified_of_insertion_witness :
    runOnModule plainAnalyses 1 (fun _ => 0) [retFunction]
      = .ok ([⟨"r", false, false, [⟨0, [
          .ins (.call (some hashFunc2) [.hashPtr 0, .arg 0 (.int 64)]),
          .orig ⟨1, .other, .ret (some (.arg 0 (.int 64)))⟩]⟩]⟩],
        ⟨[0], 0, 4, true⟩) ∧
    (⟨[0], 0, 4, true⟩ : PassState).modified = true :=
  ⟨rfl, runOnModule_modified_of_insertion plainAnalyses 1 (fun _ => 0) [retFunction] _ _
    (show runOnModule plainAnalyses 1 (fun _ => 0) [retFunction]
      = .ok ([⟨"r", false, false, [⟨0, [
          .ins (.call (some hashFunc2) [.hashPtr 0, .arg 0 (.int 64)]),
          .orig ⟨1, .other, .ret (some (.arg 0 (.int 64)))⟩]⟩]⟩],
        ⟨[0], 0, 4, true⟩) from rfl)
    _ _ (.call (some hashFunc2) [.hashPtr 0, .arg 0 (.int 64)])
    (List.mem_singleton.2 rfl) (List.mem_singleton.2 rfl) (List.mem_cons_self _ _)⟩

/-! ### The usage record -/

theorem foldCalls_append (l1 l2 : List InstKind) :
    foldCalls (l1 ++ l2) = foldCalls l1 + foldCalls l2 := by
  simp [foldCalls]

theorem foldCalls_of_not_call (l : List InstKind) (h : ∀ k, k ∈ l → k.isCall = false) :
    foldCalls l = 0 := by
  unfold foldCalls
  rw [List.countP_eq_zero]
  intro k hk
  have := h k hk
  cases k <;> simp [InstKind.isCall] at this <;> simp [InstKind.isFoldCall]

theorem foldCalls_fold (num_hash : Nat) (rand : Nat → Nat) (s : PassState) (c : Value) :
    foldCalls [foldCall num_hash rand s c] = 1 := by
  simp [foldCalls, foldCall_isFoldCall]

theorem foldCalls_log (s : PassState) (idx : Nat) : foldCalls [logCall s idx] = 0 := by
  simp [foldCalls, logCall_not_fold]

theorem createdFoldCalls_append (l1 l2 : List Slot) :
    createdFoldCalls (l1 ++ l2) = createdFoldCalls l1 + createdFoldCalls l2 := by
  simp [createdFoldCalls]

theorem createdFoldCalls_ins (l : List InstKind) :
    createdFoldCalls (l.map Slot.ins) = foldCalls l := by
  simp [createdFoldCalls, foldCalls, List.countP_map, Function.comp_def, Slot.inserted, Slot.kind]

theorem createdFoldCalls_orig (l : List Instruction) :
    createdFoldCalls (l.map Slot.orig) = 0 := by
  simp [createdFoldCalls, List.countP_map, Function.comp_def, Slot.inserted]

theorem createdFoldCalls_cons (I : Slot) (l : List Slot) :
    createdFoldCalls (I :: l) = createdFoldCalls [I] + createdFoldCalls l := by
  rw [← createdFoldCalls_append]
  rfl

/-- From a state whose `usedHashIndices` holds indices of cells, a completed
`instrumentInst` leaves such a state, keeps the old entries, and appends as many
entries as it created fold calls; it creates no call of `oh_log`. -/
theorem instrumentInst_record (num_hash : Nat) (rand : Nat → Nat) (I : Slot) (s : PassState)
    (b a : List InstKind) (s1 : PassState) (hinv : s.indicesInPool num_hash)
    (h : instrumentInst num_hash rand I s = .ok (b, a, s1)) :
    s1.indicesInPool num_hash ∧ (∀ i, i ∈ s.usedHashIndices → i ∈ s1.usedHashIndices) ∧
    s1.usedHashIndices.length = s.usedHashIndices.length + foldCalls (b ++ a) ∧
    (∀ k, k ∈ b ++ a → isLoggerCall k = false) ∧ s1.modified = s.modified := by
  rcases instrumentInst_ok _ _ _ _ _ _ _ h with ⟨hb, ha, hs⟩ | ⟨hn, hs, w, c, pre, _, _, hpos, hpre⟩
  · subst hb ha hs
    exact ⟨hinv, fun i hi => hi, by simp [foldCalls], (fun k hk => by simp at hk), rfl⟩
  · have hba : b ++ a = pre ++ [foldCall num_hash rand s c] := by
      rcases hpos with ⟨hb, ha⟩ | ⟨hb, ha, _⟩
      · rw [hb, ha]; rfl
      · rw [hb, ha]; simp
    rw [hba, hs]
    refine ⟨?_, ?_, ?_, ?_, rfl⟩
    · intro i hi
      simp only [foldState, List.mem_append, List.mem_singleton] at hi
      rcases hi with hi | hi
      · exact hinv i hi
      · rw [hi]
        exact Nat.mod_lt _ (Nat.pos_of_ne_zero hn)
    · intro i hi
      simp only [foldState, List.mem_append]
      exact Or.inl hi
    · rw [foldCalls_append, foldCalls_fold,
        foldCalls_of_not_call pre (fun k hk => (hpre k hk).1)]
      simp [foldState]
    · intro k hk
      rcases List.mem_append.1 hk with hk | hk
      · exact isLoggerCall_of_not_call k (hpre k hk).1
      · simp only [List.mem_singleton] at hk
        rw [hk]
        exact foldCall_not_logger _ _ _ _

theorem instrumentInst_error (num_hash : Nat) (rand : Nat → Nat) (I : Slot) (s : PassState)
    (e : Err) (hn : num_hash ≠ 0) (h : instrumentInst num_hash rand I s = .error e) :
    e = .assertFailed := by
  have hb : ∀ v s0 e0, insertHashBuilder num_hash rand v s0 = .error e0 → e0 = .assertFailed := by
    intro v s0 e0 he
    unfold insertHashBuilder at he
    split at he
    · rw [insertHashBuilder_call_eq _ _ _ _ hn] at he
      cases he
    · split at he
      · cases he
      · split at he
        · rw [insertHashBuilder_call_eq _ _ _ _ hn] at he
          cases he
        · simp only [Except.error.injEq] at he
          exact he.symm
  have hh : ∀ v before s0 e0, insertHash num_hash rand v before s0 = .error e0 →
      e0 = .assertFailed := by
    intro v before s0 e0 he
    unfold insertHash at he
    split at he
    · cases he
    · split at he
      · rename_i e1 he1
        simp only [Except.error.injEq] at he
        rw [← he]
        exact hb _ _ _ he1
      · split at he <;> cases he
  unfold instrumentInst at h
  split at h
  · dsimp only at h
    split at h
    · rename_i e1 he1
      simp only [Except.error.injEq] at h
      rw [← h]
      exact hb _ _ _ he1
    · cases h
  · exact hh _ _ _ _ h
  · exact hh _ _ _ _ h
  · exact hh _ _ _ _ h
  · exact hh _ _ _ _ h
  · cases h

/-- From a state whose `usedHashIndices` holds indices of cells, `insertLogger`
never fails: `usedHashIndices.at(...)` and `hashPtrs.at(...)` are in range and
the assertion `random_hash_idx < hashPtrs.size()` holds. -/
theorem insertLogger_total (num_hash : Nat) (rand : Nat → Nat) (I : Slot) (s : PassState)
    (hinv : s.indicesInPool num_hash) :
    ∃ logs s1, insertLogger num_hash rand I s = .ok (logs, s1) := by
  by_cases hne : s.usedHashIndices = []
  · exact ⟨[], s, insertLogger_empty _ _ _ _ hne⟩
  · have hlen : s.usedHashIndices.length ≠ 0 := fun h0 => hne (List.length_eq_zero.1 h0)
    unfold insertLogger
    simp only [List.isEmpty_eq_true, hne, if_false]
    split
    · have hlast : s.usedHashIndices.getLastD 0 ∈ s.usedHashIndices := by
        rw [List.getLastD_eq_getLast?, List.getLast?_eq_getLast _ hne]
        exact List.getLast_mem _
      rw [insertLogger_builder_eq _ _ _ (hinv _ hlast)]
      exact ⟨_, _, rfl⟩
    · obtain ⟨idx, hget, hmem⟩ := getElem?_mod_length s.usedHashIndices (rand s.drawn) hne
      have hlt : idx < num_hash := hinv idx hmem
      simp only [get_random, hlen, if_false, hget, hlt, if_true]
      split
      · rw [insertLogger_builder_eq _ _ _ hlt]
        exact ⟨_, _, rfl⟩
      · simp only [OfNat.ofNat_ne_zero, if_false]
        split
        · rw [insertLogger_builder_eq _ _ _ hlt]
          exact ⟨_, _, rfl⟩
        · exact ⟨_, _, rfl⟩

theorem indicesInPool_congr {s s1 : PassState} {num_hash : Nat}
    (h : s1.usedHashIndices = s.usedHashIndices) (hinv : s.indicesInPool num_hash) :
    s1.indicesInPool num_hash := by
  intro i hi
  rw [h] at hi
  exact hinv i hi

/-- One iteration of the instruction loop from a state whose `usedHashIndices`
holds indices of cells: the state after it is such a state, it keeps the old
entries, the number of entries grows by the number of fold calls created, and
every log call created names a cell whose index is in `usedHashIndices` then. -/
theorem visitInstruction_record (A : Analyses) (num_hash : Nat) (rand : Nat → Nat)
    (inLoop : Bool) (I : Slot) (s : PassState) (b a : List InstKind) (s1 : PassState)
    (hinv : s.indicesInPool num_hash)
    (h : visitInstruction A num_hash rand inLoop I s = .ok (b, a, s1)) :
    s1.indicesInPool num_hash ∧ (∀ i, i ∈ s.usedHashIndices → i ∈ s1.usedHashIndices) ∧
    s1.usedHashIndices.length = s.usedHashIndices.length + foldCalls (b ++ a) ∧
    ∀ k, k ∈ b ++ a → LogsUsedCell s1 k := by
  have htriv : ∀ s0 : PassState, s0 = s →
      s0.indicesInPool num_hash ∧ (∀ i, i ∈ s.usedHashIndices → i ∈ s0.usedHashIndices) ∧
      s0.usedHashIndices.length = s.usedHashIndices.length + foldCalls ([] ++ []) ∧
      ∀ k, k ∈ ([] : List InstKind) ++ [] → LogsUsedCell s0 k := by
    intro s0 hs0
    subst hs0
    exact ⟨hinv, fun i hi => hi, by simp [foldCalls], (fun k hk => by simp at hk)⟩
  unfold visitInstruction at h
  split at h
  · simp only [Except.ok.injEq, Prod.mk.injEq] at h
    rw [← h.1, ← h.2.1]
    exact htriv s1 h.2.2.symm
  · split at h
    · simp only [Except.ok.injEq, Prod.mk.injEq] at h
      rw [← h.1, ← h.2.1]
      exact htriv s1 h.2.2.symm
    · split at h
      · cases h
      · rename_i b0 a0 s0 hi
        have h0 : s0.indicesInPool num_hash ∧
            (∀ i, i ∈ s.usedHashIndices → i ∈ s0.usedHashIndices) ∧
            s0.usedHashIndices.length = s.usedHashIndices.length + foldCalls (b0 ++ a0) ∧
            ∀ k, k ∈ b0 ++ a0 → isLoggerCall k = false := by
          rcases instrumentUnlessDependent_ok _ _ _ _ _ _ _ _ hi with
            ⟨_, hb, ha, hs0⟩ | ⟨_, s2, hinst, hs0⟩
          · subst hb ha hs0
            exact ⟨hinv, fun i hi => hi, by simp [foldCalls], (fun k hk => by simp at hk)⟩
          · obtain ⟨h1, h2, h3, h4, _⟩ := instrumentInst_record _ _ _ _ _ _ _ hinv hinst
            rw [hs0]
            exact ⟨h1, h2, h3, h4⟩
        obtain ⟨hinv0, hsub0, hlen0, hnolog0⟩ := h0
        split at h
        · simp only [Except.ok.injEq, Prod.mk.injEq] at h
          rw [← h.1, ← h.2.1, ← h.2.2]
          refine ⟨hinv0, hsub0, hlen0, fun k hk hlog => ?_⟩
          rw [hnolog0 k hk] at hlog
          cases hlog
        · split at h
          · cases h
          · rename_i logs s2 hlog
            simp only [Except.ok.injEq, Prod.mk.injEq] at h
            obtain ⟨hused, hshape⟩ := insertLogger_ok _ _ _ _ _ _ hlog
            have hs1 : s1.usedHashIndices = s0.usedHashIndices := by
              rw [← h.2.2]; exact hused
            have hlogs : foldCalls logs = 0 ∧ ∀ k, k ∈ logs → LogsUsedCell s1 k := by
              rcases hshape with hl | ⟨s3, idx, hmem, _, hl⟩
              · rw [hl]
                exact ⟨rfl, fun k hk => by cases hk⟩
              · rw [hl]
                refine ⟨foldCalls_log _ _, fun k hk _ => ?_⟩
                simp only [List.mem_singleton] at hk
                exact ⟨s3.uniqueId, idx, hk, by rw [hs1]; exact hmem⟩
            rw [← h.1, ← h.2.1]
            refine ⟨indicesInPool_congr hs1 hinv0, fun i hi => by rw [hs1]; exact hsub0 i hi, ?_, ?_⟩
            · rw [hs1, hlen0]
              simp only [foldCalls_append, hlogs.1]
              omega
            · intro k hk
              simp only [List.mem_append] at hk
              rcases hk with (hk | hk) | hk
              · intro hlg
                rw [hnolog0 k (List.mem_append.2 (Or.inl hk))] at hlg
                cases hlg
              · exact hlogs.2 k hk
              · intro hlg
                rw [hnolog0 k (List.mem_append.2 (Or.inr hk))] at hlg
                cases hlg

/-- With a pool that is not empty and `usedHashIndices` holding indices of cells,
the only failure of an iteration of the instruction loop is the `assert(false)`
of `insertHashBuilder`, met by `instrumentInst`. -/
theorem visitInstruction_error (A : Analyses) (num_hash : Nat) (rand : Nat → Nat)
    (inLoop : Bool) (I : Slot) (s : PassState) (e : Err) (hn : num_hash ≠ 0)
    (hinv : s.indicesInPool num_hash)
    (h : visitInstruction A num_hash rand inLoop I s = .error e) :
    e = .assertFailed ∧ instrumentInst num_hash rand I s = .error .assertFailed := by
  unfold visitInstruction at h
  split at h
  · cases h
  · split at h
    · cases h
    · split at h
      · rename_i e1 he1
        simp only [Except.error.injEq] at h
        subst h
        unfold instrumentUnlessDependent at he1
        split at he1
        · cases he1
        · split at he1
          · rename_i e2 he2
            simp only [Except.error.injEq] at he1
            subst he1
            have := instrumentInst_error _ _ _ _ _ hn he2
            subst this
            exact ⟨rfl, he2⟩
          · cases he1
      · rename_i b0 a0 s0 hi
        split at h
        · cases h
        · split at h
          · rename_i e1 he1
            have hinv0 : s0.indicesInPool num_hash := by
              rcases instrumentUnlessDependent_ok _ _ _ _ _ _ _ _ hi with
                ⟨_, _, _, hs0⟩ | ⟨_, s2, hinst, hs0⟩
              · rw [hs0]; exact hinv
              · rw [hs0]
                exact (instrumentInst_record _ _ _ _ _ _ _ hinv hinst).1
            obtain ⟨logs, s3, hok⟩ := insertLogger_total num_hash rand I s0 hinv0
            rw [hok] at he1
            cases he1
          · cases h

theorem logsUsedCell_mono {s s1 : PassState} {k : InstKind}
    (hsub : ∀ i, i ∈ s.usedHashIndices → i ∈ s1.usedHashIndices) (h : LogsUsedCell s k) :
    LogsUsedCell s1 k := by
  intro hlog
  obtain ⟨uid, idx, hk, hmem⟩ := h hlog
  exact ⟨uid, idx, hk, hsub idx hmem⟩

theorem visitInstructions_record (A : Analyses) (num_hash : Nat) (rand : Nat → Nat)
    (inLoop : Bool) :
    ∀ (fuel : Nat) (l : List Slot) (s : PassState) (out : List Slot) (s1 : PassState),
      s.indicesInPool num_hash → (∀ k, Slot.ins k ∈ l → LogsUsedCell s k) →
      visitInstructions A num_hash rand inLoop fuel l s = .ok (out, s1) →
      s1.indicesInPool num_hash ∧ (∀ i, i ∈ s.usedHashIndices → i ∈ s1.usedHashIndices) ∧
      s1.usedHashIndices.length + createdFoldCalls l
        = s.usedHashIndices.length + createdFoldCalls out ∧
      ∀ k, Slot.ins k ∈ out → LogsUsedCell s1 k := by
  intro fuel
  induction fuel with
  | zero =>
    intro l s out s1 hinv hq h
    cases l with
    | nil =>
      simp [visitInstructions] at h
      rw [h.1, ← h.2]
      exact ⟨hinv, fun i hi => hi, rfl, hq⟩
    | cons I rest => simp [visitInstructions] at h
  | succ fuel ih =>
    intro l s out s1 hinv hq h
    cases l with
    | nil =>
      simp [visitInstructions] at h
      rw [h.1, ← h.2]
      exact ⟨hinv, fun i hi => hi, rfl, hq⟩
    | cons I rest =>
      simp only [visitInstructions] at h
      split at h
      · cases h
      · rename_i b a s2 hv
        obtain ⟨hinv2, hsub2, hlen2, hlog2⟩ := visitInstruction_record _ _ _ _ _ _ _ _ _ hinv hv
        split at h
        · cases h
        · rename_i out2 s3 hrec
          simp only [Except.ok.injEq, Prod.mk.injEq] at h
          have hq2 : ∀ k, Slot.ins k ∈ a.map Slot.ins ++ rest → LogsUsedCell s2 k := by
            intro k hk
            rcases List.mem_append.1 hk with hk | hk
            · obtain ⟨k2, hk2, hEq⟩ := List.mem_map.1 hk
              cases hEq
              exact hlog2 k (List.mem_append.2 (Or.inr hk2))
            · exact logsUsedCell_mono hsub2 (hq k (List.mem_cons_of_mem _ hk))
          obtain ⟨hinv3, hsub3, hlen3, hlog3⟩ := ih _ _ _ _ hinv2 hq2 hrec
          rw [← h.1, ← h.2]
          refine ⟨hinv3, fun i hi => hsub3 i (hsub2 i hi), ?_, ?_⟩
          · rw [createdFoldCalls_append, createdFoldCalls_ins] at hlen3
            rw [createdFoldCalls_cons I rest, createdFoldCalls_append, createdFoldCalls_ins,
              createdFoldCalls_cons I out2]
            rw [foldCalls_append] at hlen2
            omega
          · intro k hk
            rcases List.mem_append.1 hk with hk | hk
            · obtain ⟨k2, hk2, hEq⟩ := List.mem_map.1 hk
              cases hEq
              exact logsUsedCell_mono hsub3 (hlog2 k (List.mem_append.2 (Or.inl hk2)))
            · rcases List.mem_cons.1 hk with hk | hk
              · exact logsUsedCell_mono (fun i hi => hsub3 i (hsub2 i hi))
                  (hq k (by rw [hk]; exact List.mem_cons_self _ _))
              · exact hlog3 k hk

theorem visitInstructions_error (A : Analyses) (num_hash : Nat) (rand : Nat → Nat)
    (inLoop : Bool) (hn : num_hash ≠ 0) :
    ∀ (fuel : Nat) (l : List Slot) (s : PassState) (e : Err),
      s.indicesInPool num_hash →
      visitInstructions A num_hash rand inLoop fuel l s = .error e →
      e = .assertFailed ∨ e = .outOfFuel := by
  intro fuel
  induction fuel with
  | zero =>
    intro l s e _ h
    cases l with
    | nil => simp [visitInstructions] at h
    | cons I rest =>
      simp [visitInstructions] at h
      exact Or.inr h.symm
  | succ fuel ih =>
    intro l s e hinv h
    cases l with
    | nil => simp [visitInstructions] at h
    | cons I rest =>
      simp only [visitInstructions] at h
      split at h
      · rename_i e1 he1
        simp only [Except.error.injEq] at h
        subst h
        exact Or.inl (visitInstruction_error _ _ _ _ _ _ _ hn hinv he1).1
      · rename_i b a s2 hv
        have hinv2 := (visitInstruction_record _ _ _ _ _ _ _ _ _ hinv hv).1
        split at h
        · rename_i e1 he1
          simp only [Except.error.injEq] at h
          subst h
          exact ih _ _ _ hinv2 he1
        · cases h

theorem runOnBlock_record (A : Analyses) (num_hash : Nat) (rand : Nat → Nat) (inLoop : Bool)
    (B : BasicBlock Instruction) (s : PassState) (B1 : BasicBlock Slot) (s1 : PassState)
    (hinv : s.indicesInPool num_hash)
    (h : runOnBlock A num_hash rand inLoop B s = .ok (B1, s1)) :
    s1.indicesInPool num_hash ∧ (∀ i, i ∈ s.usedHashIndices → i ∈ s1.usedHashIndices) ∧
    s1.usedHashIndices.length = s.usedHashIndices.length + createdFoldCalls B1.insts ∧
    ∀ k, Slot.ins k ∈ B1.insts → LogsUsedCell s1 k := by
  unfold runOnBlock at h
  split at h
  · cases h
  · rename_i out s2 hv
    simp only [Except.ok.injEq, Prod.mk.injEq] at h
    rw [← h.1, ← h.2]
    obtain ⟨h1, h2, h3, h4⟩ := visitInstructions_record _ _ _ _ _ _ _ _ _ hinv
      (fun k hk => absurd hk (lift_no_ins B k)) hv
    refine ⟨h1, h2, ?_, h4⟩
    have h0 : createdFoldCalls B.lift.insts = 0 := createdFoldCalls_orig _
    rw [h0] at h3
    exact h3

theorem runOnBlock_error (A : Analyses) (num_hash : Nat) (rand : Nat → Nat) (inLoop : Bool)
    (B : BasicBlock Instruction) (s : PassState) (e : Err) (hn : num_hash ≠ 0)
    (hinv : s.indicesInPool num_hash)
    (h : runOnBlock A num_hash rand inLoop B s = .error e) : e = .assertFailed := by
  have hfuel := runOnBlock_fuel A num_hash rand inLoop B s
  unfold runOnBlock at h
  split at h
  · rename_i e1 he1
    simp only [Except.error.injEq] at h
    subst h
    rcases visitInstructions_error _ _ _ _ hn _ _ _ _ hinv he1 with he | he
    · exact he
    · exfalso
      apply hfuel
      unfold runOnBlock
      rw [he1, he]
  · cases h

theorem runOnBlocks_record (A : Analyses) (num_hash : Nat) (rand : Nat → Nat)
    (F : Function Instruction) :
    ∀ (l : List (BasicBlock Instruction)) (s : PassState) (out : List (BasicBlock Slot))
      (s1 : PassState), s.indicesInPool num_hash →
      runOnBlocks A num_hash rand F l s = .ok (out, s1) →
      s1.indicesInPool num_hash ∧ (∀ i, i ∈ s.usedHashIndices → i ∈ s1.usedHashIndices) ∧
      s1.usedHashIndices.length
        = s.usedHashIndices.length + (out.map fun B => createdFoldCalls B.insts).sum ∧
      ∀ B1 ∈ out, ∀ k, Slot.ins k ∈ B1.insts → LogsUsedCell s1 k := by
  intro l
  induction l with
  | nil =>
    intro s out s1 hinv h
    simp [runOnBlocks] at h
    rw [h.1, ← h.2]
    exact ⟨hinv, fun i hi => hi, rfl, fun B1 hB1 => nomatch hB1⟩
  | cons B rest ih =>
    intro s out s1 hinv h
    simp only [runOnBlocks] at h
    split at h
    · split at h
      · cases h
      · rename_i out2 s2 hrec
        simp only [Except.ok.injEq, Prod.mk.injEq] at h
        obtain ⟨h1, h2, h3, h4⟩ := ih _ _ _ hinv hrec
        rw [← h.1, ← h.2]
        refine ⟨h1, h2, ?_, ?_⟩
        · have h0 : createdFoldCalls B.lift.insts = 0 := createdFoldCalls_orig _
          simp only [List.map_cons, List.sum_cons, h0, Nat.zero_add]
          exact h3
        · intro B1 hB1 k hk
          rcases List.mem_cons.1 hB1 with hB1 | hB1
          · rw [hB1] at hk
            exact absurd hk (lift_no_ins B k)
          · exact h4 B1 hB1 k hk
    · split at h
      · cases h
      · rename_i B2 s2 hb
        obtain ⟨g1, g2, g3, g4⟩ := runOnBlock_record _ _ _ _ _ _ _ _ hinv hb
        split at h
        · cases h
        · rename_i out2 s3 hrec
          simp only [Except.ok.injEq, Prod.mk.injEq] at h
          obtain ⟨h1, h2, h3, h4⟩ := ih _ _ _ g1 hrec
          rw [← h.1, ← h.2]
          refine ⟨h1, fun i hi => h2 i (g2 i hi), ?_, ?_⟩
          · simp only [List.map_cons, List.sum_cons]
            omega
          · intro B1 hB1 k hk
            rcases List.mem_cons.1 hB1 with hB1 | hB1
            · rw [hB1] at hk
              exact logsUsedCell_mono h2 (g4 k hk)
            · exact h4 B1 hB1 k hk

theorem runOnBlocks_error (A : Analyses) (num_hash : Nat) (rand : Nat → Nat)
    (F : Function Instruction) (hn : num_hash ≠ 0) :
    ∀ (l : List (BasicBlock Instruction)) (s : PassState) (e : Err),
      s.indicesInPool num_hash →
      runOnBlocks A num_hash rand F l s = .error e → e = .assertFailed := by
  intro l
  induction l with
  | nil => intro s e _ h; simp [runOnBlocks] at h
  | cons B rest ih =>
    intro s e hinv h
    simp only [runOnBlocks] at h
    split at h
    · split at h
      · rename_i e1 he1
        simp only [Except.error.injEq] at h
        subst h
        exact ih _ _ hinv he1
      · cases h
    · split at h
      · rename_i e1 he1
        simp only [Except.error.injEq] at h
        subst h
        exact runOnBlock_error _ _ _ _ _ _ _ hn hinv he1
      · rename_i B2 s2 hb
        have g1 := (runOnBlock_record _ _ _ _ _ _ _ _ hinv hb).1
        split at h
        · rename_i e1 he1
          simp only [Except.error.injEq] at h
          subst h
          exact ih _ _ g1 he1
        · cases h

theorem lift_createdFoldCalls (F : Function Instruction) :
    (F.lift.blocks.map fun B => createdFoldCalls B.insts).sum = 0 := by
  simp only [Function.lift, List.map_map]
  apply List.sum_eq_zero
  intro x hx
  obtain ⟨B, _, hB⟩ := List.mem_map.1 hx
  rw [← hB]
  exact createdFoldCalls_orig _

theorem lift_blocks_no_ins (F : Function Instruction) (B1 : BasicBlock Slot)
    (hB1 : B1 ∈ F.lift.blocks) (k : InstKind) : Slot.ins k ∉ B1.insts := by
  simp only [Function.lift, List.mem_map] at hB1
  obtain ⟨B, _, hB⟩ := hB1
  rw [← hB]
  exact lift_no_ins B k

theorem runOnFunction_record (A : Analyses) (num_hash : Nat) (rand : Nat → Nat)
    (F : Function Instruction) (s : PassState) (F1 : Function Slot) (s1 : PassState)
    (hinv : s.indicesInPool num_hash)
    (h : runOnFunction A num_hash rand F s = .ok (F1, s1)) :
    s1.indicesInPool num_hash ∧ (∀ i, i ∈ s.usedHashIndices → i ∈ s1.usedHashIndices) ∧
    s1.usedHashIndices.length
      = s.usedHashIndices.length + (F1.blocks.map fun B => createdFoldCalls B.insts).sum ∧
    ∀ B1 ∈ F1.blocks, ∀ k, Slot.ins k ∈ B1.insts → LogsUsedCell s1 k := by
  have hskip : ∀ s0 : PassState, s0 = s →
      s0.indicesInPool num_hash ∧ (∀ i, i ∈ s.usedHashIndices → i ∈ s0.usedHashIndices) ∧
      s0.usedHashIndices.length
        = s.usedHashIndices.length + (F.lift.blocks.map fun B => createdFoldCalls B.insts).sum ∧
      ∀ B1 ∈ F.lift.blocks, ∀ k, Slot.ins k ∈ B1.insts → LogsUsedCell s0 k := by
    intro s0 hs0
    subst hs0
    exact ⟨hinv, fun i hi => hi, by rw [lift_createdFoldCalls]; rfl,
      fun B1 hB1 k hk => absurd hk (lift_blocks_no_ins F B1 hB1 k)⟩
  unfold runOnFunction at h
  split at h
  · simp only [Except.ok.injEq, Prod.mk.injEq] at h
    rw [← h.1]
    exact hskip s1 h.2.symm
  · split at h
    · simp only [Except.ok.injEq, Prod.mk.injEq] at h
      rw [← h.1]
      exact hskip s1 h.2.symm
    · split at h
      · cases h
      · rename_i out s2 hb
        simp only [Except.ok.injEq, Prod.mk.injEq] at h
        rw [← h.1, ← h.2]
        exact runOnBlocks_record _ _ _ _ _ _ _ _ hinv hb

theorem runOnFunction_error (A : Analyses) (num_hash : Nat) (rand : Nat → Nat)
    (F : Function Instruction) (s : PassState) (e : Err) (hn : num_hash ≠ 0)
    (hinv : s.indicesInPool num_hash)
    (h : runOnFunction A num_hash rand F s = .error e) : e = .assertFailed := by
  unfold runOnFunction at h
  split at h
  · cases h
  · split at h
    · cases h
    · split at h
      · rename_i e1 he1
        simp only [Except.error.injEq] at h
        subst h
        exact runOnBlocks_error _ _ _ _ hn _ _ _ hinv he1
      · cases h

theorem runOnFunctions_record (A : Analyses) (num_hash : Nat) (rand : Nat → Nat) :
    ∀ (l : List (Function Instruction)) (s : PassState) (out : List (Function Slot))
      (s1 : PassState), s.indicesInPool num_hash →
      runOnFunctions A num_hash rand l s = .ok (out, s1) →
      s1.indicesInPool num_hash ∧ (∀ i, i ∈ s.usedHashIndices → i ∈ s1.usedHashIndices) ∧
      s1.usedHashIndices.length = s.usedHashIndices.length + moduleFoldCalls out ∧
      ∀ F1 ∈ out, ∀ B1 ∈ F1.blocks, ∀ k, Slot.ins k ∈ B1.insts → LogsUsedCell s1 k := by
  intro l
  induction l with
  | nil =>
    intro s out s1 hinv h
    simp [runOnFunctions] at h
    rw [h.1, ← h.2]
    exact ⟨hinv, fun i hi => hi, rfl, fun F1 hF1 => nomatch hF1⟩
  | cons F rest ih =>
    intro s out s1 hinv h
    simp only [runOnFunctions] at h
    split at h
    · cases h
    · rename_i F2 s2 hf
      obtain ⟨g1, g2, g3, g4⟩ := runOnFunction_record _ _ _ _ _ _ _ hinv hf
      split at h
      · cases h
      · rename_i out2 s3 hrec
        simp only [Except.ok.injEq, Prod.mk.injEq] at h
        obtain ⟨h1, h2, h3, h4⟩ := ih _ _ _ g1 hrec
        rw [← h.1, ← h.2]
        refine ⟨h1, fun i hi => h2 i (g2 i hi), ?_, ?_⟩
        · simp only [moduleFoldCalls, List.map_cons, List.sum_cons] at h3 ⊢
          omega
        · intro F1 hF1 B1 hB1 k hk
          rcases List.mem_cons.1 hF1 with hF1 | hF1
          · rw [hF1] at hB1
            exact logsUsedCell_mono h2 (g4 B1 hB1 k hk)
          · exact h4 F1 hF1 B1 hB1 k hk

theorem runOnFunctions_error (A : Analyses) (num_hash : Nat) (rand : Nat → Nat)
    (hn : num_hash ≠ 0) :
    ∀ (l : List (Function Instruction)) (s : PassState) (e : Err),
      s.indicesInPool num_hash →
      runOnFunctions A num_hash rand l s = .error e → e = .assertFailed := by
  intro l
  induction l with
  | nil => intro s e _ h; simp [runOnFunctions] at h
  | cons F rest ih =>
    intro s e hinv h
    simp only [runOnFunctions] at h
    split at h
    · rename_i e1 he1
      simp only [Except.error.injEq] at h
      subst h
      exact runOnFunction_error _ _ _ _ _ _ hn hinv he1
    · rename_i F2 s2 hf
      have g1 := (runOnFunction_record _ _ _ _ _ _ _ hinv hf).1
      split at h
      · rename_i e1 he1
        simp only [Except.error.injEq] at h
        subst h
        exact ih _ _ g1 he1
      · cases h

theorem initialState_indicesInPool (num_hash : Nat) : initialState.indicesInPool num_hash := by
  intro i hi
  cases hi

/-- C18: with a pool of `num_hash ≥ 1` cells the usage record starts empty, and
from every state whose recorded indices are all `< num_hash`: `insertLogger`
never fails (its `assert(random_hash_idx < hashPtrs.size())` holds), a visit of
the loop body can only fail on the `assert(false)` of a value that is neither
integer, pointer nor floating point (never on `hashPtrs.at`), and a completed
visit keeps every recorded index `< num_hash`, lengthens the record by exactly
the number of fold calls it created, and every log call it created names a cell
whose index is in the record.  Hence for a whole run: on completion every
recorded index is `< num_hash`, the record is as long as the number of created
fold calls in the output, every created log call names a recorded cell, and a
failing run fails only on that `assert(false)`. -/
theorem usedHashIndices_invariant (A : Analyses) (num_hash : Nat) (rand : Nat → Nat)
    (hn : num_hash ≠ 0) :
    (initialState.usedHashIndices = [] ∧ initialState.indicesInPool num_hash) ∧
    (∀ (inLoop : Bool) (I : Slot) (s : PassState), s.indicesInPool num_hash →
      (∃ logs s1, insertLogger num_hash rand I s = .ok (logs, s1)) ∧
      (∀ e, visitInstruction A num_hash rand inLoop I s = .error e →
        e = .assertFailed ∧ instrumentInst num_hash rand I s = .error .assertFailed) ∧
      (∀ b a s1, visitInstruction A num_hash rand inLoop I s = .ok (b, a, s1) →
        s1.indicesInPool num_hash ∧
        s1.usedHashIndices.length = s.usedHashIndices.length + foldCalls (b ++ a) ∧
        ∀ k, k ∈ b ++ a → LogsUsedCell s1 k)) ∧
    (∀ M : List (Function Instruction),
      (∀ out s, runOnModule A num_hash rand M = .ok (out, s) →
        s.indicesInPool num_hash ∧
        s.usedHashIndices.length = moduleFoldCalls out ∧
        ∀ F1 ∈ out, ∀ B1 ∈ F1.blocks, ∀ k, Slot.ins k ∈ B1.insts → LogsUsedCell s k) ∧
      (∀ e, runOnModule A num_hash rand M = .error e → e = .assertFailed)) := by
  refine ⟨⟨rfl, initialState_indicesInPool num_hash⟩, ?_, ?_⟩
  · intro inLoop I s hinv
    refine ⟨insertLogger_total num_hash rand I s hinv, ?_, ?_⟩
    · intro e he
      exact visitInstruction_error A num_hash rand inLoop I s e hn hinv he
    · intro b a s1 h
      obtain ⟨h1, _, h3, h4⟩ := visitInstruction_record A num_hash rand inLoop I s b a s1 hinv h
      exact ⟨h1, h3, h4⟩
  · intro M
    constructor
    · intro out s h
      obtain ⟨h1, _, h3, h4⟩ := runOnFunctions_record A num_hash rand M initialState out s
        (initialState_indicesInPool num_hash) h
      refine ⟨h1, ?_, h4⟩
      rw [h3]
      simp [initialState]
    · intro e h
      exact runOnFunctions_error A num_hash rand hn M initialState e
        (initialState_indicesInPool num_hash) h

/-- Witness for C18: the run over the scenario function with two cells completes
with five recorded indices, all `< 2`, for five created fold calls. -/
theorem usedHashIndices_invariant_witness :
    (2 : Nat) ≠ 0 ∧
    ∃ out s, runOnModule plainAnalyses 2 (fun n => n) [scenarioFunction] = .ok (out, s) ∧
      s.usedHashIndices = [0, 0, 0, 0, 0] ∧ s.indicesInPool 2 ∧
      s.usedHashIndices.length = moduleFoldCalls out ∧
      ∀ F1 ∈ out, ∀ B1 ∈ F1.blocks, ∀ k, Slot.ins k ∈ B1.insts → LogsUsedCell s k := by
  refine ⟨by decide, ?_⟩
  cases h : runOnModule plainAnalyses 2 (fun n => n) [scenarioFunction] with
  | error e =>
    have h2 : (runOnModule plainAnalyses 2 (fun n => n) [scenarioFunction]).toOption.isSome
        = true := by decide
    rw [h] at h2
    cases h2
  | ok r =>
    have h3 : ((runOnModule plainAnalyses 2 (fun n => n) [scenarioFunction]).toOption.map
        fun r => r.2.usedHashIndices) = some [0, 0, 0, 0, 0] := by decide
    rw [h] at h3
    simp only [Except.toOption, Option.map_some', Option.some.injEq] at h3
    exact ⟨r.1, r.2, rfl, h3,
      ((usedHashIndices_invariant plainAnalyses 2 (fun n => n) (by decide)).2.2
        [scenarioFunction]).1 r.1 r.2 h⟩

theorem getElem?_append_offset {α : Type} (o1 l b : List α) (x : α) (k : Nat) :
    (o1 ++ b ++ x :: l)[o1.length + k]? = (b ++ x :: l)[k]? := by
  rw [List.append_assoc, List.getElem?_append_right (Nat.le_add_right _ _)]
  simp

theorem instrumentInst_cmp_zero (rand : Nat → Nat) (I : Slot) (s : PassState)
    (hcmp : I.kind.isCmp = true) : instrumentInst 0 rand I s = .error .divisionByZero := by
  obtain ⟨pred, lhs, rhs, hk⟩ : ∃ p l r, I.kind = InstKind.cmp p l r := by
    cases hI : I.kind <;> simp [hI, InstKind.isCmp] at hcmp
    exact ⟨_, _, _, rfl⟩
  unfold instrumentInst
  rw [hk]
  dsimp only
  have hty : (createAdd (createMul (Value.const (Ty.int 8) 64)
      (createAdd (createZExtOrBitCast I.value 8).1 (Value.const (Ty.int 8) 1)).1).1
      (Value.const (Ty.int 8) pred)).1.ty = .int 8 := by
    rw [(createAdd_shape _ _).1, Value.ty, (createMul_shape _ _).1]
    rfl
  unfold insertHashBuilder
  rw [hty]
  simp only [Ty.isIntegerTy, if_true]
  rw [insertHashBuilder_call_zero]

/-- With an empty pool the loop body on a comparison that is not flagged ends in
`rand() % 0`. -/
theorem visitInstruction_cmp_zero (A : Analyses) (rand : Nat → Nat) (inLoop : Bool) (I : Slot)
    (s : PassState) (hcmp : I.kind.isCmp = true) (hflag : A.isInputDependent I = false) :
    visitInstruction A 0 rand inLoop I s = .error .divisionByZero := by
  obtain ⟨hphi, hlog, _⟩ := cmp_not_phi_logger I.kind hcmp
  unfold visitInstruction instrumentUnlessDependent
  simp only [hphi, hlog, hflag, instrumentInst_cmp_zero rand I s hcmp, Bool.false_eq_true,
    if_false]

/-- C20: let `K` be a comparison that is not flagged, in a block that the run
walks and that is outside every loop.  In a
completed run the visit of `K` creates one log call and one fold call of the
same cell `idx`; in the output block the log call is at some position `p`, the
comparison at position `p + 1`, and the fold call at a position `q > p + 1`:
the log call comes right before the comparison and the fold call it refers to
comes after the comparison, hence after the log call. -/
theorem runOnModule_cmp_log_before_fold (A : Analyses) (num_hash : Nat) (rand : Nat → Nat)
    (M : List (Function Instruction)) (out : List (Function Slot)) (s : PassState)
    (h : runOnModule A num_hash rand M = .ok (out, s)) (i j : Nat)
    (F : Function Instruction) (B : BasicBlock Instruction) (K : Instruction)
    (hF : M[i]? = some F) (hB : F.blocks[j]? = some B) (hK : K ∈ B.insts)
    (ht : A.traverses F = true) (hs : A.skipsBlock F j B = false)
    (hloop : A.getLoopFor F B = false) (hcmp : K.kind.isCmp = true)
    (hflag : A.isInputDependent (.orig K) = false) :
    ∃ (F1 : Function Slot) (B1 : BasicBlock Slot) (s2 s3 : PassState) (uid idx : Nat)
      (pre : List InstKind) (c : Value) (f : Callee) (p q : Nat),
      out[i]? = some F1 ∧ F1.blocks[j]? = some B1 ∧
      visitInstruction A num_hash rand false (.orig K) s2
        = .ok ([.call (some logger) [.const (.int 32) uid, .hashPtr idx]],
               pre ++ [.call (some f) [.hashPtr idx, c]], s3) ∧
      (f = hashFunc1 ∨ f = hashFunc2) ∧
      B1.insts[p]? = some (.ins (.call (some logger) [.const (.int 32) uid, .hashPtr idx])) ∧
      B1.insts[p + 1]? = some (.orig K) ∧
      B1.insts[q]? = some (.ins (.call (some f) [.hashPtr idx, c])) ∧
      p + 1 < q := by
  obtain ⟨F1, B1, s2, b, a, s3, o1, o2, hF1, hB1, hv, hins, hsub⟩ :=
    runOnModule_site A num_hash rand M out s h i j F B K hF hB hK ht hs
  rw [hloop] at hv
  have hn : num_hash ≠ 0 := by
    intro h0
    rw [h0, visitInstruction_cmp_zero A rand false (.orig K) s2 hcmp hflag] at hv
    cases hv
  obtain ⟨pre, c, f, hv2, hf⟩ := visitInstruction_cmp A num_hash rand (.orig K) s2 hcmp hflag hn
  rw [hv2] at hv
  simp only [Except.ok.injEq, Prod.mk.injEq] at hv
  obtain ⟨hb, ha, hs3⟩ := hv
  have hmem : Slot.ins (.call (some f) [.hashPtr (rand s2.drawn % num_hash), c]) ∈ o2 := by
    apply hsub.subset
    rw [← ha]
    simp
  obtain ⟨r, hr⟩ := List.getElem?_of_mem hmem
  have hlt : r < o2.length := by
    rcases Nat.lt_or_ge r o2.length with hlt | hge
    · exact hlt
    · rw [List.getElem?_eq_none hge] at hr
      cases hr
  refine ⟨F1, B1, s2, s3, s2.uniqueId, rand s2.drawn % num_hash, pre, c, f, o1.length,
    o1.length + (2 + r), hF1, hB1, ?_, hf, ?_, ?_, ?_, by omega⟩
  · rw [hv2, hs3]
  · rw [hins, ← hb]
    exact (getElem?_append_offset o1 _ _ _ 0).trans rfl
  · rw [hins, ← hb]
    exact (getElem?_append_offset o1 _ _ _ 1).trans (by simp)
  · rw [hins, ← hb]
    exact (getElem?_append_offset o1 _ _ _ (2 + r)).trans
      (by rw [Nat.add_comm 2 r]; simpa using hr)

/-- Witness for C20: `%1 = icmp slt a, b; ret void` outside loops, with one cell:
the log call of cell 0 is at position 0, the comparison at position 1 and the
fold call into cell 0 at a later position. -/
theorem runOnModule_cmp_log_before_fold_witness :
    ∃ out s, runOnModule flagsInserted 1 (fun _ => 0) [cmpFunction] = .ok (out, s) ∧
      ∃ (F1 : Function Slot) (B1 : BasicBlock Slot) (s2 s3 : PassState) (uid idx : Nat)
        (pre : List InstKind) (c : Value) (f : Callee) (p q : Nat),
        out[0]? = some F1 ∧ F1.blocks[0]? = some B1 ∧
        visitInstruction flagsInserted 1 (fun _ => 0) false
            (.orig ⟨1, .int 1, .cmp 40 (.arg 0 (.int 32)) (.arg 1 (.int 32))⟩) s2
          = .ok ([.call (some logger) [.const (.int 32) uid, .hashPtr idx]],
                 pre ++ [.call (some f) [.hashPtr idx, c]], s3) ∧
        (f = hashFunc1 ∨ f = hashFunc2) ∧
        B1.insts[p]? = some (.ins (.call (some logger) [.const (.int 32) uid, .hashPtr idx])) ∧
        B1.insts[p + 1]?
          = some (.orig ⟨1, .int 1, .cmp 40 (.arg 0 (.int 32)) (.arg 1 (.int 32))⟩) ∧
        B1.insts[q]? = some (.ins (.call (some f) [.hashPtr idx, c])) ∧
        p + 1 < q := by
  cases h : runOnModule flagsInserted 1 (fun _ => 0) [cmpFunction] with
  | error e =>
    have h2 : (runOnModule flagsInserted 1 (fun _ => 0) [cmpFunction]).toOption.isSome
        = true := by decide
    rw [h] at h2
    cases h2
  | ok r =>
    exact ⟨r.1, r.2, rfl, runOnModule_cmp_log_before_fold flagsInserted 1 (fun _ => 0)
      [cmpFunction] r.1 r.2 h 0 0 cmpFunction ⟨0, _⟩
      ⟨1, .int 1, .cmp 40 (.arg 0 (.int 32)) (.arg 1 (.int 32))⟩
      rfl rfl (by decide) rfl rfl rfl rfl rfl⟩

/-! ### Independence of the random draws -/

theorem hashedValue_isCall (k : InstKind) (c : Value) (h : k.hashedValue = some c) :
    k.isCall = true := by
  cases k <;> simp [InstKind.hashedValue] at h
  rfl

theorem isLoggerCall_isCall (k : InstKind) (h : isLoggerCall k = true) : k.isCall = true := by
  cases k <;> simp [isLoggerCall] at h
  rfl

theorem isCall_not_phi (k : InstKind) (h : k.isCall = true) : k.isPhi = false := by
  cases k <;> simp [InstKind.isCall] at h
  rfl

/-- Two slots with the same skeleton are the same slot, or two created log calls,
or two created calls that are no log calls. -/
theorem skeleton_eq_cases (x y : Slot) (h : x.skeleton = y.skeleton) :
    x = y ∨
    (isLoggerCall x.kind = true ∧ isLoggerCall y.kind = true) ∨
    (x.kind.isCall = true ∧ y.kind.isCall = true ∧
      isLoggerCall x.kind = false ∧ isLoggerCall y.kind = false) := by
  cases x with
  | orig i =>
    cases y with
    | orig j =>
      simp only [Slot.skeleton, Option.some.injEq, Mark.inst.injEq] at h
      exact Or.inl h
    | ins k =>
      simp only [Slot.skeleton] at h
      split at h
      · cases h
      · split at h <;> simp at h
  | ins k1 =>
    cases y with
    | orig j =>
      simp only [Slot.skeleton] at h
      split at h
      · cases h
      · split at h <;> simp at h
    | ins k2 =>
      simp only [Slot.skeleton] at h
      by_cases h1 : isLoggerCall k1 = true
      · by_cases h2 : isLoggerCall k2 = true
        · exact Or.inr (Or.inl ⟨h1, h2⟩)
        · rw [if_pos h1, if_neg h2] at h
          split at h <;> cases h
      · by_cases h2 : isLoggerCall k2 = true
        · rw [if_neg h1, if_pos h2] at h
          split at h <;> cases h
        · rw [if_neg h1, if_neg h2] at h
          cases hv1 : k1.hashedValue with
          | some c1 =>
            cases hv2 : k2.hashedValue with
            | some c2 =>
              exact Or.inr (Or.inr ⟨hashedValue_isCall k1 c1 hv1, hashedValue_isCall k2 c2 hv2,
                by simpa using h1, by simpa using h2⟩)
            | none =>
              rw [hv1, hv2] at h
              simp at h
          | none =>
            cases hv2 : k2.hashedValue with
            | some c2 =>
              rw [hv1, hv2] at h
              simp at h
            | none =>
              rw [hv1, hv2] at h
              simp only [Option.some.injEq, Mark.inst.injEq] at h
              exact Or.inl h

theorem skeleton_foldCall (num_hash : Nat) (rand : Nat → Nat) (s : PassState) (c : Value) :
    (Slot.ins (foldCall num_hash rand s c)).skeleton = some (.fold c) := by
  unfold foldCall
  split
  · rfl
  · rfl

theorem skeleton_logs (logs : List InstKind) (h : ∀ k, k ∈ logs → isLoggerCall k = true) :
    (logs.map Slot.ins).filterMap Slot.skeleton = [] := by
  rw [List.filterMap_eq_nil_iff]
  intro x hx
  obtain ⟨k, hk, hEq⟩ := List.mem_map.1 hx
  rw [← hEq]
  simp [Slot.skeleton, h k hk]

theorem insertLogger_logs (num_hash : Nat) (rand : Nat → Nat) (I : Slot) (s : PassState)
    (logs : List InstKind) (s1 : PassState)
    (h : insertLogger num_hash rand I s = .ok (logs, s1)) :
    ∀ k, k ∈ logs → isLoggerCall k = true := by
  intro k hk
  rcases (insertLogger_ok _ _ _ _ _ _ h).2 with hl | ⟨s0, idx, _, _, hl⟩
  · rw [hl] at hk
    cases hk
  · rw [hl] at hk
    rw [List.mem_singleton.1 hk]
    rfl

theorem skeleton_cast_fold (num_hash : Nat) (r1 r2 : Nat → Nat) (s t : PassState)
    (pre : List InstKind) (c : Value) :
    ((pre ++ [foldCall num_hash r1 s c]).map Slot.ins).map Slot.skeleton
      = ((pre ++ [foldCall num_hash r2 t c]).map Slot.ins).map Slot.skeleton := by
  simp only [List.map_append, List.map_cons, List.map_nil, skeleton_foldCall]

theorem insertHashBuilder_skeleton (num_hash : Nat) (r1 r2 : Nat → Nat) (v : Value)
    (s t : PassState) (f : Bool) (new : List InstKind) (s1 : PassState)
    (h : insertHashBuilder num_hash r1 v s = .ok (f, new, s1)) :
    ∃ new2 t1, insertHashBuilder num_hash r2 v t = .ok (f, new2, t1) ∧
      (new.map Slot.ins).map Slot.skeleton = (new2.map Slot.ins).map Slot.skeleton := by
  unfold insertHashBuilder at h ⊢
  split at h
  · rename_i hint
    obtain ⟨hn, hr, hnew, _⟩ := insertHashBuilder_call_ok _ _ _ _ _ _ _ h
    rw [if_pos hint, insertHashBuilder_call_eq _ _ _ _ hn, hr, hnew]
    exact ⟨_, _, rfl, skeleton_cast_fold _ _ _ _ _ _ _⟩
  · rename_i hint
    rw [if_neg hint]
    split at h
    · rename_i hp
      simp only [Except.ok.injEq, Prod.mk.injEq] at h
      rw [if_pos hp, ← h.1, ← h.2.1]
      exact ⟨_, _, rfl, rfl⟩
    · rename_i hp
      rw [if_neg hp]
      split at h
      · rename_i hfl
        obtain ⟨hn, hr, hnew, _⟩ := insertHashBuilder_call_ok _ _ _ _ _ _ _ h
        rw [if_pos hfl, insertHashBuilder_call_eq _ _ _ _ hn, hr, hnew]
        exact ⟨_, _, rfl, skeleton_cast_fold _ _ _ _ _ _ _⟩
      · cases h

theorem insertHash_skeleton (num_hash : Nat) (r1 r2 : Nat → Nat) (v : Value) (before : Bool)
    (s t : PassState) (b a : List InstKind) (s1 : PassState)
    (h : insertHash num_hash r1 v before s = .ok (b, a, s1)) :
    ∃ b2 a2 t1, insertHash num_hash r2 v before t = .ok (b2, a2, t1) ∧
      (b.map Slot.ins).map Slot.skeleton = (b2.map Slot.ins).map Slot.skeleton ∧
      (a.map Slot.ins).map Slot.skeleton = (a2.map Slot.ins).map Slot.skeleton := by
  unfold insertHash at h ⊢
  split at h
  · rename_i hp
    simp only [Except.ok.injEq, Prod.mk.injEq] at h
    rw [if_pos hp, ← h.1, ← h.2.1]
    exact ⟨_, _, _, rfl, rfl, rfl⟩
  · rename_i hp
    rw [if_neg hp]
    split at h
    · cases h
    · rename_i f new s2 hb
      obtain ⟨new2, t1, hb2, hsk⟩ := insertHashBuilder_skeleton num_hash r1 r2 v s t f new s2 hb
      rw [hb2]
      cases before with
      | true =>
        simp only [if_true, Except.ok.injEq, Prod.mk.injEq] at h ⊢
        rw [← h.1, ← h.2.1]
        exact ⟨_, _, _, ⟨rfl, rfl, rfl⟩, hsk, rfl⟩
      | false =>
        simp only [Bool.false_eq_true, if_false, Except.ok.injEq, Prod.mk.injEq] at h ⊢
        rw [← h.1, ← h.2.1]
        exact ⟨_, _, _, ⟨rfl, rfl, rfl⟩, rfl, hsk⟩

theorem instrumentInst_skeleton (num_hash : Nat) (r1 r2 : Nat → Nat) (I : Slot)
    (s t : PassState) (b a : List InstKind) (s1 : PassState)
    (h : instrumentInst num_hash r1 I s = .ok (b, a, s1)) :
    ∃ b2 a2 t1, instrumentInst num_hash r2 I t = .ok (b2, a2, t1) ∧
      (b.map Slot.ins).map Slot.skeleton = (b2.map Slot.ins).map Slot.skeleton ∧
      (a.map Slot.ins).map Slot.skeleton = (a2.map Slot.ins).map Slot.skeleton := by
  have htriv : ∀ s0 : PassState,
      (Except.ok (([] : List InstKind), ([] : List InstKind), s0) : Except Err _)
        = Except.ok (b, a, s1) →
      ∃ b2 a2 t1, (Except.ok (([] : List InstKind), ([] : List InstKind), t) : Except Err _)
          = .ok (b2, a2, t1) ∧
        (b.map Slot.ins).map Slot.skeleton = (b2.map Slot.ins).map Slot.skeleton ∧
        (a.map Slot.ins).map Slot.skeleton = (a2.map Slot.ins).map Slot.skeleton := by
    intro s0 h0
    simp only [Except.ok.injEq, Prod.mk.injEq] at h0
    rw [← h0.1, ← h0.2.1]
    exact ⟨_, _, _, rfl, rfl, rfl⟩
  unfold instrumentInst at h ⊢
  generalize I.value = v at h ⊢
  generalize I.kind = k at h ⊢
  cases k with
  | cmp pred lhs rhs =>
    dsimp only at h ⊢
    split at h
    · cases h
    · rename_i f new s2 hb
      obtain ⟨new2, t1, hb2, hsk⟩ := insertHashBuilder_skeleton num_hash r1 r2 _ s t f new s2 hb
      rw [hb2]
      simp only [Except.ok.injEq, Prod.mk.injEq] at h ⊢
      rw [← h.1, ← h.2.1]
      refine ⟨_, _, _, ⟨rfl, rfl, rfl⟩, rfl, ?_⟩
      simp only [List.map_append] at hsk ⊢
      rw [hsk]
  | ret val =>
    cases val with
    | none => exact htriv s h
    | some w => exact insertHash_skeleton num_hash r1 r2 w true s t b a s1 h
  | load p => exact insertHash_skeleton num_hash r1 r2 v false s t b a s1 h
  | store w p => exact insertHash_skeleton num_hash r1 r2 w false s t b a s1 h
  | binop op x y =>
    cases op
    case add => exact insertHash_skeleton num_hash r1 r2 v false s t b a s1 h
    all_goals exact htriv s h
  | phi l => exact htriv s h
  | call c args => exact htriv s h
  | cast op w d => exact htriv s h
  | atomicrmw p w => exact htriv s h
  | other l => exact htriv s h

theorem instrumentInst_call (num_hash : Nat) (rand : Nat → Nat) (I : Slot) (s : PassState)
    (h : I.kind.isCall = true) : instrumentInst num_hash rand I s = .ok ([], [], s) := by
  unfold instrumentInst
  generalize I.value = v
  generalize I.kind = k at h ⊢
  cases k <;> simp [InstKind.isCall] at h
  rfl

/-- The loop body on a call that is no call of `oh_log`, from a state whose
recorded indices are in the pool: it completes and creates at most log calls,
all before the call. -/
theorem visitInstruction_call (A : Analyses) (num_hash : Nat) (rand : Nat → Nat)
    (inLoop : Bool) (I : Slot) (s : PassState) (hc : I.kind.isCall = true)
    (hl : isLoggerCall I.kind = false) (hinv : s.indicesInPool num_hash) :
    ∃ b s1, visitInstruction A num_hash rand inLoop I s = .ok (b, [], s1) ∧
      ∀ k, k ∈ b → isLoggerCall k = true := by
  have hiu : ∃ s2, instrumentUnlessDependent A num_hash rand I s = .ok ([], [], s2) ∧
      s2.indicesInPool num_hash := by
    unfold instrumentUnlessDependent
    by_cases hf : A.isInputDependent I = true
    · rw [if_pos hf]
      exact ⟨s, rfl, hinv⟩
    · rw [if_neg hf, instrumentInst_call _ _ _ _ hc]
      exact ⟨_, rfl, indicesInPool_congr rfl hinv⟩
  obtain ⟨s2, hs2, hinv2⟩ := hiu
  unfold visitInstruction
  rw [isCall_not_phi _ hc, hl, hs2]
  simp only [Bool.false_eq_true, if_false]
  cases inLoop with
  | true => exact ⟨[], s2, rfl, fun k hk => nomatch hk⟩
  | false =>
    obtain ⟨logs, s3, hl3⟩ := insertLogger_total num_hash rand I s2 hinv2
    simp only [Bool.false_eq_true, if_false]
    rw [hl3]
    exact ⟨[] ++ logs, _, rfl, by
      rw [List.nil_append]
      exact insertLogger_logs _ _ _ _ _ _ hl3⟩

theorem visitInstruction_logger (A : Analyses) (num_hash : Nat) (rand : Nat → Nat)
    (inLoop : Bool) (I : Slot) (s : PassState) (hl : isLoggerCall I.kind = true) :
    visitInstruction A num_hash rand inLoop I s = .ok ([], [], s) := by
  unfold visitInstruction
  rw [isCall_not_phi _ (isLoggerCall_isCall _ hl), hl]
  rfl

theorem instrumentUnlessDependent_skeleton (A : Analyses) (num_hash : Nat) (r1 r2 : Nat → Nat)
    (I : Slot) (s t : PassState) (b a : List InstKind) (s1 : PassState)
    (ht : t.indicesInPool num_hash)
    (h : instrumentUnlessDependent A num_hash r1 I s = .ok (b, a, s1)) :
    ∃ b2 a2 t1, instrumentUnlessDependent A num_hash r2 I t = .ok (b2, a2, t1) ∧
      t1.indicesInPool num_hash ∧
      (b.map Slot.ins).map Slot.skeleton = (b2.map Slot.ins).map Slot.skeleton ∧
      (a.map Slot.ins).map Slot.skeleton = (a2.map Slot.ins).map Slot.skeleton := by
  rcases instrumentUnlessDependent_ok _ _ _ _ _ _ _ _ h with
    ⟨hf, hb, ha, _⟩ | ⟨hf, s2, hi, _⟩
  · unfold instrumentUnlessDependent
    rw [if_pos hf, hb, ha]
    exact ⟨_, _, _, rfl, ht, rfl, rfl⟩
  · obtain ⟨b2, a2, t1, hi2, hb2, ha2⟩ := instrumentInst_skeleton num_hash r1 r2 I s t b a s2 hi
    unfold instrumentUnlessDependent
    rw [hf, hi2]
    simp only [Bool.false_eq_true, if_false]
    exact ⟨_, _, _, rfl,
      indicesInPool_congr rfl (instrumentInst_record _ _ _ _ _ _ _ ht hi2).1, hb2, ha2⟩

theorem filterMap_of_map_eq {α β γ : Type} (f : α → Option β) (g : γ → α) (l1 l2 : List γ)
    (h : (l1.map g).map f = (l2.map g).map f) :
    (l1.map g).filterMap f = (l2.map g).filterMap f := by
  have e : ∀ l : List α, l.filterMap f = (l.map f).filterMap id := by
    intro l
    induction l with
    | nil => rfl
    | cons x rest ih =>
      simp only [List.map_cons, List.filterMap_cons, id_eq, ih]
  rw [e, e, h]

/-- The loop body on one instruction under two sequences of draws, from two
states whose recorded indices are in the pool: when the first visit completes
so does the second; what they create before the instruction is the same up to
log calls and up to the cell and combining function of fold calls, and what
they create after it is the same, position by position, up to the cell and
combining function of fold calls. -/
theorem visitInstruction_same_skeleton (A : Analyses) (num_hash : Nat) (r1 r2 : Nat → Nat)
    (inLoop : Bool) (I : Slot) (s t : PassState) (b a : List InstKind) (s1 : PassState)
    (ht : t.indicesInPool num_hash)
    (h : visitInstruction A num_hash r1 inLoop I s = .ok (b, a, s1)) :
    ∃ b2 a2 t1, visitInstruction A num_hash r2 inLoop I t = .ok (b2, a2, t1) ∧
      (b.map Slot.ins).filterMap Slot.skeleton = (b2.map Slot.ins).filterMap Slot.skeleton ∧
      (a.map Slot.ins).map Slot.skeleton = (a2.map Slot.ins).map Slot.skeleton := by
  unfold visitInstruction at h ⊢
  split at h
  · rename_i hphi
    simp only [Except.ok.injEq, Prod.mk.injEq] at h
    rw [if_pos hphi, ← h.1, ← h.2.1]
    exact ⟨_, _, _, rfl, rfl, rfl⟩
  · rename_i hphi
    rw [if_neg hphi]
    split at h
    · rename_i hlog
      simp only [Except.ok.injEq, Prod.mk.injEq] at h
      rw [if_pos hlog, ← h.1, ← h.2.1]
      exact ⟨_, _, _, rfl, rfl, rfl⟩
    · rename_i hlog
      rw [if_neg hlog]
      split at h
      · cases h
      · rename_i b0 a0 s2 hiu
        obtain ⟨b2, a2, t1, hiu2, hinv2, hb2, ha2⟩ :=
          instrumentUnlessDependent_skeleton A num_hash r1 r2 I s t b0 a0 s2 ht hiu
        rw [hiu2]
        cases inLoop with
        | true =>
          simp only [if_true, Except.ok.injEq, Prod.mk.injEq] at h ⊢
          rw [← h.1, ← h.2.1]
          exact ⟨_, _, _, ⟨rfl, rfl, rfl⟩, filterMap_of_map_eq _ _ _ _ hb2, ha2⟩
        | false =>
          simp only [Bool.false_eq_true, if_false] at h ⊢
          split at h
          · cases h
          · rename_i logs s3 hl
            obtain ⟨logs2, t2, hl2⟩ := insertLogger_total num_hash r2 I t1 hinv2
            rw [hl2]
            simp only [Except.ok.injEq, Prod.mk.injEq] at h ⊢
            rw [← h.1, ← h.2.1]
            refine ⟨_, _, _, ⟨rfl, rfl, rfl⟩, ?_, ha2⟩
            rw [List.map_append, List.map_append, List.filterMap_append, List.filterMap_append,
              skeleton_logs logs (insertLogger_logs _ _ _ _ _ _ hl),
              skeleton_logs logs2 (insertLogger_logs _ _ _ _ _ _ hl2),
              filterMap_of_map_eq _ _ _ _ hb2]

theorem visitInstruction_skeleton (A : Analyses) (num_hash : Nat) (r1 r2 : Nat → Nat)
    (inLoop : Bool) (x y : Slot) (s t : PassState) (b a : List InstKind) (s1 : PassState)
    (hxy : x.skeleton = y.skeleton)
    (hs : s.indicesInPool num_hash) (ht : t.indicesInPool num_hash)
    (h : visitInstruction A num_hash r1 inLoop x s = .ok (b, a, s1)) :
    ∃ b2 a2 t1, visitInstruction A num_hash r2 inLoop y t = .ok (b2, a2, t1) ∧
      (b.map Slot.ins).filterMap Slot.skeleton = (b2.map Slot.ins).filterMap Slot.skeleton ∧
      (a.map Slot.ins).map Slot.skeleton = (a2.map Slot.ins).map Slot.skeleton := by
  rcases skeleton_eq_cases x y hxy with hEq | ⟨hx, hy⟩ | ⟨hx, hy, hlx, hly⟩
  · rw [← hEq]
    exact visitInstruction_same_skeleton A num_hash r1 r2 inLoop x s t b a s1 ht h
  · rw [visitInstruction_logger _ _ _ _ _ _ hx] at h
    simp only [Except.ok.injEq, Prod.mk.injEq] at h
    rw [visitInstruction_logger _ _ _ _ _ _ hy, ← h.1, ← h.2.1]
    exact ⟨_, _, _, rfl, rfl, rfl⟩
  · obtain ⟨b1, s2, hv1, hb1⟩ := visitInstruction_call A num_hash r1 inLoop x s hx hlx hs
    obtain ⟨b2, t2, hv2, hb2⟩ := visitInstruction_call A num_hash r2 inLoop y t hy hly ht
    rw [hv1] at h
    simp only [Except.ok.injEq, Prod.mk.injEq] at h
    rw [hv2, ← h.1, ← h.2.1]
    exact ⟨_, _, _, rfl, by rw [skeleton_logs b1 hb1, skeleton_logs b2 hb2], rfl⟩

theorem visitInstructions_skeleton (A : Analyses) (num_hash : Nat) (r1 r2 : Nat → Nat)
    (inLoop : Bool) :
    ∀ (fuel : Nat) (l1 l2 : List Slot) (s t : PassState) (out1 : List Slot) (s1 : PassState),
      l1.map Slot.skeleton = l2.map Slot.skeleton →
      s.indicesInPool num_hash → t.indicesInPool num_hash →
      visitInstructions A num_hash r1 inLoop fuel l1 s = .ok (out1, s1) →
      ∃ out2 t1, visitInstructions A num_hash r2 inLoop fuel l2 t = .ok (out2, t1) ∧
        s1.indicesInPool num_hash ∧ t1.indicesInPool num_hash ∧
        out1.filterMap Slot.skeleton = out2.filterMap Slot.skeleton := by
  have hnil : ∀ (fuel : Nat) (l2 : List Slot) (s t : PassState) (out1 : List Slot)
      (s1 : PassState), ([] : List Slot).map Slot.skeleton = l2.map Slot.skeleton →
      s.indicesInPool num_hash → t.indicesInPool num_hash →
      visitInstructions A num_hash r1 inLoop fuel [] s = .ok (out1, s1) →
      ∃ out2 t1, visitInstructions A num_hash r2 inLoop fuel l2 t = .ok (out2, t1) ∧
        s1.indicesInPool num_hash ∧ t1.indicesInPool num_hash ∧
        out1.filterMap Slot.skeleton = out2.filterMap Slot.skeleton := by
    intro fuel l2 s t out1 s1 hmap hs ht h
    cases l2 with
    | cons y rest2 => simp at hmap
    | nil =>
      cases fuel <;>
      · simp [visitInstructions] at h
        rw [h.1, ← h.2]
        exact ⟨[], t, by simp [visitInstructions], hs, ht, rfl⟩
  intro fuel
  induction fuel with
  | zero =>
    intro l1 l2 s t out1 s1 hmap hs ht h
    cases l1 with
    | nil => exact hnil 0 l2 s t out1 s1 hmap hs ht h
    | cons x rest1 => simp [visitInstructions] at h
  | succ fuel ih =>
    intro l1 l2 s t out1 s1 hmap hs ht h
    cases l1 with
    | nil => exact hnil (fuel + 1) l2 s t out1 s1 hmap hs ht h
    | cons x rest1 =>
      cases l2 with
      | nil => simp at hmap
      | cons y rest2 =>
        simp only [List.map_cons, List.cons.injEq] at hmap
        obtain ⟨hxy, hrest⟩ := hmap
        simp only [visitInstructions] at h ⊢
        split at h
        · cases h
        · rename_i b a s2 hv
          obtain ⟨b2, a2, t2, hv2, hb2, ha2⟩ :=
            visitInstruction_skeleton A num_hash r1 r2 inLoop x y s t b a s2 hxy hs ht hv
          have hs2 := (visitInstruction_record _ _ _ _ _ _ _ _ _ hs hv).1
          have ht2 := (visitInstruction_record _ _ _ _ _ _ _ _ _ ht hv2).1
          rw [hv2]
          dsimp only
          split at h
          · cases h
          · rename_i out s3 hrec
            have hmap2 : (a.map Slot.ins ++ rest1).map Slot.skeleton
                = (a2.map Slot.ins ++ rest2).map Slot.skeleton := by
              rw [List.map_append, List.map_append, ha2, hrest]
            obtain ⟨out2, t3, hrec2, hs3, ht3, hout⟩ := ih _ _ _ _ _ _ hmap2 hs2 ht2 hrec
            simp only [Except.ok.injEq, Prod.mk.injEq] at h
            rw [hrec2, ← h.1, ← h.2]
            refine ⟨_, _, rfl, hs3, ht3, ?_⟩
            rw [List.filterMap_append, List.filterMap_append, hb2, List.filterMap_cons,
              List.filterMap_cons, hxy, hout]

theorem runOnBlock_skeleton (A : Analyses) (num_hash : Nat) (r1 r2 : Nat → Nat)
    (inLoop : Bool) (B : BasicBlock Instruction) (s t : PassState) (B1 : BasicBlock Slot)
    (s1 : PassState) (hs : s.indicesInPool num_hash) (ht : t.indicesInPool num_hash)
    (h : runOnBlock A num_hash r1 inLoop B s = .ok (B1, s1)) :
    ∃ B2 t1, runOnBlock A num_hash r2 inLoop B t = .ok (B2, t1) ∧
      s1.indicesInPool num_hash ∧ t1.indicesInPool num_hash ∧ B1.skeleton = B2.skeleton := by
  unfold runOnBlock at h ⊢
  split at h
  · cases h
  · rename_i out s2 hv
    obtain ⟨out2, t1, hv2, hs1, ht1, hout⟩ :=
      visitInstructions_skeleton A num_hash r1 r2 inLoop _ _ _ s t out s2 rfl hs ht hv
    simp only [Except.ok.injEq, Prod.mk.injEq] at h
    rw [hv2, ← h.1, ← h.2]
    exact ⟨_, _, rfl, hs1, ht1, by simp only [BasicBlock.skeleton, hout]⟩

theorem runOnBlocks_skeleton (A : Analyses) (num_hash : Nat) (r1 r2 : Nat → Nat)
    (F : Function Instruction) :
    ∀ (l : List (BasicBlock Instruction)) (s t : PassState) (out1 : List (BasicBlock Slot))
      (s1 : PassState), s.indicesInPool num_hash → t.indicesInPool num_hash →
      runOnBlocks A num_hash r1 F l s = .ok (out1, s1) →
      ∃ out2 t1, runOnBlocks A num_hash r2 F l t = .ok (out2, t1) ∧
        s1.indicesInPool num_hash ∧ t1.indicesInPool num_hash ∧
        out1.map BasicBlock.skeleton = out2.map BasicBlock.skeleton := by
  intro l
  induction l with
  | nil =>
    intro s t out1 s1 hs ht h
    simp [runOnBlocks] at h
    rw [h.1, ← h.2]
    exact ⟨[], t, by simp [runOnBlocks], hs, ht, rfl⟩
  | cons B rest ih =>
    intro s t out1 s1 hs ht h
    simp only [runOnBlocks] at h ⊢
    split at h
    · rename_i hskip
      rw [if_pos hskip]
      split at h
      · cases h
      · rename_i out s2 hrec
        obtain ⟨out2, t1, hrec2, hs1, ht1, hout⟩ := ih _ _ _ _ hs ht hrec
        simp only [Except.ok.injEq, Prod.mk.injEq] at h
        rw [hrec2, ← h.1, ← h.2]
        exact ⟨_, _, rfl, hs1, ht1, by simp only [List.map_cons, hout]⟩
    · rename_i hskip
      rw [if_neg hskip]
      split at h
      · cases h
      · rename_i B1 s2 hb
        obtain ⟨B2, t2, hb2, hs2, ht2, hB⟩ :=
          runOnBlock_skeleton A num_hash r1 r2 _ B s t B1 s2 hs ht hb
        rw [hb2]
        dsimp only
        split at h
        · cases h
        · rename_i out s3 hrec
          obtain ⟨out2, t3, hrec2, hs3, ht3, hout⟩ := ih _ _ _ _ hs2 ht2 hrec
          simp only [Except.ok.injEq, Prod.mk.injEq] at h
          rw [hrec2, ← h.1, ← h.2]
          exact ⟨_, _, rfl, hs3, ht3, by simp only [List.map_cons, hB, hout]⟩

theorem runOnFunction_skeleton (A : Analyses) (num_hash : Nat) (r1 r2 : Nat → Nat)
    (F : Function Instruction) (s t : PassState) (F1 : Function Slot) (s1 : PassState)
    (hs : s.indicesInPool num_hash) (ht : t.indicesInPool num_hash)
    (h : runOnFunction A num_hash r1 F s = .ok (F1, s1)) :
    ∃ F2 t1, runOnFunction A num_hash r2 F t = .ok (F2, t1) ∧
      s1.indicesInPool num_hash ∧ t1.indicesInPool num_hash ∧ F1.skeleton = F2.skeleton := by
  unfold runOnFunction at h ⊢
  split at h
  · rename_i hd
    simp only [Except.ok.injEq, Prod.mk.injEq] at h
    rw [if_pos hd, ← h.1, ← h.2]
    exact ⟨_, _, rfl, hs, ht, rfl⟩
  · rename_i hd
    rw [if_neg hd]
    split at h
    · rename_i hi
      simp only [Except.ok.injEq, Prod.mk.injEq] at h
      rw [if_pos hi, ← h.1, ← h.2]
      exact ⟨_, _, rfl, hs, ht, rfl⟩
    · rename_i hi
      rw [if_neg hi]
      split at h
      · cases h
      · rename_i out s2 hb
        obtain ⟨out2, t1, hb2, hs1, ht1, hout⟩ :=
          runOnBlocks_skeleton A num_hash r1 r2 F _ s t out s2 hs ht hb
        simp only [Except.ok.injEq, Prod.mk.injEq] at h
        rw [hb2, ← h.1, ← h.2]
        exact ⟨_, _, rfl, hs1, ht1, by simp only [Function.skeleton, hout]⟩

theorem runOnFunctions_skeleton (A : Analyses) (num_hash : Nat) (r1 r2 : Nat → Nat) :
    ∀ (l : List (Function Instruction)) (s t : PassState) (out1 : List (Function Slot))
      (s1 : PassState), s.indicesInPool num_hash → t.indicesInPool num_hash →
      runOnFunctions A num_hash r1 l s = .ok (out1, s1) →
      ∃ out2 t1, runOnFunctions A num_hash r2 l t = .ok (out2, t1) ∧
        out1.map Function.skeleton = out2.map Function.skeleton := by
  intro l
  induction l with
  | nil =>
    intro s t out1 s1 _ _ h
    simp [runOnFunctions] at h
    rw [h.1]
    exact ⟨[], t, by simp [runOnFunctions], rfl⟩
  | cons F rest ih =>
    intro s t out1 s1 hs ht h
    simp only [runOnFunctions] at h ⊢
    split at h
    · cases h
    · rename_i F1 s2 hf
      obtain ⟨F2, t2, hf2, hs2, ht2, hF⟩ :=
        runOnFunction_skeleton A num_hash r1 r2 F s t F1 s2 hs ht hf
      rw [hf2]
      dsimp only
      split at h
      · cases h
      · rename_i out s3 hrec
        obtain ⟨out2, t3, hrec2, hout⟩ := ih _ _ _ _ hs2 ht2 hrec
        simp only [Except.ok.injEq, Prod.mk.injEq] at h
        rw [hrec2, ← h.1]
        exact ⟨_, _, rfl, by simp only [List.map_cons, hF, hout]⟩

/-- C19: for every module, every outcome of the analyses and every pool size, and
for two sequences of random draws `r1` and `r2`: when the run with `r1`
completes so does the run with `r2`, and the two outputs have the same
skeleton: the same functions and blocks with the same input instructions and
the same created casts, additions and multiplications in the same order, and
fold calls at the same positions with the same hashed values.  The outputs
differ at most in the cell and the combining function of each fold call and in
the created log calls. -/
theorem runOnModule_skeleton_independent_of_draws (A : Analyses) (num_hash : Nat)
    (r1 r2 : Nat → Nat) (M : List (Function Instruction)) (out1 : List (Function Slot))
    (s1 : PassState) (h : runOnModule A num_hash r1 M = .ok (out1, s1)) :
    ∃ out2 s2, runOnModule A num_hash r2 M = .ok (out2, s2) ∧
      out1.map Function.skeleton = out2.map Function.skeleton :=
  runOnFunctions_skeleton A num_hash r1 r2 M initialState initialState out1 s1
    (initialState_indicesInPool num_hash) (initialState_indicesInPool num_hash) h

/-- A created instruction of one of the shapes the loop body creates counts as a
fold call exactly when its skeleton is a fold mark. -/
theorem emittedShape_fold_mark {A : Analyses} {num_hash : Nat} {rand : Nat → Nat}
    {inLoop : Bool} {I : Slot} {k : InstKind} (h : EmittedShape A num_hash rand inLoop I k) :
    createdFoldCalls [Slot.ins k] = ([Slot.ins k].filterMap Slot.skeleton).countP Mark.isFold := by
  rcases h with ⟨hc, _⟩ | ⟨_, s0, w, c, hk, _, _⟩ | ⟨_, s0, idx, _, hk⟩
  · cases k <;> simp [InstKind.isCall] at hc
    all_goals rfl
  · rw [hk]
    simp only [List.filterMap_cons, List.filterMap_nil, skeleton_foldCall]
    simp [createdFoldCalls, Slot.inserted, Slot.kind, foldCall_isFoldCall, Mark.isFold]
  · rw [hk]
    rfl

theorem createdFoldCalls_skeleton (l : List Slot)
    (h : ∀ k, Slot.ins k ∈ l → ∃ A num_hash rand inLoop I, EmittedShape A num_hash rand inLoop I k) :
    createdFoldCalls l = (l.filterMap Slot.skeleton).countP Mark.isFold := by
  induction l with
  | nil => rfl
  | cons x rest ih =>
    have hrest := ih fun k hk => h k (List.mem_cons_of_mem _ hk)
    have hx : createdFoldCalls [x] = ([x].filterMap Slot.skeleton).countP Mark.isFold := by
      cases x with
      | orig i => rfl
      | ins k =>
        obtain ⟨A, n, r, inLoop, I, hs⟩ := h k (List.mem_cons_self _ _)
        exact emittedShape_fold_mark hs
    have e : x :: rest = [x] ++ rest := rfl
    rw [createdFoldCalls_cons, e, List.filterMap_append, List.countP_append, hx, hrest]

/-- In a completed run the created fold calls of the output are as many as the
fold marks of its skeleton. -/
theorem runOnModule_fold_marks (A : Analyses) (num_hash : Nat) (rand : Nat → Nat)
    (M : List (Function Instruction)) (out : List (Function Slot)) (s : PassState)
    (h : runOnModule A num_hash rand M = .ok (out, s)) :
    moduleFoldCalls out = skeletonFoldCalls (out.map Function.skeleton) := by
  unfold moduleFoldCalls skeletonFoldCalls
  rw [List.map_map]
  congr 1
  apply List.map_congr_left
  intro F1 hF1
  simp only [Function.comp_apply, Function.skeleton, List.map_map]
  congr 1
  apply List.map_congr_left
  intro B1 hB1
  simp only [Function.comp_apply, BasicBlock.skeleton]
  apply createdFoldCalls_skeleton
  intro k hk
  obtain ⟨F, B, _, _, I, s2, b, a, s3, _, hv, hmem⟩ :=
    runOnModule_emitted A num_hash rand M out s h F1 B1 k hF1 hB1 hk
  exact ⟨A, num_hash, rand, _, I, visitInstruction_shape _ _ _ _ _ _ _ _ _ hv k hmem⟩

/-- C14, the scenario function with two cells, no loop and no instruction flagged
(those the run creates included): for every sequence of random draws the run
completes with five created fold calls and five entries in the usage record,
not three.  The loop also visits the two additions that `instrumentInst` created
after the comparison and folds each of them. -/
theorem runOnModule_scenario_five_folds (rand : Nat → Nat) :
    ∃ out s, runOnModule plainAnalyses 2 rand [scenarioFunction] = .ok (out, s) ∧
      moduleFoldCalls out = 5 ∧ s.usedHashIndices.length = 5 := by
  cases h0 : runOnModule plainAnalyses 2 (fun _ => 0) [scenarioFunction] with
  | error e =>
    have h2 : (runOnModule plainAnalyses 2 (fun _ => 0) [scenarioFunction]).toOption.isSome
        = true := by decide
    rw [h0] at h2
    cases h2
  | ok r0 =>
    have h3 : ((runOnModule plainAnalyses 2 (fun _ => 0) [scenarioFunction]).toOption.map
        fun r => skeletonFoldCalls (r.1.map Function.skeleton)) = some 5 := by decide
    rw [h0] at h3
    simp only [Except.toOption, Option.map_some', Option.some.injEq] at h3
    obtain ⟨out, s, hrun, hsk⟩ := runOnFunctions_skeleton plainAnalyses 2 (fun _ => 0) rand
      [scenarioFunction] initialState initialState r0.1 r0.2
      (initialState_indicesInPool 2) (initialState_indicesInPool 2) h0
    have hcount : moduleFoldCalls out = 5 := by
      rw [runOnModule_fold_marks plainAnalyses 2 rand [scenarioFunction] out s hrun, ← hsk, h3]
    have hlen := (runOnFunctions_record plainAnalyses 2 rand [scenarioFunction] initialState
      out s (initialState_indicesInPool 2) hrun).2.2.1
    refine ⟨out, s, hrun, hcount, ?_⟩
    rw [hlen, hcount]
    rfl

/-- Witness for C14: the scenario function with two cells and every draw 0 gives
five created fold calls and the usage record `[0, 0, 0, 0, 0]`. -/
theorem runOnModule_scenario_five_folds_witness :
    ((runOnModule plainAnalyses 2 (fun _ => 0) [scenarioFunction]).toOption.map
      fun r => (moduleFoldCalls r.1, r.2.usedHashIndices)) = some (5, [0, 0, 0, 0, 0]) ∧
    ∃ out s, runOnModule plainAnalyses 2 (fun _ => 0) [scenarioFunction] = .ok (out, s) ∧
      moduleFoldCalls out = 5 ∧ s.usedHashIndices.length = 5 :=
  ⟨by decide, runOnModule_scenario_five_folds (fun _ => 0)⟩

/-- Witness for C19: `ret i64 a` with two cells under the draws that are all 0
and the draws that are all 1: the outputs differ in the cell and the combining
function of the fold call and in the log call, and have the same skeleton. -/
theorem runOnModule_skeleton_independent_of_draws_witness :
    runOnModule plainAnalyses 2 (fun _ => 0) [retFunction]
      = .ok ([⟨"r", false, false, [⟨0, [
          .ins (.call (some hashFunc2) [.hashPtr 0, .arg 0 (.int 64)]),
          .orig ⟨1, .other, .ret (some (.arg 0 (.int 64)))⟩]⟩]⟩],
        ⟨[0], 0, 4, true⟩) ∧
    ∃ out2 s2, runOnModule plainAnalyses 2 (fun _ => 1) [retFunction] = .ok (out2, s2) ∧
      ([⟨"r", false, false, [⟨0, [
          .ins (.call (some hashFunc2) [.hashPtr 0, .arg 0 (.int 64)]),
          .orig ⟨1, .other, .ret (some (.arg 0 (.int 64)))⟩]⟩]⟩] :
        List (Function Slot)).map Function.skeleton = out2.map Function.skeleton :=
  ⟨rfl, runOnModule_skeleton_independent_of_draws plainAnalyses 2 (fun _ => 0) (fun _ => 1)
    [retFunction] _ _
    (show runOnModule plainAnalyses 2 (fun _ => 0) [retFunction]
      = .ok ([⟨"r", false, false, [⟨0, [
          .ins (.call (some hashFunc2) [.hashPtr 0, .arg 0 (.int 64)]),
          .orig ⟨1, .other, .ret (some (.arg 0 (.int 64)))⟩]⟩]⟩],
        ⟨[0], 0, 4, true⟩) from rfl)⟩

end oh
